import Mathlib

/-!
# Memory-management simulator: cache hierarchy and demand paging

A shallow embedding of `src/cache/cache.cpp` and
`src/virtual_memory/virtual_memory.cpp`.

Conventions of the embedding.

* `size_t` values (addresses, tags, stamps, clocks, counters) are natural
  numbers.  The source increments its counters without any bound check; the
  embedding agrees with it as long as fewer than `2 ^ 64` accesses have been
  made.  The one place where the width is visible in the source, the initial
  value `SIZE_MAX` of `select_victim`, is kept as `2 ^ 64 - 1`.
* `std::vector` is a `List`.  Reading outside a vector is undefined in the
  source; the embedding reads a default element there and drops a write
  there.  The theorems are stated for indices that are in range, and
  `accessDefined` says when the indexes of an access are.
* `std::unordered_set<size_t>` is a `Finset Nat`.
* `std::log2` applied to a `size_t` and truncated back to `size_t` is the
  binary logarithm rounded down (`log2`, equal to `Nat.log 2`); shifts and
  the mask are the bit operations of `Nat`.  The source computes the mask
  `(1 << indexBits) - 1` in `int`, which is the same number for fewer than
  `2 ^ 31` sets.
* A slot of `frameMap` is an `int` in the source and an `Int` here; storing
  a page number in it is exact for fewer than `2 ^ 31` pages.
* What the source prints is returned as a value: a `Bool` or a
  `CacheOutcome` for the caches, a list of `Event`s for the paging unit.
-/

namespace MemSim

/-! ## Cache level (`Cache` of cache.cpp, `CacheLevel` of virtual_memory.cpp) -/

/-- Replacement policy of a level: `ReplacePolicy` / `CachePolicy`. -/
inductive CachePolicy where
  | FIFO
  | LRU
  deriving DecidableEq, Repr

/-- One line of a set: `Line` / `CacheLine`, constructed invalid with tag and
stamp zero. -/
structure CacheLine where
  valid : Bool := false
  tag : Nat := 0
  stamp : Nat := 0
  deriving DecidableEq, Repr

instance : Inhabited CacheLine := ⟨{}⟩

/-- The class `CacheLevel` of virtual_memory.cpp; `Cache` of cache.cpp has the
same fields and one more, `latency`. -/
structure CacheLevel where
  cacheSize : Nat
  blockSize : Nat
  ways : Nat
  setsCount : Nat
  sets : List (List CacheLine)
  policy : CachePolicy
  hits : Nat
  misses : Nat
  clock : Nat
  deriving DecidableEq, Repr

/-- Constructor `CacheLevel(c, b, w, p)`: `setsCount = (c / b) / w`, every line
invalid, counters zero. -/
def CacheLevel.mk0 (c b w : Nat) (p : CachePolicy) : CacheLevel :=
  { cacheSize := c, blockSize := b, ways := w,
    setsCount := (c / b) / w,
    sets := List.replicate ((c / b) / w) (List.replicate w {}),
    policy := p, hits := 0, misses := 0, clock := 0 }

/-- Halving count behind `log2`: how often `n` can be halved before it drops
below 2, with `fuel` bounding the number of steps. -/
def log2Aux : Nat → Nat → Nat
  | 0, _ => 0
  | fuel + 1, n => if n < 2 then 0 else log2Aux fuel (n / 2) + 1

/-- The value of `size_t x = log2(n)`: the binary logarithm rounded down. -/
def log2 (n : Nat) : Nat := log2Aux n n

/-- Index of the first element satisfying `p`: the scan
`for (auto &line : set) if (p line) ...` stopped at its first success. -/
def firstIdx {α : Type} (p : α → Bool) : List α → Option Nat
  | [] => none
  | x :: xs => if p x then some 0 else (firstIdx p xs).map (· + 1)

/-- The loop `for (i = 1; i < set.size(); i++) if (set[i].stamp < minStamp) ...`
run over the lines from way `i` on, with the current `victim` and `minStamp`. -/
def victimLoop : List CacheLine → Nat → Nat → Nat → Nat
  | [], _, victim, _ => victim
  | l :: ls, i, victim, minStamp =>
      if l.stamp < minStamp then victimLoop ls (i + 1) i l.stamp
      else victimLoop ls (i + 1) victim minStamp

/-- The replacement scan: `victim = 0; minStamp = set[0].stamp;` then the loop
from way 1. -/
def victimWay (set : List CacheLine) : Nat :=
  victimLoop (set.drop 1) 1 0 (set.getD 0 default).stamp

/-- Offset width `log2(blockSize)`. -/
def CacheLevel.offsetBits (c : CacheLevel) : Nat := log2 c.blockSize

/-- Index width `log2(setsCount)`. -/
def CacheLevel.indexBits (c : CacheLevel) : Nat := log2 c.setsCount

/-- Set index of an address: `(addr >> offsetBits) & ((1 << indexBits) - 1)`. -/
def CacheLevel.index (c : CacheLevel) (addr : Nat) : Nat :=
  (addr >>> c.offsetBits) &&& ((1 <<< c.indexBits) - 1)

/-- Tag of an address: `addr >> (offsetBits + indexBits)`. -/
def CacheLevel.tagOf (c : CacheLevel) (addr : Nat) : Nat :=
  addr >>> (c.offsetBits + c.indexBits)

/-- The method `access` of a level: the new state and the returned `bool`. -/
def CacheLevel.access (c : CacheLevel) (addr : Nat) : CacheLevel × Bool :=
  let clock := c.clock + 1
  let index := c.index addr
  let tag := c.tagOf addr
  let set := c.sets.getD index []
  match firstIdx (fun l => l.valid && l.tag == tag) set with
  | some i =>
      let line := set.getD i default
      let line' := if c.policy = CachePolicy.LRU then { line with stamp := clock } else line
      ({ c with clock := clock, hits := c.hits + 1,
                sets := c.sets.set index (set.set i line') }, true)
  | none =>
      match firstIdx (fun l => !l.valid) set with
      | some i =>
          ({ c with clock := clock, misses := c.misses + 1,
                    sets := c.sets.set index
                      (set.set i { valid := true, tag := tag, stamp := clock }) }, false)
      | none =>
          let victim := victimWay set
          let line := set.getD victim default
          ({ c with clock := clock, misses := c.misses + 1,
                    sets := c.sets.set index
                      (set.set victim { line with tag := tag, stamp := clock }) }, false)

/-- The line in way `j` of set `i`, when there is one. -/
def CacheLevel.line? (c : CacheLevel) (i j : Nat) : Option CacheLine :=
  (c.sets[i]?).bind (fun s => s[j]?)

/-- The set addressed by `addr`: `sets[index]`. -/
def CacheLevel.setAt (c : CacheLevel) (addr : Nat) : List CacheLine :=
  c.sets.getD (c.index addr) []

/-- The addressed set holds a valid line carrying the tag of `addr`. -/
def CacheLevel.present (c : CacheLevel) (addr : Nat) : Prop :=
  ∃ l ∈ c.setAt addr, l.valid = true ∧ l.tag = c.tagOf addr

instance (c : CacheLevel) (addr : Nat) : Decidable (c.present addr) := by
  unfold CacheLevel.present CacheLevel.setAt; infer_instance

/-- Shape of a constructed level: `setsCount` sets of `ways` lines each, with at
least one set and one way. -/
structure CacheLevel.WF (c : CacheLevel) : Prop where
  sets_len : c.sets.length = c.setsCount
  sets_pos : 0 < c.setsCount
  ways_pos : 0 < c.ways
  set_len : ∀ s ∈ c.sets, s.length = c.ways

/-! ## Two-level hierarchy -/

/-- The class `Cache` of cache.cpp: a level with a `latency`. -/
structure Cache extends CacheLevel where
  latency : Nat
  deriving DecidableEq, Repr

/-- Constructor `Cache(c, b, w, p, delay)`. -/
def Cache.mk0 (c b w : Nat) (p : CachePolicy) (delay : Nat) : Cache :=
  { toCacheLevel := CacheLevel.mk0 c b w p, latency := delay }

/-- The method `Cache::access`, the same code as `CacheLevel::access`. -/
def Cache.access (c : Cache) (addr : Nat) : Cache × Bool :=
  ({ c with toCacheLevel := (c.toCacheLevel.access addr).1 }, (c.toCacheLevel.access addr).2)

/-- Which of the three lines the hierarchy prints for an access. -/
inductive CacheOutcome where
  | L1Hit
  | L2Hit
  | Miss
  deriving DecidableEq, Repr

/-- The class `CacheHierarchy` of cache.cpp. -/
structure CacheHierarchy where
  L1 : Cache
  L2 : Cache
  totalTime : Nat
  deriving DecidableEq, Repr

/-- Constructor `CacheHierarchy()`. -/
def CacheHierarchy.mk0 : CacheHierarchy :=
  { L1 := Cache.mk0 256 32 4 CachePolicy.LRU 1,
    L2 := Cache.mk0 1024 64 4 CachePolicy.FIFO 8,
    totalTime := 0 }

/-- The method `CacheHierarchy::access`. -/
def CacheHierarchy.access (h : CacheHierarchy) (addr : Nat) : CacheHierarchy × CacheOutcome :=
  let t1 := h.totalTime + h.L1.latency
  let r1 := h.L1.access addr
  if r1.2 then
    ({ L1 := r1.1, L2 := h.L2, totalTime := t1 }, CacheOutcome.L1Hit)
  else
    let t2 := t1 + h.L2.latency
    let r2 := h.L2.access addr
    if r2.2 then
      ({ L1 := (r1.1.access addr).1, L2 := r2.1, totalTime := t2 }, CacheOutcome.L2Hit)
    else
      let t3 := t2 + 80
      let r2' := r2.1.access addr
      let r1' := r1.1.access addr
      ({ L1 := r1'.1, L2 := r2'.1, totalTime := t3 }, CacheOutcome.Miss)

/-- The class `CacheSystem` of virtual_memory.cpp. -/
structure CacheSystem where
  L1 : CacheLevel
  L2 : CacheLevel
  deriving DecidableEq, Repr

/-- Constructor `CacheSystem()`. -/
def CacheSystem.mk0 : CacheSystem :=
  { L1 := CacheLevel.mk0 256 32 4 CachePolicy.LRU,
    L2 := CacheLevel.mk0 1024 64 4 CachePolicy.FIFO }

/-- The method `CacheSystem::access`. -/
def CacheSystem.access (h : CacheSystem) (pa : Nat) : CacheSystem × CacheOutcome :=
  let r1 := h.L1.access pa
  if r1.2 then
    ({ L1 := r1.1, L2 := h.L2 }, CacheOutcome.L1Hit)
  else
    let r2 := h.L2.access pa
    if r2.2 then
      ({ L1 := (r1.1.access pa).1, L2 := r2.1 }, CacheOutcome.L2Hit)
    else
      let r2' := r2.1.access pa
      let r1' := r1.1.access pa
      ({ L1 := r1'.1, L2 := r2'.1 }, CacheOutcome.Miss)

/-! ## Demand paging (`VirtualMemory` of virtual_memory.cpp) -/

/-- The struct `PageEntry`, constructed invalid with frame and time zero. -/
structure PageEntry where
  valid : Bool := false
  frame : Nat := 0
  time : Nat := 0
  deriving DecidableEq, Repr

instance : Inhabited PageEntry := ⟨{}⟩

/-- The class `VirtualMemory`.  A slot of `frameMap` holds `-1` when the frame
is free and the resident page number otherwise. -/
structure VirtualMemory where
  pageSize : Nat
  pages : Nat
  frames : Nat
  table : List PageEntry
  frameMap : List Int
  disk : Finset Nat
  clock : Nat
  hits : Nat
  faults : Nat
  cache : CacheSystem

/-- A line printed by `VirtualMemory::access` and the methods it calls. -/
inductive Event where
  | pageHit (va pa : Nat)
  | pageFault (va : Nat)
  | pageIn (p : Nat)
  | pageOut (p : Nat)
  | replaced (victim page : Nat)
  | cache (o : CacheOutcome)
  deriving DecidableEq, Repr

/-- How an access is classified in the output. -/
inductive PageOutcome where
  | HIT
  | FAULT
  deriving DecidableEq, Repr

/-- The constant `SIZE_MAX` of a 64-bit `size_t`. -/
def SIZE_MAX : Nat := 2 ^ 64 - 1

/-- Constructor `VirtualMemory(vSize, pSize, pSizePg)`: every page on disk,
every frame free. -/
def VirtualMemory.mk0 (vSize pSize pSizePg : Nat) : VirtualMemory :=
  { pageSize := pSizePg,
    pages := vSize / pSizePg,
    frames := pSize / pSizePg,
    table := List.replicate (vSize / pSizePg) {},
    frameMap := List.replicate (pSize / pSizePg) (-1),
    disk := Finset.range (vSize / pSizePg),
    clock := 0, hits := 0, faults := 0,
    cache := CacheSystem.mk0 }

/-- The method `page_in(p, f)`. -/
def VirtualMemory.page_in (vm : VirtualMemory) (p f : Nat) : VirtualMemory :=
  { vm with
    disk := vm.disk.erase p,
    table := vm.table.set p { valid := true, frame := f, time := vm.clock },
    frameMap := vm.frameMap.set f (p : Int) }

/-- The method `page_out(p)`. -/
def VirtualMemory.page_out (vm : VirtualMemory) (p : Nat) : VirtualMemory :=
  let f := (vm.table.getD p default).frame
  { vm with
    table := vm.table.set p { vm.table.getD p default with valid := false },
    frameMap := vm.frameMap.set f (-1),
    disk := insert p vm.disk }

/-- The loop of `select_victim` run over the entries from page `i` on, with the
current `v` and `t`. -/
def victimPageLoop : List PageEntry → Nat → Nat → Nat → Nat
  | [], _, v, _ => v
  | e :: es, i, v, t =>
      if e.valid && decide (e.time < t) then victimPageLoop es (i + 1) i e.time
      else victimPageLoop es (i + 1) v t

/-- The method `select_victim()`: `v = 0, t = SIZE_MAX`, then the loop over the
whole table. -/
def VirtualMemory.select_victim (vm : VirtualMemory) : Nat :=
  victimPageLoop vm.table 0 0 SIZE_MAX

/-- The scan `for (f = 0; f < frames; f++) if (frameMap[f] == -1)`: the first
free frame, if any. -/
def firstFree (frameMap : List Int) (frames : Nat) : Option Nat :=
  (List.range frames).find? (fun f => frameMap.getD f 0 == -1)

/-- The method `VirtualMemory::access`: the new state and the lines printed. -/
def VirtualMemory.access (vm : VirtualMemory) (va : Nat) : VirtualMemory × List Event :=
  let vm1 := { vm with clock := vm.clock + 1 }
  let page := va / vm.pageSize
  let off := va % vm.pageSize
  if (vm1.table.getD page default).valid then
    let vm2 := { vm1 with
      hits := vm1.hits + 1,
      table := vm1.table.set page { vm1.table.getD page default with time := vm1.clock } }
    let pa := (vm2.table.getD page default).frame * vm.pageSize + off
    let r := vm2.cache.access pa
    ({ vm2 with cache := r.1 }, [Event.pageHit va pa, Event.cache r.2])
  else
    let vm2 := { vm1 with faults := vm1.faults + 1 }
    match firstFree vm2.frameMap vm2.frames with
    | some f =>
        let vm3 := vm2.page_in page f
        let pa := f * vm.pageSize + off
        let r := vm3.cache.access pa
        ({ vm3 with cache := r.1 }, [Event.pageFault va, Event.pageIn page, Event.cache r.2])
    | none =>
        let victim := vm2.select_victim
        let frame := (vm2.table.getD victim default).frame
        let vm3 := vm2.page_out victim
        let vm4 := vm3.page_in page frame
        let pa := frame * vm.pageSize + off
        let r := vm4.cache.access pa
        ({ vm4 with cache := r.1 },
          [Event.pageFault va, Event.pageOut victim, Event.pageIn page,
           Event.replaced victim page, Event.cache r.2])

/-- Classification of an access read off its first printed line. -/
def classify : List Event → PageOutcome
  | Event.pageHit _ _ :: _ => PageOutcome.HIT
  | _ => PageOutcome.FAULT

/-- The driver loop `for (size_t va : trace) vm.access(va)`: the final state
and, per access, the lines printed. -/
def VirtualMemory.run (vm : VirtualMemory) : List Nat → VirtualMemory × List (List Event)
  | [] => (vm, [])
  | va :: rest =>
      let r := vm.access va
      let r' := VirtualMemory.run r.1 rest
      (r'.1, r.2 :: r'.2)

/-- States of the paging unit reachable from construction by accesses to
in-range virtual addresses. -/
inductive Reachable : VirtualMemory → Prop where
  | init (vSize pSize pSizePg : Nat) : Reachable (VirtualMemory.mk0 vSize pSize pSizePg)
  | step {vm : VirtualMemory} (va : Nat) :
      Reachable vm → va / vm.pageSize < vm.pages → Reachable (vm.access va).1


/-- Partition of the pages between the page table and the disk set: the table
has one entry per page, and the disk set holds exactly the pages whose entry is
invalid. -/
structure VirtualMemory.Part (vm : VirtualMemory) : Prop where
  table_len : vm.table.length = vm.pages
  disk_iff : ∀ p : Nat, p ∈ vm.disk ↔ ∃ e, vm.table[p]? = some e ∧ e.valid = false

/-- Correspondence between the page table and the frame pool: the frame map
has one slot per frame, the frame of a valid page holds that page, an occupied
slot holds a valid page whose frame it is, and no stamp of a valid page is
ahead of the clock. -/
structure VirtualMemory.Bij (vm : VirtualMemory) : Prop where
  frameMap_len : vm.frameMap.length = vm.frames
  frame_of_valid : ∀ (p : Nat) (e : PageEntry), vm.table[p]? = some e → e.valid = true →
    vm.frameMap[e.frame]? = some (p : Int)
  page_of_frame : ∀ (f : Nat) (x : Int), vm.frameMap[f]? = some x → x ≠ -1 →
    ∃ (p : Nat) (e : PageEntry), x = (p : Int) ∧ vm.table[p]? = some e ∧
      e.valid = true ∧ e.frame = f
  time_le : ∀ (p : Nat) (e : PageEntry), vm.table[p]? = some e → e.valid = true →
    e.time ≤ vm.clock

/-- The set of resident pages: the page numbers whose table entry is valid. -/
def VirtualMemory.resident (vm : VirtualMemory) : Finset Nat :=
  (Finset.range vm.pages).filter (fun p => (vm.table.getD p default).valid = true)

/-- The classification the specification prescribes for a trace that never
needs an eviction, given as the list of pages accessed: FAULT for the first
access to a page, HIT for every later one.  `seen` holds the pages accessed so
far. -/
def firstTouch : List Nat → List Nat → List PageOutcome
  | _, [] => []
  | seen, p :: ps =>
      (if p ∈ seen then PageOutcome.HIT else PageOutcome.FAULT) :: firstTouch (p :: seen) ps

/-- The lines printed by an access report a page-out. -/
def evicts (log : List Event) : Bool :=
  log.any (fun e => match e with
    | Event.pageOut _ => true
    | _ => false)

/-! ## Concrete states used to instantiate the theorems -/

/-- A level of one set and two ways, both valid, with stamps 5 and 3. -/
def demoFullLevel : CacheLevel :=
  { cacheSize := 64, blockSize := 32, ways := 2, setsCount := 1,
    sets := [[{ valid := true, tag := 1, stamp := 5 }, { valid := true, tag := 2, stamp := 3 }]],
    policy := CachePolicy.FIFO, hits := 0, misses := 2, clock := 5 }

/-- The paging unit `VirtualMemory(2048, 64, 64)` (32 pages, one frame) after
`access(0)`: page 0 is resident in the only frame. -/
def demoOneFrame : VirtualMemory := ((VirtualMemory.mk0 2048 64 64).access 0).1

/-- The trace of the driver in virtual_memory.cpp. -/
def driverTrace : List Nat := [0, 128, 256, 512, 128, 0, 768, 256, 0]

/-- The classification the specification prescribes for a unit with a single
frame, given as the list of pages accessed: HIT when the page is the one
accessed just before, FAULT otherwise.  `prev` is the page of the preceding
access, if there was one. -/
def lastTouch : Option Nat → List Nat → List PageOutcome
  | _, [] => []
  | prev, p :: ps =>
      (if prev = some p then PageOutcome.HIT else PageOutcome.FAULT) :: lastTouch (some p) ps

/-- The paging unit `VirtualMemory(2048, 128, 64)`: 32 pages, two frames. -/
def demoTwoFrames : VirtualMemory := VirtualMemory.mk0 2048 128 64

/-- Number of valid lines of a set. -/
def validCount (set : List CacheLine) : Nat := set.countP (fun l => l.valid)

/-- A level after the accesses of a trace, made in order. -/
def CacheLevel.run (c : CacheLevel) : List Nat → CacheLevel
  | [] => c
  | a :: as => CacheLevel.run (c.access a).1 as

/-- The way written by a miss: the first invalid way of the set, or, when
there is none, the way chosen by the replacement scan. -/
def missWay (set : List CacheLine) : Nat :=
  match firstIdx (fun l => !l.valid) set with
  | some i => i
  | none => victimWay set

/-- A record kept beside a run of a level: for set `i` and way `j`, the tag and
the clock value of the last miss that wrote that way, starting from the record
`g`.  A hit leaves the record alone. -/
def CacheLevel.installs (c : CacheLevel) (g : Nat → Nat → Option (Nat × Nat)) :
    List Nat → Nat → Nat → Option (Nat × Nat)
  | [] => g
  | a :: as =>
      CacheLevel.installs (c.access a).1
        (if (c.access a).2 = true then g
         else fun i j =>
           if i = c.index a ∧ j = missWay (c.setAt a) then some (c.tagOf a, c.clock + 1)
           else g i j) as

/-- Shape of the cache system of a constructed paging unit: both levels
well-formed, L1 with policy LRU. -/
structure CacheSystem.Good (s : CacheSystem) : Prop where
  l1_wf : s.L1.WF
  l2_wf : s.L2.WF
  l1_lru : s.L1.policy = CachePolicy.LRU

/-- States of the paging unit reachable from construction by exactly `n`
accesses to in-range virtual addresses. -/
inductive ReachableIn : Nat → VirtualMemory → Prop where
  | init (vSize pSize pSizePg : Nat) : ReachableIn 0 (VirtualMemory.mk0 vSize pSize pSizePg)
  | step {n : Nat} {vm : VirtualMemory} (va : Nat) :
      ReachableIn n vm → va / vm.pageSize < vm.pages → ReachableIn (n + 1) (vm.access va).1

/-- The set of occupied frames: the frames whose slot of the frame map is not
`-1`. -/
def VirtualMemory.occupied (vm : VirtualMemory) : Finset Nat :=
  (Finset.range vm.frames).filter (fun f => vm.frameMap.getD f 0 ≠ -1)

/-- The access of `va` reaches the call of `select_victim`: the page is not
valid and the scan of the frame map finds no free frame. -/
def VirtualMemory.callsSelectVictim (vm : VirtualMemory) (va : Nat) : Prop :=
  (vm.table.getD (va / vm.pageSize) default).valid = false ∧
    firstFree vm.frameMap vm.frames = none

instance (vm : VirtualMemory) (va : Nat) : Decidable (vm.callsSelectVictim va) := by
  unfold VirtualMemory.callsSelectVictim; infer_instance

/-- The L2 geometry under FIFO after one access to address 64. -/
def demoFifoLevel : CacheLevel := ((CacheLevel.mk0 1024 64 4 CachePolicy.FIFO).access 64).1

/-- No set of the level holds two valid lines with the same tag. -/
def CacheLevel.NoDup (c : CacheLevel) : Prop :=
  ∀ (i j1 j2 : Nat) (l1 l2 : CacheLine), c.line? i j1 = some l1 → c.line? i j2 = some l2 →
    l1.valid = true → l2.valid = true → l1.tag = l2.tag → j1 = j2

/-! ## Contiguous allocator (allocator.cpp)

The allocator keeps its state in file-level variables; here they are the
fields of `Allocator`.  The `int` variables `NEXT_ID`, `success_count` and
`failure_count` are incremented through `wrap32`: past `2 ^ 31 - 1` the
increment overflows, which the language leaves undefined and the compiled
program carries out as a wrap to `-2 ^ 31`.  The `int` that holds a segment
index is exact for fewer than `2 ^ 31` segments.  What the functions print is
left out; the value they return is kept. -/

/-- The value of an `int` after an arithmetic step whose exact result is `x`:
`x` itself between `-2 ^ 31` and `2 ^ 31 - 1`, wrapped into that range
otherwise. -/
def wrap32 (x : Int) : Int := (x + 2 ^ 31) % 2 ^ 32 - 2 ^ 31

/-- The struct `Block` of block.h. -/
structure Block where
  start : Nat
  size : Nat
  free : Bool
  id : Int
  deriving DecidableEq, Repr

instance : Inhabited Block := ⟨{ start := 0, size := 0, free := true, id := -1 }⟩

/-- The global state of allocator.cpp. -/
structure Allocator where
  segments : List Block
  TOTAL_MEMORY : Nat
  NEXT_ID : Int
  success_count : Int
  failure_count : Int
  deriving DecidableEq, Repr

/-- The loop of `coalesce_free_segments` from `segments[i]` on: `last` is
`merged.back()`, and the blocks of `merged` before it are already part of the
result. -/
def coalesceFrom (last : Block) : List Block → List Block
  | [] => [last]
  | s :: rest =>
      if last.free && s.free then coalesceFrom { last with size := last.size + s.size } rest
      else last :: coalesceFrom s rest

/-- The function `coalesce_free_segments`, as a function of the segment list. -/
def coalesce_free_segments : List Block → List Block
  | [] => []
  | s :: rest => coalesceFrom s rest

/-- The function `allocate_using_index(index, req)`: the new state and the id
returned.  Its callers pass a segment with `req ≤ size`, so the subtraction
does not wrap. -/
def allocate_using_index (a : Allocator) (index req : Nat) : Allocator × Int :=
  let id := a.NEXT_ID
  let target := a.segments.getD index default
  let remaining := target.size - req
  let base_addr := target.start
  let segs := a.segments.set index { target with size := req, free := false, id := id }
  let segs' :=
    if remaining > 0 then
      segs.insertIdx (index + 1)
        { start := base_addr + req, size := remaining, free := true, id := -1 }
    else segs
  ({ a with segments := segs', NEXT_ID := wrap32 (a.NEXT_ID + 1),
            success_count := wrap32 (a.success_count + 1) }, id)

/-- The function `init_memory(size)`. -/
def init_memory (size : Nat) : Allocator :=
  { segments := [{ start := 0, size := size, free := true, id := -1 }],
    TOTAL_MEMORY := size, NEXT_ID := 1, success_count := 0, failure_count := 0 }

/-- The function `first_fit_malloc(req)`. -/
def first_fit_malloc (a : Allocator) (req : Nat) : Allocator × Int :=
  match firstIdx (fun s : Block => s.free && decide (req ≤ s.size)) a.segments with
  | some i => allocate_using_index a i req
  | none => ({ a with failure_count := wrap32 (a.failure_count + 1) }, -1)

/-- The loop of `best_fit_malloc` from segment `i` on, with the current `chosen`
(`none` for `-1`) and `best_size`. -/
def bestLoop (req : Nat) : List Block → Nat → Option Nat → Nat → Option Nat
  | [], _, chosen, _ => chosen
  | s :: rest, i, chosen, best_size =>
      if s.free && decide (req ≤ s.size) then
        if s.size < best_size then bestLoop req rest (i + 1) (some i) s.size
        else bestLoop req rest (i + 1) chosen best_size
      else bestLoop req rest (i + 1) chosen best_size

/-- The function `best_fit_malloc(req)`; `best_size` starts at
`numeric_limits<size_t>::max()`. -/
def best_fit_malloc (a : Allocator) (req : Nat) : Allocator × Int :=
  match bestLoop req a.segments 0 none SIZE_MAX with
  | none => ({ a with failure_count := wrap32 (a.failure_count + 1) }, -1)
  | some chosen => allocate_using_index a chosen req

/-- The loop of `worst_fit_malloc` from segment `i` on, with the current
`chosen` (`none` for `-1`) and `worst_size`. -/
def worstLoop (req : Nat) : List Block → Nat → Option Nat → Nat → Option Nat
  | [], _, chosen, _ => chosen
  | s :: rest, i, chosen, worst_size =>
      if s.free && decide (req ≤ s.size) then
        if worst_size < s.size then worstLoop req rest (i + 1) (some i) s.size
        else worstLoop req rest (i + 1) chosen worst_size
      else worstLoop req rest (i + 1) chosen worst_size

/-- The function `worst_fit_malloc(req)`. -/
def worst_fit_malloc (a : Allocator) (req : Nat) : Allocator × Int :=
  match worstLoop req a.segments 0 none 0 with
  | none => ({ a with failure_count := wrap32 (a.failure_count + 1) }, -1)
  | some chosen => allocate_using_index a chosen req

/-- The function `free_block(id)`. -/
def free_block (a : Allocator) (id : Int) : Allocator :=
  match firstIdx (fun s : Block => !s.free && s.id == id) a.segments with
  | some i =>
      let seg := a.segments.getD i default
      let marked := a.segments.set i { seg with free := true, id := -1 }
      { a with segments := coalesce_free_segments marked }
  | none => a

/-- A call of the allocator's interface. -/
inductive AllocOp where
  | firstFit (req : Nat)
  | bestFit (req : Nat)
  | worstFit (req : Nat)
  | release (id : Int)
  deriving DecidableEq, Repr

/-- The request of an allocation call is at least 1; a release is always all
right. -/
def AllocOp.positive : AllocOp → Prop
  | AllocOp.firstFit req => 1 ≤ req
  | AllocOp.bestFit req => 1 ≤ req
  | AllocOp.worstFit req => 1 ≤ req
  | AllocOp.release _ => True

instance (op : AllocOp) : Decidable op.positive := by
  cases op <;> unfold AllocOp.positive <;> infer_instance

/-- The state after one call. -/
def Allocator.step (a : Allocator) : AllocOp → Allocator
  | AllocOp.firstFit req => (first_fit_malloc a req).1
  | AllocOp.bestFit req => (best_fit_malloc a req).1
  | AllocOp.worstFit req => (worst_fit_malloc a req).1
  | AllocOp.release id => free_block a id

/-- The state after a sequence of calls. -/
def Allocator.runOps (a : Allocator) : List AllocOp → Allocator
  | [] => a
  | op :: rest => Allocator.runOps (a.step op) rest

/-- The call is one of the three allocation calls. -/
def AllocOp.isAlloc : AllocOp → Bool
  | AllocOp.release _ => false
  | _ => true

/-- Number of allocation calls in a sequence of calls. -/
def allocCalls (ops : List AllocOp) : Nat := ops.countP AllocOp.isAlloc

/-- A sequence of `rounds` rounds, each a `first_fit_malloc(1)` followed by the
`free_block` of the id it returns, when `NEXT_ID` is `c` at the start. -/
def churn : Nat → Int → List AllocOp
  | 0, _ => []
  | rounds + 1, c =>
      AllocOp.firstFit 1 :: AllocOp.release c :: churn rounds (wrap32 (c + 1))

/-- The segments tile the addresses from `a` up to `c`: each starts where the
one before it ends, and none is empty. -/
def Tiles : Nat → List Block → Nat → Prop
  | a, [], c => a = c
  | a, s :: rest, c => s.start = a ∧ 0 < s.size ∧ Tiles (a + s.size) rest c

/-- The ids of the allocated segments, in the order of the segments. -/
def liveIds : List Block → List Int
  | [] => []
  | s :: rest => if s.free then liveIds rest else s.id :: liveIds rest

/-- The layout invariant of the allocator. -/
structure Allocator.Layout (a : Allocator) : Prop where
  tiles : Tiles 0 a.segments a.TOTAL_MEMORY
  free_iff : ∀ s ∈ a.segments, (s.free = true ↔ s.id = -1)
  ids_range : ∀ s ∈ a.segments, s.free = false → 1 ≤ s.id ∧ s.id < a.NEXT_ID
  ids_nodup : (liveIds a.segments).Nodup
  no_adjacent_free : a.segments.Chain' (fun x y => ¬ (x.free = true ∧ y.free = true))
  next_pos : 1 ≤ a.NEXT_ID

/-! ## Buddy allocator (buddy_allocator.cpp)

The allocator keeps its state in file-level variables; here they are the
fields of `Buddy`.  The two loops that double a `size_t` until it reaches a
bound wrap at `2 ^ 64` as in the source, and run on fuel: `none` stands for a
loop that never ends (the doubled value has wrapped to 0).  Addresses and block
sizes elsewhere stay below `2 ^ 64` for a memory below `2 ^ 64`, so they are
plain naturals.  What the functions print is left out. -/

/-- The variable `BASE_BLOCK`. -/
def BASE_BLOCK : Nat := 32

/-- The loop of `normalize_size`, on fuel. -/
def normalizeLoop (request : Nat) : Nat → Nat → Option Nat
  | 0, _ => none
  | fuel + 1, size =>
      if size < request then normalizeLoop request fuel ((size <<< 1) % 2 ^ 64) else some size

/-- The function `normalize_size(request)`; 64 rounds are enough for every
request on which the loop ends. -/
def normalize_size (request : Nat) : Option Nat := normalizeLoop request 64 BASE_BLOCK

/-- The loop of `size_to_level`, on fuel. -/
def levelLoop (size : Nat) : Nat → Nat → Nat → Option Nat
  | 0, _, _ => none
  | fuel + 1, curr, level =>
      if curr < size then levelLoop size fuel ((curr <<< 1) % 2 ^ 64) (level + 1) else some level

/-- The function `size_to_level(size)`. -/
def size_to_level (size : Nat) : Option Nat := levelLoop size 64 BASE_BLOCK 0

/-- The function `buddy_address(addr, level)`. -/
def buddy_address (addr level : Nat) : Nat := addr ^^^ (BASE_BLOCK <<< level)

/-- The global state of buddy_allocator.cpp. -/
structure Buddy where
  TOTAL_SIZE : Nat
  MAX_LEVEL : Nat
  freeBlocks : List (List Nat)
  deriving DecidableEq, Repr

/-- The loop of `buddy_init` that counts `MAX_LEVEL` up, on fuel. -/
def initLoop (temp : Nat) : Nat → Nat → Nat
  | 0, level => level
  | fuel + 1, level => if (1 <<< level) < temp then initLoop temp fuel (level + 1) else level

/-- The function `buddy_init(memorySize)`; the loop ends within 64 rounds for
every `memorySize` below `2 ^ 64`. -/
def buddy_init (memorySize : Nat) : Buddy :=
  let maxLevel := initLoop (memorySize / BASE_BLOCK) 64 0
  let fb : List (List Nat) := List.replicate (maxLevel + 1) []
  { TOTAL_SIZE := memorySize, MAX_LEVEL := maxLevel,
    freeBlocks := fb.set maxLevel (fb.getD maxLevel [] ++ [0]) }

/-- The loop of `buddy_malloc` that looks for a level with a free block, on
fuel. -/
def searchLoop (fb : List (List Nat)) (maxLevel : Nat) : Nat → Nat → Nat
  | 0, level => level
  | fuel + 1, level =>
      if decide (level ≤ maxLevel) && (fb.getD level []).isEmpty then
        searchLoop fb maxLevel fuel (level + 1)
      else level

/-- The loop of `buddy_malloc` that splits the block down to the target level;
the first argument of the recursion is `level`. -/
def splitLoop (addr targetLevel : Nat) : Nat → List (List Nat) → List (List Nat)
  | 0, fb => fb
  | level + 1, fb =>
      if level + 1 > targetLevel then
        splitLoop addr targetLevel level
          (fb.set level (fb.getD level [] ++ [addr + (BASE_BLOCK <<< level)]))
      else fb

/-- The function `buddy_malloc(request)`: the new state and the address
returned, `none` when a loop of `normalize_size` or `size_to_level` never
ends. -/
def buddy_malloc (b : Buddy) (request : Nat) : Option (Buddy × Nat) :=
  match normalize_size request with
  | none => none
  | some allocSize =>
    match size_to_level allocSize with
    | none => none
    | some targetLevel =>
      if targetLevel > b.MAX_LEVEL then some (b, SIZE_MAX)
      else
        let level := searchLoop b.freeBlocks b.MAX_LEVEL (b.MAX_LEVEL + 2) targetLevel
        if level > b.MAX_LEVEL then some (b, SIZE_MAX)
        else
          let list := b.freeBlocks.getD level []
          let addr := list.getLast?.getD 0
          let fb := b.freeBlocks.set level list.dropLast
          some ({ b with freeBlocks := splitLoop addr targetLevel level fb }, addr)

/-- The loop of `buddy_free`, on fuel: the free lists, `addr` and `level` when
it ends. -/
def freeLoop (maxLevel : Nat) : Nat → List (List Nat) → Nat → Nat → List (List Nat) × Nat × Nat
  | 0, fb, addr, level => (fb, addr, level)
  | fuel + 1, fb, addr, level =>
      if level < maxLevel then
        if buddy_address addr level ∈ fb.getD level [] then
          freeLoop maxLevel fuel
            (fb.set level ((fb.getD level []).erase (buddy_address addr level)))
            (min addr (buddy_address addr level)) (level + 1)
        else (fb, addr, level)
      else (fb, addr, level)

/-- The function `buddy_free(addr, originalSize)`. -/
def buddy_free (b : Buddy) (addr originalSize : Nat) : Option Buddy :=
  match normalize_size originalSize with
  | none => none
  | some size =>
    match size_to_level size with
    | none => none
    | some level0 =>
      let r := freeLoop b.MAX_LEVEL b.MAX_LEVEL b.freeBlocks addr level0
      some { b with freeBlocks := r.1.set r.2.2 (r.1.getD r.2.2 [] ++ [r.2.1]) }

/-- The states reached from `buddy_init M` by calls of `buddy_malloc` and by
calls of `buddy_free` on an address and request that were returned and are not
freed yet; the list holds these pairs. -/
inductive BReach (M : Nat) : Buddy → List (Nat × Nat) → Prop
  | init : BReach M (buddy_init M) []
  | malloc (b b1 : Buddy) (live : List (Nat × Nat)) (r a : Nat) :
      BReach M b live → buddy_malloc b r = some (b1, a) →
      BReach M b1 (if a = SIZE_MAX then live else (a, r) :: live)
  | free (b b1 : Buddy) (live : List (Nat × Nat)) (a r : Nat) :
      BReach M b live → (a, r) ∈ live → buddy_free b a r = some b1 →
      BReach M b1 (live.erase (a, r))

/-- The invariant of the free lists: there is one list for each level up to
`K`; a block of level `l` is a multiple of the block size of the level and ends
inside the top block; below the top level no block is free together with its
buddy. -/
structure FbInv (K : Nat) (fb : List (List Nat)) : Prop where
  len : fb.length = K + 1
  aligned : ∀ (l x : Nat), x ∈ fb.getD l [] → (BASE_BLOCK <<< l) ∣ x
  inside : ∀ (l x : Nat), x ∈ fb.getD l [] → x + (BASE_BLOCK <<< l) ≤ BASE_BLOCK <<< K
  no_buddy : ∀ (l x : Nat), l < K → x ∈ fb.getD l [] → buddy_address x l ∉ fb.getD l []

/-- The pairs handed out are blocks of their level. -/
def LiveOk (K : Nat) (live : List (Nat × Nat)) : Prop :=
  ∀ (a r : Nat), (a, r) ∈ live → ∃ s l, normalize_size r = some s ∧ size_to_level s = some l ∧
    l ≤ K ∧ (BASE_BLOCK <<< l) ∣ a ∧ a + (BASE_BLOCK <<< l) ≤ BASE_BLOCK <<< K

/-! ## Accesses that stay inside the vectors

The source indexes its vectors with `operator[]`, which checks nothing.  The
predicates below say that an access uses no index outside a vector and divides
by no zero; they are read off the statements of `access` in the order in which
these run. -/

/-- The access of `va` by the paging unit divides by a non-zero `pageSize` and
keeps every index into `table` and `frameMap` inside the vector: `table[page]`,
read first; the slots `frameMap[f]` of the scan for a free frame (all of them
when none is free; up to the free one otherwise, which is inside as it was read
as -1); and on a replacement `table[victim]` and the slot of the victim's
frame.  `page_in` and `page_out` use these same indexes. -/
def VirtualMemory.accessDefined (vm : VirtualMemory) (va : Nat) : Prop :=
  0 < vm.pageSize ∧ va / vm.pageSize < vm.table.length ∧
    ((vm.table.getD (va / vm.pageSize) default).valid = false →
      firstFree vm.frameMap vm.frames = none →
        vm.frames ≤ vm.frameMap.length ∧ vm.select_victim < vm.table.length ∧
          (vm.table.getD vm.select_victim default).frame < vm.frameMap.length)

instance (vm : VirtualMemory) (va : Nat) : Decidable (vm.accessDefined va) := by
  unfold VirtualMemory.accessDefined; infer_instance

/-- Every access of the trace, made in order from `vm`, stays inside the
vectors. -/
def VirtualMemory.runDefined (vm : VirtualMemory) : List Nat → Prop
  | [] => True
  | va :: rest => vm.accessDefined va ∧ VirtualMemory.runDefined (vm.access va).1 rest

/-- The access of `addr` by a cache level takes `log2` of non-zero numbers,
indexes a set that exists, and the set has a way 0, which the replacement scan
reads first. -/
def CacheLevel.accessDefined (c : CacheLevel) (addr : Nat) : Prop :=
  0 < c.blockSize ∧ 0 < c.setsCount ∧ c.index addr < c.sets.length ∧
    c.sets.getD (c.index addr) [] ≠ []

instance (c : CacheLevel) (addr : Nat) : Decidable (c.accessDefined addr) := by
  unfold CacheLevel.accessDefined; infer_instance

/-- Every access of the trace, made in order from `c`, stays inside the
vectors. -/
def CacheLevel.runDefined (c : CacheLevel) : List Nat → Prop
  | [] => True
  | a :: rest => c.accessDefined a ∧ CacheLevel.runDefined (c.access a).1 rest

/-! # Theorems -/

/-! ## Arithmetic of the address split -/

theorem log2Aux_eq_log (fuel n : Nat) (h : n ≤ fuel) : log2Aux fuel n = Nat.log 2 n := by
  induction fuel generalizing n with
  | zero =>
    have : n = 0 := by omega
    subst this; simp [log2Aux]
  | succ f ih =>
    unfold log2Aux
    split
    · rw [Nat.log_of_lt (by omega)]
    · rw [ih _ (by omega)]
      exact (Nat.log_of_one_lt_of_le (by omega) (by omega)).symm

theorem log2_eq_log (n : Nat) : log2 n = Nat.log 2 n :=
  log2Aux_eq_log n n (le_refl n)

theorem log2_two_pow (k : Nat) : log2 (2 ^ k) = k := by
  rw [log2_eq_log, Nat.log_pow (by omega)]

theorem two_pow_log2_le (n : Nat) (h : 0 < n) : 2 ^ log2 n ≤ n := by
  rw [log2_eq_log]; exact Nat.pow_log_le_self 2 (by omega)

theorem index_lt (c : CacheLevel) (addr : Nat) (h : 0 < c.setsCount) :
    c.index addr < c.setsCount := by
  unfold CacheLevel.index CacheLevel.indexBits
  rw [Nat.one_shiftLeft, Nat.and_pow_two_sub_one_eq_mod]
  have h1 := two_pow_log2_le c.setsCount h
  have h2 : addr >>> c.offsetBits % 2 ^ log2 c.setsCount < 2 ^ log2 c.setsCount :=
    Nat.mod_lt _ (by positivity)
  omega

theorem index_eq (c : CacheLevel) (addr a b : Nat) (ha : c.blockSize = 2 ^ a)
    (hb : c.setsCount = 2 ^ b) : c.index addr = (addr / c.blockSize) % c.setsCount := by
  unfold CacheLevel.index CacheLevel.indexBits CacheLevel.offsetBits
  rw [ha, hb, log2_two_pow, log2_two_pow, Nat.one_shiftLeft, Nat.and_pow_two_sub_one_eq_mod,
    Nat.shiftRight_eq_div_pow]

theorem tagOf_eq (c : CacheLevel) (addr a b : Nat) (ha : c.blockSize = 2 ^ a)
    (hb : c.setsCount = 2 ^ b) : c.tagOf addr = addr / (c.blockSize * c.setsCount) := by
  unfold CacheLevel.tagOf CacheLevel.indexBits CacheLevel.offsetBits
  rw [ha, hb, log2_two_pow, log2_two_pow, Nat.shiftRight_eq_div_pow, pow_add]

/-! ## The scans -/

theorem firstIdx_eq_none {α : Type} (p : α → Bool) (l : List α) :
    firstIdx p l = none ↔ ∀ x ∈ l, p x = false := by
  induction l with
  | nil => simp [firstIdx]
  | cons x xs ih =>
    unfold firstIdx
    by_cases hx : p x = true
    · simp [hx]
    · simp [hx, ih]

theorem firstIdx_eq_some {α : Type} (p : α → Bool) (l : List α) (i : Nat)
    (h : firstIdx p l = some i) :
    (∃ x, l[i]? = some x ∧ p x = true) ∧ ∀ (j : Nat) (y : α), j < i → l[j]? = some y → p y = false := by
  induction l generalizing i with
  | nil => simp [firstIdx] at h
  | cons x xs ih =>
    unfold firstIdx at h
    by_cases hx : p x = true
    · simp [hx] at h
      subst h
      exact ⟨⟨x, by simp, hx⟩, by intro j y hj; omega⟩
    · simp [hx] at h
      obtain ⟨k, hk, rfl⟩ := h
      obtain ⟨⟨y, hy, hpy⟩, hlt⟩ := ih k hk
      refine ⟨⟨y, by simpa using hy, hpy⟩, ?_⟩
      intro j z hj hz
      cases j with
      | zero => simp at hz; subst hz; simpa using hx
      | succ j => exact hlt j z (by omega) (by simpa using hz)

theorem firstIdx_isSome {α : Type} (p : α → Bool) (l : List α) (x : α) (hx : x ∈ l)
    (hp : p x = true) : ∃ i, firstIdx p l = some i := by
  cases h : firstIdx p l with
  | none =>
    rw [firstIdx_eq_none] at h
    rw [h x hx] at hp; cases hp
  | some i => exact ⟨i, rfl⟩

theorem victimLoop_spec (ls : List CacheLine) (i v m : Nat) :
    ∃ m', m' ≤ m ∧ (∀ (k : Nat) (l : CacheLine), ls[k]? = some l → m' ≤ l.stamp) ∧
      ((victimLoop ls i v m = v ∧ m' = m) ∨
        (i ≤ victimLoop ls i v m ∧ m' < m ∧
          (∃ l, ls[victimLoop ls i v m - i]? = some l ∧ l.stamp = m') ∧
          ∀ (k : Nat) (l : CacheLine), k < victimLoop ls i v m - i → ls[k]? = some l → m' < l.stamp)) := by
  induction ls generalizing i v m with
  | nil => exact ⟨m, le_refl _, by intro k l hk; simp at hk, Or.inl ⟨rfl, rfl⟩⟩
  | cons l ls ih =>
    unfold victimLoop
    split
    · rename_i hlt
      obtain ⟨m', h1, h2, h3⟩ := ih (i + 1) i l.stamp
      refine ⟨m', by omega, ?_, Or.inr ?_⟩
      · intro k x hk
        cases k with
        | zero => simp at hk; subst hk; exact h1
        | succ k => exact h2 k x (by simpa using hk)
      · rcases h3 with ⟨hr, hm⟩ | ⟨hr, hm, ⟨x, hx, hxs⟩, hfirst⟩
        · rw [hr]
          refine ⟨le_refl _, by omega, ⟨l, by simp, hm.symm⟩, ?_⟩
          intro k x hk; omega
        · refine ⟨by omega, by omega, ⟨x, ?_, hxs⟩, ?_⟩
          · have : victimLoop ls (i + 1) i l.stamp - i
                = (victimLoop ls (i + 1) i l.stamp - (i + 1)) + 1 := by omega
            rw [this]; simpa using hx
          · intro k y hk hy
            cases k with
            | zero => simp at hy; subst hy; exact hm
            | succ k => exact hfirst k y (by omega) (by simpa using hy)
    · rename_i hge
      obtain ⟨m', h1, h2, h3⟩ := ih (i + 1) v m
      refine ⟨m', h1, ?_, ?_⟩
      · intro k x hk
        cases k with
        | zero => simp at hk; subst hk; omega
        | succ k => exact h2 k x (by simpa using hk)
      · rcases h3 with ⟨hr, hm⟩ | ⟨hr, hm, ⟨x, hx, hxs⟩, hfirst⟩
        · exact Or.inl ⟨hr, hm⟩
        · refine Or.inr ⟨by omega, hm, ⟨x, ?_, hxs⟩, ?_⟩
          · have : victimLoop ls (i + 1) v m - i
                = (victimLoop ls (i + 1) v m - (i + 1)) + 1 := by omega
            rw [this]; simpa using hx
          · intro k y hk hy
            cases k with
            | zero => simp at hy; subst hy; omega
            | succ k => exact hfirst k y (by omega) (by simpa using hy)

/-- The way chosen by the replacement scan of a non-empty set holds a minimal
stamp, and every way before it holds a strictly larger one. -/
theorem victimWay_spec (set : List CacheLine) (hne : set ≠ []) :
    ∃ lv, set[victimWay set]? = some lv ∧
      (∀ (j : Nat) (l : CacheLine), set[j]? = some l → lv.stamp ≤ l.stamp) ∧
      (∀ (j : Nat) (l : CacheLine), j < victimWay set → set[j]? = some l → lv.stamp < l.stamp) := by
  cases set with
  | nil => exact absurd rfl hne
  | cons h tl =>
    unfold victimWay
    simp only [List.drop_one, List.tail_cons, List.getD_cons_zero]
    obtain ⟨m', h1, h2, h3⟩ := victimLoop_spec tl 1 0 h.stamp
    rcases h3 with ⟨hr, hm⟩ | ⟨hr, hm, ⟨x, hx, hxs⟩, hfirst⟩
    · rw [hr]
      refine ⟨h, by simp, ?_, ?_⟩
      · intro j l hj
        cases j with
        | zero => simp at hj; subst hj; exact le_refl _
        | succ j => have := h2 j l (by simpa using hj); omega
      · intro j l hj; omega
    · refine ⟨x, ?_, ?_, ?_⟩
      · have : victimLoop tl 1 0 h.stamp = (victimLoop tl 1 0 h.stamp - 1) + 1 := by omega
        rw [this]; simpa using hx
      · intro j l hj
        cases j with
        | zero => simp at hj; subst hj; omega
        | succ j => have := h2 j l (by simpa using hj); omega
      · intro j l hj hl
        cases j with
        | zero => simp at hl; subst hl; omega
        | succ j => have := hfirst j l (by omega) (by simpa using hl); omega


/-! ## One access to a cache level, case by case -/

/-- The hit test of the first scan. -/
theorem hitTest_iff (tag : Nat) (l : CacheLine) :
    (l.valid && l.tag == tag) = true ↔ l.valid = true ∧ l.tag = tag := by
  simp

theorem access_of_hit (c : CacheLevel) (addr i : Nat)
    (h : firstIdx (fun l => l.valid && l.tag == c.tagOf addr) (c.setAt addr) = some i) :
    c.access addr =
      ({ c with clock := c.clock + 1, hits := c.hits + 1,
                sets := c.sets.set (c.index addr) ((c.setAt addr).set i
                  (if c.policy = CachePolicy.LRU
                   then { (c.setAt addr).getD i default with stamp := c.clock + 1 }
                   else (c.setAt addr).getD i default)) }, true) := by
  unfold CacheLevel.setAt at h
  simp only [CacheLevel.access, CacheLevel.setAt, h]

theorem access_of_install (c : CacheLevel) (addr i : Nat)
    (h : firstIdx (fun l => l.valid && l.tag == c.tagOf addr) (c.setAt addr) = none)
    (h' : firstIdx (fun l => !l.valid) (c.setAt addr) = some i) :
    c.access addr =
      ({ c with clock := c.clock + 1, misses := c.misses + 1,
                sets := c.sets.set (c.index addr) ((c.setAt addr).set i
                  { valid := true, tag := c.tagOf addr, stamp := c.clock + 1 }) }, false) := by
  unfold CacheLevel.setAt at h h'
  simp only [CacheLevel.access, CacheLevel.setAt, h, h']

theorem access_of_replace (c : CacheLevel) (addr : Nat)
    (h : firstIdx (fun l => l.valid && l.tag == c.tagOf addr) (c.setAt addr) = none)
    (h' : firstIdx (fun l => !l.valid) (c.setAt addr) = none) :
    c.access addr =
      ({ c with clock := c.clock + 1, misses := c.misses + 1,
                sets := c.sets.set (c.index addr) ((c.setAt addr).set (victimWay (c.setAt addr))
                  { (c.setAt addr).getD (victimWay (c.setAt addr)) default with
                    tag := c.tagOf addr, stamp := c.clock + 1 }) }, false) := by
  unfold CacheLevel.setAt at h h'
  simp only [CacheLevel.access, CacheLevel.setAt, h, h']

theorem present_iff_scan (c : CacheLevel) (addr : Nat) :
    c.present addr ↔
      ∃ i, firstIdx (fun l => l.valid && l.tag == c.tagOf addr) (c.setAt addr) = some i := by
  constructor
  · rintro ⟨l, hl, hv, ht⟩
    exact firstIdx_isSome _ _ l hl (by simp [hv, ht])
  · rintro ⟨i, hi⟩
    obtain ⟨⟨x, hx, hpx⟩, -⟩ := firstIdx_eq_some _ _ _ hi
    have hpx' := (hitTest_iff _ _).1 hpx
    exact ⟨x, List.mem_iff_getElem?.2 ⟨i, hx⟩, hpx'.1, hpx'.2⟩

theorem not_present_iff_scan (c : CacheLevel) (addr : Nat) :
    ¬ c.present addr ↔
      firstIdx (fun l => l.valid && l.tag == c.tagOf addr) (c.setAt addr) = none := by
  rw [present_iff_scan]
  cases firstIdx (fun l => l.valid && l.tag == c.tagOf addr) (c.setAt addr) <;> simp

/-- An access returns `true` exactly when the line was present. -/
theorem access_hit_iff (c : CacheLevel) (addr : Nat) :
    (c.access addr).2 = true ↔ c.present addr := by
  by_cases hp : c.present addr
  · obtain ⟨i, hi⟩ := (present_iff_scan c addr).1 hp
    simp [access_of_hit c addr i hi, hp]
  · have h := (not_present_iff_scan c addr).1 hp
    cases h' : firstIdx (fun l => !l.valid) (c.setAt addr) with
    | none => simp [access_of_replace c addr h h', hp]
    | some i => simp [access_of_install c addr i h h', hp]

theorem access_clock (c : CacheLevel) (addr : Nat) :
    (c.access addr).1.clock = c.clock + 1 := by
  cases h : firstIdx (fun l => l.valid && l.tag == c.tagOf addr) (c.setAt addr) with
  | some i => rw [access_of_hit c addr i h]
  | none =>
    cases h' : firstIdx (fun l => !l.valid) (c.setAt addr) with
    | none => rw [access_of_replace c addr h h']
    | some i => rw [access_of_install c addr i h h']

theorem access_counters_hit (c : CacheLevel) (addr : Nat) (h : (c.access addr).2 = true) :
    (c.access addr).1.hits = c.hits + 1 ∧ (c.access addr).1.misses = c.misses := by
  obtain ⟨i, hi⟩ := (present_iff_scan c addr).1 ((access_hit_iff c addr).1 h)
  rw [access_of_hit c addr i hi]
  exact ⟨rfl, rfl⟩

theorem access_counters_miss (c : CacheLevel) (addr : Nat) (h : (c.access addr).2 = false) :
    (c.access addr).1.misses = c.misses + 1 ∧ (c.access addr).1.hits = c.hits := by
  have hp : ¬ c.present addr := by
    intro hp
    rw [(access_hit_iff c addr).2 hp] at h
    cases h
  have h1 := (not_present_iff_scan c addr).1 hp
  cases h' : firstIdx (fun l => !l.valid) (c.setAt addr) with
  | none => rw [access_of_replace c addr h1 h']; exact ⟨rfl, rfl⟩
  | some i => rw [access_of_install c addr i h1 h']; exact ⟨rfl, rfl⟩

/-- The geometry and the policy of a level never change. -/
theorem access_geometry (c : CacheLevel) (addr : Nat) :
    (c.access addr).1.blockSize = c.blockSize ∧ (c.access addr).1.setsCount = c.setsCount ∧
      (c.access addr).1.ways = c.ways ∧ (c.access addr).1.policy = c.policy ∧
      (c.access addr).1.cacheSize = c.cacheSize := by
  cases h : firstIdx (fun l => l.valid && l.tag == c.tagOf addr) (c.setAt addr) with
  | some i => rw [access_of_hit c addr i h]; exact ⟨rfl, rfl, rfl, rfl, rfl⟩
  | none =>
    cases h' : firstIdx (fun l => !l.valid) (c.setAt addr) with
    | none => rw [access_of_replace c addr h h']; exact ⟨rfl, rfl, rfl, rfl, rfl⟩
    | some i => rw [access_of_install c addr i h h']; exact ⟨rfl, rfl, rfl, rfl, rfl⟩

theorem access_index (c : CacheLevel) (addr a : Nat) :
    (c.access addr).1.index a = c.index a := by
  obtain ⟨h1, h2, -⟩ := access_geometry c addr
  simp only [CacheLevel.index, CacheLevel.offsetBits, CacheLevel.indexBits, h1, h2]

theorem access_tagOf (c : CacheLevel) (addr a : Nat) :
    (c.access addr).1.tagOf a = c.tagOf a := by
  obtain ⟨h1, h2, -⟩ := access_geometry c addr
  simp only [CacheLevel.tagOf, CacheLevel.offsetBits, CacheLevel.indexBits, h1, h2]

/-- In each of the three cases the new sets are the old ones with one way of the
addressed set rewritten to a valid line carrying the requested tag. -/
theorem access_sets (c : CacheLevel) (addr : Nat) (hne : c.setAt addr ≠ []) :
    ∃ i new, (c.access addr).1.sets = c.sets.set (c.index addr) ((c.setAt addr).set i new) ∧
      new.valid = true ∧ new.tag = c.tagOf addr ∧ i < (c.setAt addr).length := by
  cases h : firstIdx (fun l => l.valid && l.tag == c.tagOf addr) (c.setAt addr) with
  | some i =>
    obtain ⟨⟨x, hx, hpx⟩, -⟩ := firstIdx_eq_some _ _ _ h
    have hpx' := (hitTest_iff _ _).1 hpx
    have hi : i < (c.setAt addr).length := by
      by_contra hcon
      rw [List.getElem?_eq_none (by omega)] at hx
      cases hx
    have hg : (c.setAt addr).getD i default = x := by
      rw [List.getD_eq_getElem?_getD, hx]; rfl
    rw [access_of_hit c addr i h, hg]
    refine ⟨i, _, rfl, ?_, ?_, hi⟩
    · split <;> exact hpx'.1
    · split <;> exact hpx'.2
  | none =>
    cases h' : firstIdx (fun l => !l.valid) (c.setAt addr) with
    | some i =>
      obtain ⟨⟨x, hx, -⟩, -⟩ := firstIdx_eq_some _ _ _ h'
      have hi : i < (c.setAt addr).length := by
        by_contra hcon
        rw [List.getElem?_eq_none (by omega)] at hx
        cases hx
      rw [access_of_install c addr i h h']
      exact ⟨i, _, rfl, rfl, rfl, hi⟩
    | none =>
      rw [access_of_replace c addr h h']
      obtain ⟨lv, hlv, -⟩ := victimWay_spec _ hne
      refine ⟨_, _, rfl, ?_, rfl, ?_⟩
      · have hg : (c.setAt addr).getD (victimWay (c.setAt addr)) default = lv := by
          rw [List.getD_eq_getElem?_getD, hlv]; rfl
        rw [hg]
        have hall := (firstIdx_eq_none _ _).1 h' lv (List.mem_iff_getElem?.2 ⟨_, hlv⟩)
        simpa using hall
      · by_contra hcon
        rw [List.getElem?_eq_none (by omega)] at hlv
        cases hlv

theorem CacheLevel.WF.index_in_range {c : CacheLevel} (h : c.WF) (addr : Nat) :
    c.index addr < c.sets.length := by
  rw [h.sets_len]; exact index_lt c addr h.sets_pos

theorem CacheLevel.WF.setAt_eq {c : CacheLevel} (h : c.WF) (addr : Nat) :
    c.sets[c.index addr]? = some (c.setAt addr) := by
  unfold CacheLevel.setAt
  rw [List.getD_eq_getElem?_getD, List.getElem?_eq_getElem (h.index_in_range addr)]
  rfl

theorem CacheLevel.WF.setAt_length {c : CacheLevel} (h : c.WF) (addr : Nat) :
    (c.setAt addr).length = c.ways :=
  h.set_len _ (List.mem_iff_getElem?.2 ⟨_, h.setAt_eq addr⟩)

theorem CacheLevel.WF.setAt_ne_nil {c : CacheLevel} (h : c.WF) (addr : Nat) : c.setAt addr ≠ [] := by
  intro hnil
  have h1 := h.setAt_length addr
  have h2 := h.ways_pos
  rw [hnil] at h1
  simp at h1
  omega

/-- An access keeps the shape of a level. -/
theorem CacheLevel.WF.access_wf {c : CacheLevel} (h : c.WF) (addr : Nat) : (c.access addr).1.WF := by
  obtain ⟨i, new, hs, -, -, -⟩ := access_sets c addr (h.setAt_ne_nil addr)
  obtain ⟨-, h2, h3, -, -⟩ := access_geometry c addr
  refine ⟨?_, ?_, ?_, ?_⟩
  · rw [hs, List.length_set, h2]; exact h.sets_len
  · rw [h2]; exact h.sets_pos
  · rw [h3]; exact h.ways_pos
  · intro s hmem
    rw [hs] at hmem
    rw [h3]
    rcases List.mem_or_eq_of_mem_set hmem with hm | rfl
    · exact h.set_len s hm
    · rw [List.length_set]; exact h.setAt_length addr

/-- After an access the requested line is in its set. -/
theorem CacheLevel.WF.present_access {c : CacheLevel} (h : c.WF) (addr : Nat) :
    (c.access addr).1.present addr := by
  obtain ⟨i, new, hs, hv, ht, hi⟩ := access_sets c addr (h.setAt_ne_nil addr)
  refine ⟨new, ?_, hv, by rw [access_tagOf]; exact ht⟩
  unfold CacheLevel.setAt
  rw [access_index, hs, List.getD_eq_getElem?_getD, List.getElem?_set_self (h.index_in_range addr)]
  exact List.mem_iff_getElem?.2 ⟨i, List.getElem?_set_self hi⟩

theorem WF_mk0 (c b w : Nat) (p : CachePolicy) (hs : 0 < (c / b) / w) (hw : 0 < w) :
    (CacheLevel.mk0 c b w p).WF := by
  refine ⟨?_, hs, hw, ?_⟩
  · simp [CacheLevel.mk0]
  · intro s hmem
    simp only [CacheLevel.mk0] at hmem ⊢
    rw [List.eq_of_mem_replicate hmem]
    simp

/-- Nothing is present in a freshly constructed level. -/
theorem not_present_mk0 (c b w : Nat) (p : CachePolicy) (addr : Nat) :
    ¬ (CacheLevel.mk0 c b w p).present addr := by
  rintro ⟨l, hl, hv, -⟩
  unfold CacheLevel.setAt at hl
  rw [List.getD_eq_getElem?_getD] at hl
  cases hget : (CacheLevel.mk0 c b w p).sets[(CacheLevel.mk0 c b w p).index addr]? with
  | none => rw [hget] at hl; simp at hl
  | some s =>
    rw [hget] at hl
    have hs := List.mem_iff_getElem?.2 ⟨_, hget⟩
    simp only [CacheLevel.mk0] at hs
    rw [List.eq_of_mem_replicate hs] at hl
    simp only [Option.getD_some] at hl
    rw [List.eq_of_mem_replicate hl] at hv
    cases hv

/-- Reading a line after one way of one set has been rewritten. -/
theorem line?_after_set (c c' : CacheLevel) (idx v : Nat) (set : List CacheLine)
    (new : CacheLine) (hset : c.sets[idx]? = some set) (hv : v < set.length)
    (hs : c'.sets = c.sets.set idx (set.set v new)) :
    c'.line? idx v = some new ∧
      ∀ i j : Nat, (i ≠ idx ∨ j ≠ v) → c'.line? i j = c.line? i j := by
  have hidx : idx < c.sets.length := by
    by_contra hcon
    rw [List.getElem?_eq_none (by omega)] at hset
    cases hset
  constructor
  · unfold CacheLevel.line?
    rw [hs, List.getElem?_set_self hidx]
    simp [List.getElem?_set_self hv]
  · intro i j hij
    unfold CacheLevel.line?
    rw [hs]
    by_cases hi : i = idx
    · subst hi
      have hj : v ≠ j := by
        rcases hij with h | h
        · exact absurd rfl h
        · exact fun e => h e.symm
      rw [List.getElem?_set_self hidx, hset]
      simp [List.getElem?_set_ne hj]
    · rw [List.getElem?_set_ne (fun e => hi e.symm)]


/-- Claim C4 (cache level lookup).  For a level whose `blockSize` and
`setsCount` are powers of two, `access addr` returns `true` exactly when the set
with index `(addr / blockSize) % setsCount` holds a valid line whose tag is
`addr / (blockSize * setsCount)`; a hit adds one to `hits` and leaves `misses`,
a miss adds one to `misses` and leaves `hits`, and the clock advances by one in
both cases. -/
theorem cache_level_lookup (c : CacheLevel) (addr a b : Nat)
    (ha : c.blockSize = 2 ^ a) (hb : c.setsCount = 2 ^ b) :
    ((c.access addr).2 = true ↔
        ∃ l ∈ c.sets.getD ((addr / c.blockSize) % c.setsCount) [],
          l.valid = true ∧ l.tag = addr / (c.blockSize * c.setsCount)) ∧
      ((c.access addr).2 = true →
        (c.access addr).1.hits = c.hits + 1 ∧ (c.access addr).1.misses = c.misses) ∧
      ((c.access addr).2 = false →
        (c.access addr).1.misses = c.misses + 1 ∧ (c.access addr).1.hits = c.hits) ∧
      (c.access addr).1.clock = c.clock + 1 := by
  refine ⟨?_, access_counters_hit c addr, access_counters_miss c addr, access_clock c addr⟩
  rw [access_hit_iff, ← index_eq c addr a b ha hb, ← tagOf_eq c addr a b ha hb]
  rfl

/-- Claim C5 (cache level replacement).  When every way of the addressed set is
valid and none carries the requested tag, `access` reports a miss and rewrites
one way `v`: a way holding the minimum stamp of the set, the lowest such way.
Its tag becomes the requested tag and its stamp the incremented clock; every
other line of the level is unchanged. -/
theorem cache_level_replacement (c : CacheLevel) (addr : Nat) (set : List CacheLine)
    (hset : c.sets[c.index addr]? = some set) (hne : set ≠ [])
    (hfull : ∀ l ∈ set, l.valid = true ∧ l.tag ≠ c.tagOf addr) :
    ∃ v lv, set[v]? = some lv ∧
      (∀ (j : Nat) (l : CacheLine), set[j]? = some l → lv.stamp ≤ l.stamp) ∧
      (∀ (j : Nat) (l : CacheLine), j < v → set[j]? = some l → lv.stamp < l.stamp) ∧
      (c.access addr).1.line? (c.index addr) v
        = some { lv with tag := c.tagOf addr, stamp := c.clock + 1 } ∧
      (∀ i j : Nat, (i ≠ c.index addr ∨ j ≠ v) →
        (c.access addr).1.line? i j = c.line? i j) ∧
      (c.access addr).2 = false ∧
      (c.access addr).1.clock = c.clock + 1 := by
  have hsa : c.setAt addr = set := by
    unfold CacheLevel.setAt
    rw [List.getD_eq_getElem?_getD, hset]; rfl
  have h1 : firstIdx (fun l => l.valid && l.tag == c.tagOf addr) (c.setAt addr) = none := by
    rw [firstIdx_eq_none, hsa]
    intro x hx
    have := (hfull x hx).2
    simp [this]
  have h2 : firstIdx (fun l => !l.valid) (c.setAt addr) = none := by
    rw [firstIdx_eq_none, hsa]
    intro x hx
    simp [(hfull x hx).1]
  have hacc := access_of_replace c addr h1 h2
  rw [hsa] at hacc
  obtain ⟨lv, hlv, hmin, hfirst⟩ := victimWay_spec set hne
  have hv : victimWay set < set.length := by
    by_contra hcon
    rw [List.getElem?_eq_none (by omega)] at hlv
    cases hlv
  have hg : set.getD (victimWay set) default = lv := by
    rw [List.getD_eq_getElem?_getD, hlv]; rfl
  rw [hg] at hacc
  obtain ⟨hl1, hl2⟩ := line?_after_set c (c.access addr).1 (c.index addr) (victimWay set) set
    { lv with tag := c.tagOf addr, stamp := c.clock + 1 } hset hv (by rw [hacc])
  refine ⟨victimWay set, lv, hlv, hmin, hfirst, hl1, hl2, ?_, ?_⟩
  · rw [hacc]
  · rw [hacc]

/-! ## The two-level hierarchy, case by case -/

theorem Cache.access_fst (c : Cache) (addr : Nat) :
    (c.access addr).1.toCacheLevel = (c.toCacheLevel.access addr).1 := rfl

theorem Cache.access_snd (c : Cache) (addr : Nat) :
    (c.access addr).2 = (c.toCacheLevel.access addr).2 := rfl

theorem Cache.access_latency (c : Cache) (addr : Nat) :
    (c.access addr).1.latency = c.latency := rfl

theorem system_access_l1_hit (s : CacheSystem) (pa : Nat) (h : s.L1.present pa) :
    s.access pa = ({ L1 := (s.L1.access pa).1, L2 := s.L2 }, CacheOutcome.L1Hit) := by
  have h1 := (access_hit_iff s.L1 pa).2 h
  simp [CacheSystem.access, h1]

theorem system_access_l2_hit (s : CacheSystem) (pa : Nat) (h : ¬ s.L1.present pa)
    (h' : s.L2.present pa) :
    s.access pa = ({ L1 := ((s.L1.access pa).1.access pa).1, L2 := (s.L2.access pa).1 },
      CacheOutcome.L2Hit) := by
  have h1 : (s.L1.access pa).2 = false := by
    rw [← Bool.not_eq_true, access_hit_iff]; exact h
  have h2 := (access_hit_iff s.L2 pa).2 h'
  simp [CacheSystem.access, h1, h2]

theorem system_access_miss (s : CacheSystem) (pa : Nat) (h : ¬ s.L1.present pa)
    (h' : ¬ s.L2.present pa) :
    s.access pa = ({ L1 := ((s.L1.access pa).1.access pa).1,
                     L2 := ((s.L2.access pa).1.access pa).1 }, CacheOutcome.Miss) := by
  have h1 : (s.L1.access pa).2 = false := by
    rw [← Bool.not_eq_true, access_hit_iff]; exact h
  have h2 : (s.L2.access pa).2 = false := by
    rw [← Bool.not_eq_true, access_hit_iff]; exact h'
  simp [CacheSystem.access, h1, h2]

theorem hierarchy_access_l1_hit (h : CacheHierarchy) (addr : Nat)
    (hp : h.L1.present addr) :
    h.access addr = ({ L1 := (h.L1.access addr).1, L2 := h.L2,
                       totalTime := h.totalTime + h.L1.latency }, CacheOutcome.L1Hit) := by
  have h1 := (access_hit_iff h.L1.toCacheLevel addr).2 hp
  simp [CacheHierarchy.access, Cache.access_snd, h1]

theorem hierarchy_access_l2_hit (h : CacheHierarchy) (addr : Nat)
    (hp : ¬ h.L1.present addr) (hp' : h.L2.present addr) :
    h.access addr = ({ L1 := ((h.L1.access addr).1.access addr).1, L2 := (h.L2.access addr).1,
                       totalTime := h.totalTime + h.L1.latency + h.L2.latency },
      CacheOutcome.L2Hit) := by
  have h1 : (h.L1.toCacheLevel.access addr).2 = false := by
    rw [← Bool.not_eq_true, access_hit_iff]; exact hp
  have h2 := (access_hit_iff h.L2.toCacheLevel addr).2 hp'
  simp [CacheHierarchy.access, Cache.access_snd, h1, h2]

theorem hierarchy_access_miss (h : CacheHierarchy) (addr : Nat)
    (hp : ¬ h.L1.present addr) (hp' : ¬ h.L2.present addr) :
    h.access addr = ({ L1 := ((h.L1.access addr).1.access addr).1,
                       L2 := ((h.L2.access addr).1.access addr).1,
                       totalTime := h.totalTime + h.L1.latency + h.L2.latency + 80 },
      CacheOutcome.Miss) := by
  have h1 : (h.L1.toCacheLevel.access addr).2 = false := by
    rw [← Bool.not_eq_true, access_hit_iff]; exact hp
  have h2 : (h.L2.toCacheLevel.access addr).2 = false := by
    rw [← Bool.not_eq_true, access_hit_iff]; exact hp'
  simp [CacheHierarchy.access, Cache.access_snd, h1, h2]


/-- A level that has just missed on `addr` hits on it when asked again. -/
theorem CacheLevel.WF.access_twice {c : CacheLevel} (h : c.WF) (addr : Nat) :
    ((c.access addr).1.access addr).2 = true :=
  (access_hit_iff _ addr).2 (h.present_access addr)

/-- Counters of a level after a miss followed by a second access to the same
address. -/
theorem CacheLevel.WF.miss_then_hit {c : CacheLevel} (h : c.WF) (addr : Nat)
    (hp : ¬ c.present addr) :
    ((c.access addr).1.access addr).1.hits = c.hits + 1 ∧
      ((c.access addr).1.access addr).1.misses = c.misses + 1 := by
  have h1 : (c.access addr).2 = false := by
    rw [← Bool.not_eq_true, access_hit_iff]; exact hp
  obtain ⟨m1, m2⟩ := access_counters_miss c addr h1
  obtain ⟨m3, m4⟩ := access_counters_hit (c.access addr).1 addr (h.access_twice addr)
  rw [m3, m4, m1, m2]
  exact ⟨rfl, rfl⟩

/-- Claim C6, refuted as stated.  On the freshly constructed hierarchy address
64 is absent from both levels and the access takes the full-miss path, yet the
L2 access and the L1 access made after the main-memory penalty both return hit:
each level ends with one miss (from the probe) and one hit (from the second
access), not two misses. -/
theorem full_miss_refill_counterexample :
    ¬ CacheHierarchy.mk0.L1.present 64 ∧ ¬ CacheHierarchy.mk0.L2.present 64 ∧
      (CacheHierarchy.mk0.access 64).2 = CacheOutcome.Miss ∧
      ((CacheHierarchy.mk0.L2.access 64).1.access 64).2 = true ∧
      ((CacheHierarchy.mk0.L1.access 64).1.access 64).2 = true ∧
      (CacheHierarchy.mk0.access 64).1.L2.hits = 1 ∧
      (CacheHierarchy.mk0.access 64).1.L2.misses = 1 ∧
      (CacheHierarchy.mk0.access 64).1.L1.hits = 1 ∧
      (CacheHierarchy.mk0.access 64).1.L1.misses = 1 := by
  decide

/-- Claim C6, amended.  For an address absent from both levels the hierarchy
takes the full-miss path; the two probing accesses return miss and install the
line in their level, and the L2 access and the L1 access made after the penalty
both return hit.  Each level therefore ends with `hits` and `misses` one higher
than before, and `totalTime` has grown by both latencies and the penalty of
80.  The same holds for `CacheSystem`, which has no `totalTime`. -/
theorem full_miss_path (h : CacheHierarchy) (s : CacheSystem) (addr : Nat)
    (hw1 : h.L1.WF) (hw2 : h.L2.WF) (hp1 : ¬ h.L1.present addr) (hp2 : ¬ h.L2.present addr)
    (sw1 : s.L1.WF) (sw2 : s.L2.WF) (sp1 : ¬ s.L1.present addr) (sp2 : ¬ s.L2.present addr) :
    ((h.access addr).2 = CacheOutcome.Miss ∧
      (h.L1.access addr).2 = false ∧ (h.L2.access addr).2 = false ∧
      (h.L1.access addr).1.present addr ∧ (h.L2.access addr).1.present addr ∧
      (h.access addr).1.L2 = ((h.L2.access addr).1.access addr).1 ∧
      (h.access addr).1.L1 = ((h.L1.access addr).1.access addr).1 ∧
      ((h.L2.access addr).1.access addr).2 = true ∧
      ((h.L1.access addr).1.access addr).2 = true ∧
      (h.access addr).1.L1.hits = h.L1.hits + 1 ∧
      (h.access addr).1.L1.misses = h.L1.misses + 1 ∧
      (h.access addr).1.L2.hits = h.L2.hits + 1 ∧
      (h.access addr).1.L2.misses = h.L2.misses + 1 ∧
      (h.access addr).1.totalTime = h.totalTime + h.L1.latency + h.L2.latency + 80) ∧
    ((s.access addr).2 = CacheOutcome.Miss ∧
      (s.L1.access addr).2 = false ∧ (s.L2.access addr).2 = false ∧
      (s.L1.access addr).1.present addr ∧ (s.L2.access addr).1.present addr ∧
      (s.access addr).1.L2 = ((s.L2.access addr).1.access addr).1 ∧
      (s.access addr).1.L1 = ((s.L1.access addr).1.access addr).1 ∧
      ((s.L2.access addr).1.access addr).2 = true ∧
      ((s.L1.access addr).1.access addr).2 = true ∧
      (s.access addr).1.L1.hits = s.L1.hits + 1 ∧
      (s.access addr).1.L1.misses = s.L1.misses + 1 ∧
      (s.access addr).1.L2.hits = s.L2.hits + 1 ∧
      (s.access addr).1.L2.misses = s.L2.misses + 1) := by
  have a1 : (h.L1.toCacheLevel.access addr).2 = false := by
    rw [← Bool.not_eq_true, access_hit_iff]; exact hp1
  have a2 : (h.L2.toCacheLevel.access addr).2 = false := by
    rw [← Bool.not_eq_true, access_hit_iff]; exact hp2
  have b1 : (s.L1.access addr).2 = false := by
    rw [← Bool.not_eq_true, access_hit_iff]; exact sp1
  have b2 : (s.L2.access addr).2 = false := by
    rw [← Bool.not_eq_true, access_hit_iff]; exact sp2
  constructor
  · rw [hierarchy_access_miss h addr hp1 hp2]
    exact ⟨rfl, a1, a2, hw1.present_access addr, hw2.present_access addr, rfl, rfl,
      hw2.access_twice addr, hw1.access_twice addr,
      (hw1.miss_then_hit addr hp1).1, (hw1.miss_then_hit addr hp1).2,
      (hw2.miss_then_hit addr hp2).1, (hw2.miss_then_hit addr hp2).2, rfl⟩
  · rw [system_access_miss s addr sp1 sp2]
    exact ⟨rfl, b1, b2, sw1.present_access addr, sw2.present_access addr, rfl, rfl,
      sw2.access_twice addr, sw1.access_twice addr,
      (sw1.miss_then_hit addr sp1).1, (sw1.miss_then_hit addr sp1).2,
      (sw2.miss_then_hit addr sp2).1, (sw2.miss_then_hit addr sp2).2⟩

/-- Claim C7 (promotion, L1 population).  Whatever path the hierarchy takes,
after `access addr` the L1 set addressed by `addr` holds a valid line with the
L1 tag of `addr`; in particular this holds when `addr` missed L1 and hit L2.
Stated for `CacheHierarchy` and for `CacheSystem`. -/
theorem l1_populated_after_access (h : CacheHierarchy) (s : CacheSystem) (addr : Nat)
    (hw : h.L1.WF) (sw : s.L1.WF) :
    (h.access addr).1.L1.present addr ∧ (s.access addr).1.L1.present addr ∧
      (¬ h.L1.present addr → h.L2.present addr →
        (h.access addr).2 = CacheOutcome.L2Hit ∧ (h.access addr).1.L1.present addr) ∧
      (¬ s.L1.present addr → s.L2.present addr →
        (s.access addr).2 = CacheOutcome.L2Hit ∧ (s.access addr).1.L1.present addr) := by
  have hh : (h.access addr).1.L1.present addr := by
    by_cases hp1 : h.L1.present addr
    · rw [hierarchy_access_l1_hit h addr hp1]
      exact hw.present_access addr
    · by_cases hp2 : h.L2.present addr
      · rw [hierarchy_access_l2_hit h addr hp1 hp2]
        exact (hw.access_wf addr).present_access addr
      · rw [hierarchy_access_miss h addr hp1 hp2]
        exact (hw.access_wf addr).present_access addr
  have ss : (s.access addr).1.L1.present addr := by
    by_cases sp1 : s.L1.present addr
    · rw [system_access_l1_hit s addr sp1]
      exact sw.present_access addr
    · by_cases sp2 : s.L2.present addr
      · rw [system_access_l2_hit s addr sp1 sp2]
        exact (sw.access_wf addr).present_access addr
      · rw [system_access_miss s addr sp1 sp2]
        exact (sw.access_wf addr).present_access addr
  refine ⟨hh, ss, ?_, ?_⟩
  · intro hp1 hp2
    exact ⟨by rw [hierarchy_access_l2_hit h addr hp1 hp2], hh⟩
  · intro sp1 sp2
    exact ⟨by rw [system_access_l2_hit s addr sp1 sp2], ss⟩

theorem hierarchy_mk0_wf : CacheHierarchy.mk0.L1.WF ∧ CacheHierarchy.mk0.L2.WF :=
  ⟨WF_mk0 256 32 4 CachePolicy.LRU (by decide) (by decide),
   WF_mk0 1024 64 4 CachePolicy.FIFO (by decide) (by decide)⟩

theorem system_mk0_wf : CacheSystem.mk0.L1.WF ∧ CacheSystem.mk0.L2.WF :=
  ⟨WF_mk0 256 32 4 CachePolicy.LRU (by decide) (by decide),
   WF_mk0 1024 64 4 CachePolicy.FIFO (by decide) (by decide)⟩

/-- Claim C9 (cache-layer scenario).  On the freshly constructed hierarchy, for
every address `a`, the first `access a` takes the full-miss path, brings
`totalTime` to 1 + 8 + 80 = 89 and leaves the line of `a` valid in L1 and in
L2; the access to `a` that follows at once is an L1 hit and brings `totalTime`
to 90.  The same outcomes hold for the `CacheSystem` of the paging unit. -/
theorem fresh_hierarchy_scenario (a : Nat) :
    ((CacheHierarchy.mk0.access a).2 = CacheOutcome.Miss ∧
      (CacheHierarchy.mk0.access a).1.totalTime = 89 ∧
      (CacheHierarchy.mk0.access a).1.L1.present a ∧
      (CacheHierarchy.mk0.access a).1.L2.present a ∧
      ((CacheHierarchy.mk0.access a).1.access a).2 = CacheOutcome.L1Hit ∧
      ((CacheHierarchy.mk0.access a).1.access a).1.totalTime = 90) ∧
    ((CacheSystem.mk0.access a).2 = CacheOutcome.Miss ∧
      (CacheSystem.mk0.access a).1.L1.present a ∧
      (CacheSystem.mk0.access a).1.L2.present a ∧
      ((CacheSystem.mk0.access a).1.access a).2 = CacheOutcome.L1Hit) := by
  have n1 : ¬ CacheHierarchy.mk0.L1.present a := not_present_mk0 256 32 4 CachePolicy.LRU a
  have n2 : ¬ CacheHierarchy.mk0.L2.present a := not_present_mk0 1024 64 4 CachePolicy.FIFO a
  have m1 : ¬ CacheSystem.mk0.L1.present a := not_present_mk0 256 32 4 CachePolicy.LRU a
  have m2 : ¬ CacheSystem.mk0.L2.present a := not_present_mk0 1024 64 4 CachePolicy.FIFO a
  obtain ⟨w1, w2⟩ := hierarchy_mk0_wf
  obtain ⟨v1, v2⟩ := system_mk0_wf
  have e := hierarchy_access_miss CacheHierarchy.mk0 a n1 n2
  have f := system_access_miss CacheSystem.mk0 a m1 m2
  have p1 : (CacheHierarchy.mk0.access a).1.L1.present a := by
    rw [e]; exact (w1.access_wf a).present_access a
  have p2 : (CacheHierarchy.mk0.access a).1.L2.present a := by
    rw [e]; exact (w2.access_wf a).present_access a
  have q1 : (CacheSystem.mk0.access a).1.L1.present a := by
    rw [f]; exact (v1.access_wf a).present_access a
  have q2 : (CacheSystem.mk0.access a).1.L2.present a := by
    rw [f]; exact (v2.access_wf a).present_access a
  refine ⟨⟨by rw [e], by rw [e]; rfl, p1, p2, ?_, ?_⟩, ⟨by rw [f], q1, q2, ?_⟩⟩
  · rw [hierarchy_access_l1_hit _ a p1]
  · rw [hierarchy_access_l1_hit _ a p1, e]; rfl
  · rw [system_access_l1_hit _ a q1]

/-! ## One access to the paging unit, case by case -/

theorem getD_of_getElem? {α : Type} (l : List α) (i : Nat) (d x : α) (h : l[i]? = some x) :
    l.getD i d = x := by
  rw [List.getD_eq_getElem?_getD, h]; rfl

theorem getElem?_of_lt {α : Type} (l : List α) (i : Nat) (d : α) (h : i < l.length) :
    l[i]? = some (l.getD i d) := by
  rw [List.getD_eq_getElem?_getD, List.getElem?_eq_getElem h]; rfl

theorem lt_of_getElem? {α : Type} (l : List α) (i : Nat) (x : α) (h : l[i]? = some x) :
    i < l.length := by
  by_contra hcon
  rw [List.getElem?_eq_none (by omega)] at h
  cases h

theorem firstFree_eq_none (fm : List Int) (n : Nat) :
    firstFree fm n = none ↔ ∀ f, f < n → fm.getD f 0 ≠ -1 := by
  unfold firstFree
  rw [List.find?_eq_none]
  simp

theorem firstFree_eq_some (fm : List Int) (n f : Nat) (h : firstFree fm n = some f) :
    f < n ∧ fm.getD f 0 = -1 := by
  unfold firstFree at h
  have h1 := List.mem_of_find?_eq_some h
  have h2 := List.find?_some h
  simp only [List.mem_range] at h1
  simp only [beq_iff_eq] at h2
  exact ⟨h1, h2⟩

/-- The resident path of `access`. -/
theorem vm_access_hit (vm : VirtualMemory) (va : Nat)
    (h : (vm.table.getD (va / vm.pageSize) default).valid = true) :
    vm.access va =
      ({ vm with
          clock := vm.clock + 1,
          hits := vm.hits + 1,
          table := vm.table.set (va / vm.pageSize)
            { vm.table.getD (va / vm.pageSize) default with time := vm.clock + 1 },
          cache := (vm.cache.access
            ((vm.table.getD (va / vm.pageSize) default).frame * vm.pageSize
              + va % vm.pageSize)).1 },
       [Event.pageHit va ((vm.table.getD (va / vm.pageSize) default).frame * vm.pageSize
              + va % vm.pageSize),
        Event.cache (vm.cache.access
            ((vm.table.getD (va / vm.pageSize) default).frame * vm.pageSize
              + va % vm.pageSize)).2]) := by
  by_cases hlt : va / vm.pageSize < vm.table.length
  · have hg : ∀ x : PageEntry,
        (vm.table.set (va / vm.pageSize) x).getD (va / vm.pageSize) default = x :=
      fun x => getD_of_getElem? _ _ _ _ (List.getElem?_set_self hlt)
    simp only [VirtualMemory.access, h, if_true, hg]
  · have hd : vm.table.getD (va / vm.pageSize) default = default :=
      List.getD_eq_default _ _ (by omega)
    rw [hd] at h
    cases h

/-- The fault path of `access` when frame `f` is the first free one. -/
theorem vm_access_free (vm : VirtualMemory) (va f : Nat)
    (h : (vm.table.getD (va / vm.pageSize) default).valid = false)
    (hf : firstFree vm.frameMap vm.frames = some f) :
    vm.access va =
      ({ vm with
          clock := vm.clock + 1,
          faults := vm.faults + 1,
          disk := vm.disk.erase (va / vm.pageSize),
          table := vm.table.set (va / vm.pageSize)
            { valid := true, frame := f, time := vm.clock + 1 },
          frameMap := vm.frameMap.set f ((va / vm.pageSize : Nat) : Int),
          cache := (vm.cache.access (f * vm.pageSize + va % vm.pageSize)).1 },
       [Event.pageFault va, Event.pageIn (va / vm.pageSize),
        Event.cache (vm.cache.access (f * vm.pageSize + va % vm.pageSize)).2]) := by
  simp only [VirtualMemory.access, h, hf, VirtualMemory.page_in, Bool.false_eq_true, if_false]

/-- The fault path of `access` when no frame is free. -/
theorem vm_access_evict (vm : VirtualMemory) (va : Nat)
    (h : (vm.table.getD (va / vm.pageSize) default).valid = false)
    (hf : firstFree vm.frameMap vm.frames = none) :
    vm.access va =
      ({ vm with
          clock := vm.clock + 1,
          faults := vm.faults + 1,
          disk := (insert vm.select_victim vm.disk).erase (va / vm.pageSize),
          table := (vm.table.set vm.select_victim
              { vm.table.getD vm.select_victim default with valid := false }).set
                (va / vm.pageSize)
                { valid := true, frame := (vm.table.getD vm.select_victim default).frame,
                  time := vm.clock + 1 },
          frameMap := (vm.frameMap.set (vm.table.getD vm.select_victim default).frame (-1)).set
              (vm.table.getD vm.select_victim default).frame ((va / vm.pageSize : Nat) : Int),
          cache := (vm.cache.access ((vm.table.getD vm.select_victim default).frame * vm.pageSize
              + va % vm.pageSize)).1 },
       [Event.pageFault va, Event.pageOut vm.select_victim, Event.pageIn (va / vm.pageSize),
        Event.replaced vm.select_victim (va / vm.pageSize),
        Event.cache (vm.cache.access
          ((vm.table.getD vm.select_victim default).frame * vm.pageSize + va % vm.pageSize)).2]) := by
  simp only [VirtualMemory.access, h, hf, VirtualMemory.page_in, VirtualMemory.page_out,
    VirtualMemory.select_victim, Bool.false_eq_true, if_false]

/-! ## The victim scan of the page table -/

theorem victimPageLoop_spec (es : List PageEntry) (i v t : Nat) :
    ∃ t', t' ≤ t ∧
      (∀ (k : Nat) (e : PageEntry), es[k]? = some e → e.valid = true → t' ≤ e.time) ∧
      ((victimPageLoop es i v t = v ∧ t' = t) ∨
        (i ≤ victimPageLoop es i v t ∧ t' < t ∧
          (∃ e, es[victimPageLoop es i v t - i]? = some e ∧ e.valid = true ∧ e.time = t') ∧
          ∀ (k : Nat) (e : PageEntry), k < victimPageLoop es i v t - i → es[k]? = some e →
            e.valid = true → t' < e.time)) := by
  induction es generalizing i v t with
  | nil => exact ⟨t, le_refl _, by intro k e hk; simp at hk, Or.inl ⟨rfl, rfl⟩⟩
  | cons x es ih =>
    unfold victimPageLoop
    split
    · rename_i hc
      simp only [Bool.and_eq_true, decide_eq_true_eq] at hc
      obtain ⟨t', h1, h2, h3⟩ := ih (i + 1) i x.time
      refine ⟨t', by omega, ?_, Or.inr ?_⟩
      · intro k e hk hv
        cases k with
        | zero => simp at hk; subst hk; exact h1
        | succ k => exact h2 k e (by simpa using hk) hv
      · rcases h3 with ⟨hr, hm⟩ | ⟨hr, hm, ⟨e, he, hev, het⟩, hfirst⟩
        · rw [hr]
          refine ⟨le_refl _, by omega, ⟨x, by simp, hc.1, hm.symm⟩, ?_⟩
          intro k e hk; omega
        · refine ⟨by omega, by omega, ⟨e, ?_, hev, het⟩, ?_⟩
          · have : victimPageLoop es (i + 1) i x.time - i
                = (victimPageLoop es (i + 1) i x.time - (i + 1)) + 1 := by omega
            rw [this]; simpa using he
          · intro k y hk hy hyv
            cases k with
            | zero => simp at hy; subst hy; exact hm
            | succ k => exact hfirst k y (by omega) (by simpa using hy) hyv
    · rename_i hc
      simp only [Bool.and_eq_true, decide_eq_true_eq, not_and, Nat.not_lt] at hc
      obtain ⟨t', h1, h2, h3⟩ := ih (i + 1) v t
      refine ⟨t', h1, ?_, ?_⟩
      · intro k e hk hv
        cases k with
        | zero => simp at hk; subst hk; have := hc hv; omega
        | succ k => exact h2 k e (by simpa using hk) hv
      · rcases h3 with ⟨hr, hm⟩ | ⟨hr, hm, ⟨e, he, hev, het⟩, hfirst⟩
        · exact Or.inl ⟨hr, hm⟩
        · refine Or.inr ⟨by omega, hm, ⟨e, ?_, hev, het⟩, ?_⟩
          · have : victimPageLoop es (i + 1) v t - i
                = (victimPageLoop es (i + 1) v t - (i + 1)) + 1 := by omega
            rw [this]; simpa using he
          · intro k y hk hy hyv
            cases k with
            | zero => simp at hy; subst hy; have := hc hyv; omega
            | succ k => exact hfirst k y (by omega) (by simpa using hy) hyv

/-- The page returned by `select_victim` is an index of the table, provided
the table is not empty. -/
theorem select_victim_lt (vm : VirtualMemory) (h : 0 < vm.table.length) :
    vm.select_victim < vm.table.length := by
  unfold VirtualMemory.select_victim
  obtain ⟨t', -, -, h3⟩ := victimPageLoop_spec vm.table 0 0 SIZE_MAX
  rcases h3 with ⟨hr, -⟩ | ⟨-, -, ⟨e, he, -, -⟩, -⟩
  · rw [hr]; exact h
  · exact lt_of_getElem? _ _ _ (by simpa using he)

/-- When some valid page carries a stamp below `SIZE_MAX`, `select_victim`
returns a valid page with the minimum stamp among the valid pages, the lowest
such page. -/
theorem select_victim_spec (vm : VirtualMemory) (q : Nat) (eq : PageEntry)
    (hq : vm.table[q]? = some eq) (hqv : eq.valid = true) (hqt : eq.time < SIZE_MAX) :
    ∃ ev, vm.table[vm.select_victim]? = some ev ∧ ev.valid = true ∧
      (∀ (k : Nat) (e : PageEntry), vm.table[k]? = some e → e.valid = true →
        ev.time ≤ e.time) ∧
      (∀ (k : Nat) (e : PageEntry), k < vm.select_victim → vm.table[k]? = some e →
        e.valid = true → ev.time < e.time) := by
  unfold VirtualMemory.select_victim
  obtain ⟨t', h1, h2, h3⟩ := victimPageLoop_spec vm.table 0 0 SIZE_MAX
  rcases h3 with ⟨-, hm⟩ | ⟨-, -, ⟨e, he, hev, het⟩, hfirst⟩
  · have := h2 q eq hq hqv
    omega
  · refine ⟨e, by simpa using he, hev, ?_, ?_⟩
    · intro k x hk hxv
      rw [het]; exact h2 k x hk hxv
    · intro k x hk hx hxv
      rw [het]; exact hfirst k x (by simpa using hk) hx hxv

/-! ## The partition invariant -/

theorem Part_mk0 (vSize pSize pSizePg : Nat) : (VirtualMemory.mk0 vSize pSize pSizePg).Part := by
  refine ⟨by simp [VirtualMemory.mk0], ?_⟩
  intro p
  simp only [VirtualMemory.mk0, Finset.mem_range, List.getElem?_replicate]
  constructor
  · intro hp
    exact ⟨{}, by simp [hp], rfl⟩
  · rintro ⟨e, he, -⟩
    by_contra hcon
    simp [hcon] at he

/-- An access to an in-range address keeps the partition. -/
theorem Part_access (vm : VirtualMemory) (va : Nat) (h : vm.Part)
    (hr : va / vm.pageSize < vm.pages) : (vm.access va).1.Part := by
  have hlen : va / vm.pageSize < vm.table.length := by rw [h.table_len]; exact hr
  cases hv : (vm.table.getD (va / vm.pageSize) default).valid with
  | true =>
    rw [vm_access_hit vm va hv]
    refine ⟨by simp [h.table_len], ?_⟩
    intro p
    simp only
    rw [h.disk_iff p, List.getElem?_set]
    by_cases hp : va / vm.pageSize = p
    · subst hp
      simp only [if_true, hlen, getElem?_of_lt vm.table _ default hlen]
      simp [hv]
    · simp only [if_neg hp]
  | false =>
    cases hf : firstFree vm.frameMap vm.frames with
    | some f =>
      rw [vm_access_free vm va f hv hf]
      refine ⟨by simp [h.table_len], ?_⟩
      intro p
      simp only
      rw [Finset.mem_erase, h.disk_iff p, List.getElem?_set]
      by_cases hp : va / vm.pageSize = p
      · subst hp
        simp [hlen]
      · simp only [if_neg hp]
        constructor
        · exact fun hh => hh.2
        · exact fun hh => ⟨fun e => hp e.symm, hh⟩
    | none =>
      rw [vm_access_evict vm va hv hf]
      have hvl : vm.select_victim < vm.table.length := select_victim_lt vm (Nat.lt_of_le_of_lt (Nat.zero_le _) hlen)
      refine ⟨by simp [h.table_len], ?_⟩
      intro p
      simp only
      rw [Finset.mem_erase, Finset.mem_insert, h.disk_iff p, List.getElem?_set, List.getElem?_set,
        List.length_set]
      by_cases hp : va / vm.pageSize = p
      · subst hp
        simp [hlen]
      · simp only [if_neg hp]
        by_cases hpv : vm.select_victim = p
        · subst hpv
          have hp' : ¬ vm.select_victim = va / vm.pageSize := fun e => hp e.symm
          simp [hvl, hp']
        · simp only [if_neg hpv]
          constructor
          · rintro ⟨-, hh | hh⟩
            · exact absurd hh.symm hpv
            · exact hh
          · exact fun hh => ⟨fun e => hp e.symm, Or.inr hh⟩

theorem Part_of_reachable (vm : VirtualMemory) (h : Reachable vm) : vm.Part := by
  induction h with
  | init vSize pSize pSizePg => exact Part_mk0 vSize pSize pSizePg
  | step va _ hr ih => exact Part_access _ va ih hr

/-! ## The frame-pool invariant -/

theorem Bij_congr (vm vm' : VirtualMemory) (h : vm.Bij) (h1 : vm'.table = vm.table)
    (h2 : vm'.frameMap = vm.frameMap) (h3 : vm'.clock = vm.clock)
    (h4 : vm'.frames = vm.frames) : vm'.Bij := by
  refine ⟨?_, ?_, ?_, ?_⟩
  · rw [h2, h4]; exact h.frameMap_len
  · rw [h1, h2]; exact h.frame_of_valid
  · rw [h1, h2]; exact h.page_of_frame
  · rw [h1, h3]; exact h.time_le

theorem Bij_mk0 (vSize pSize pSizePg : Nat) : (VirtualMemory.mk0 vSize pSize pSizePg).Bij := by
  refine ⟨by simp [VirtualMemory.mk0], ?_, ?_, ?_⟩
  · intro p e he hv
    simp only [VirtualMemory.mk0, List.getElem?_replicate] at he
    split at he
    · cases he; cases hv
    · cases he
  · intro f x hx hne
    simp only [VirtualMemory.mk0, List.getElem?_replicate] at hx
    split at hx
    · cases hx; exact absurd rfl hne
    · cases hx
  · intro p e he hv
    simp only [VirtualMemory.mk0, List.getElem?_replicate] at he
    split at he
    · cases he; cases hv
    · cases he

/-- Advancing the clock and the counters keeps the invariant. -/
theorem Bij_tick (vm vm' : VirtualMemory) (h : vm.Bij) (h1 : vm'.table = vm.table)
    (h2 : vm'.frameMap = vm.frameMap) (h3 : vm'.clock = vm.clock + 1)
    (h4 : vm'.frames = vm.frames) : vm'.Bij := by
  refine ⟨?_, ?_, ?_, ?_⟩
  · rw [h2, h4]; exact h.frameMap_len
  · rw [h1, h2]; exact h.frame_of_valid
  · rw [h1, h2]; exact h.page_of_frame
  · rw [h1, h3]
    intro p e he hv
    have := h.time_le p e he hv
    omega

/-- Refreshing the stamp of a valid page with the current clock keeps the
invariant. -/
theorem Bij_touch (vm : VirtualMemory) (p : Nat) (e : PageEntry) (h : vm.Bij)
    (he : vm.table[p]? = some e) :
    ({ vm with table := vm.table.set p { e with time := vm.clock } } : VirtualMemory).Bij := by
  have hlt := lt_of_getElem? _ _ _ he
  refine ⟨h.frameMap_len, ?_, ?_, ?_⟩
  · intro q x hx hxv
    simp only [List.getElem?_set] at hx
    by_cases hq : p = q
    · subst hq
      simp only [if_true, hlt] at hx
      cases hx
      exact h.frame_of_valid p e he hxv
    · simp only [if_neg hq] at hx
      exact h.frame_of_valid q x hx hxv
  · intro f x hx hne
    obtain ⟨q, y, hxq, hy, hyv, hyf⟩ := h.page_of_frame f x hx hne
    by_cases hq : p = q
    · subst hq
      rw [he] at hy
      cases hy
      exact ⟨p, { e with time := vm.clock }, hxq, by simp [List.getElem?_set, hlt], hyv, hyf⟩
    · exact ⟨q, y, hxq, by simp only [List.getElem?_set, if_neg hq]; exact hy, hyv, hyf⟩
  · intro q x hx hxv
    simp only [List.getElem?_set] at hx
    by_cases hq : p = q
    · subst hq
      simp only [if_true, hlt] at hx
      cases hx
      exact le_refl _
    · simp only [if_neg hq] at hx
      exact h.time_le q x hx hxv

/-- Paging a non-resident page into a free frame keeps the invariant. -/
theorem Bij_page_in (vm : VirtualMemory) (p f : Nat) (e : PageEntry) (h : vm.Bij)
    (he : vm.table[p]? = some e) (hev : e.valid = false)
    (hf : vm.frameMap[f]? = some (-1)) : (vm.page_in p f).Bij := by
  have hlt := lt_of_getElem? _ _ _ he
  have hflt := lt_of_getElem? _ _ _ hf
  refine ⟨by simp [VirtualMemory.page_in, h.frameMap_len], ?_, ?_, ?_⟩
  · intro q x hx hxv
    simp only [VirtualMemory.page_in, List.getElem?_set] at hx ⊢
    by_cases hq : p = q
    · subst hq
      simp only [if_true, hlt] at hx
      cases hx
      simp [hflt]
    · simp only [if_neg hq] at hx
      have hold := h.frame_of_valid q x hx hxv
      have hne : f ≠ x.frame := by
        intro hcon
        rw [← hcon, hf] at hold
        cases hold
      simp only [if_neg hne]
      exact hold
  · intro g x hx hne
    simp only [VirtualMemory.page_in, List.getElem?_set] at hx ⊢
    by_cases hg : f = g
    · subst hg
      simp only [if_true, hflt] at hx
      cases hx
      exact ⟨p, { valid := true, frame := f, time := vm.clock }, rfl, by simp [hlt], rfl, rfl⟩
    · simp only [if_neg hg] at hx
      obtain ⟨q, y, hxq, hy, hyv, hyf⟩ := h.page_of_frame g x hx hne
      have hq : p ≠ q := by
        intro hcon
        rw [← hcon, he] at hy
        cases hy
        rw [hev] at hyv
        cases hyv
      exact ⟨q, y, hxq, by simp only [if_neg hq]; exact hy, hyv, hyf⟩
  · intro q x hx hxv
    simp only [VirtualMemory.page_in, List.getElem?_set] at hx ⊢
    by_cases hq : p = q
    · subst hq
      simp only [if_true, hlt] at hx
      cases hx
      exact le_refl _
    · simp only [if_neg hq] at hx
      exact h.time_le q x hx hxv

/-- Paging a resident page out keeps the invariant and frees its frame. -/
theorem Bij_page_out (vm : VirtualMemory) (v : Nat) (ev : PageEntry) (h : vm.Bij)
    (he : vm.table[v]? = some ev) (hev : ev.valid = true) :
    (vm.page_out v).Bij ∧ (vm.page_out v).frameMap[ev.frame]? = some (-1) ∧
      ∀ q : Nat, q ≠ v → (vm.page_out v).table[q]? = vm.table[q]? := by
  have hlt := lt_of_getElem? _ _ _ he
  have hfv := h.frame_of_valid v ev he hev
  have hflt := lt_of_getElem? _ _ _ hfv
  have hg : vm.table.getD v default = ev := getD_of_getElem? _ _ _ _ he
  refine ⟨⟨by simp [VirtualMemory.page_out, h.frameMap_len], ?_, ?_, ?_⟩, ?_, ?_⟩
  · intro q x hx hxv
    simp only [VirtualMemory.page_out, hg, List.getElem?_set] at hx ⊢
    by_cases hq : v = q
    · subst hq
      simp only [if_true, hlt] at hx
      cases hx
      cases hxv
    · simp only [if_neg hq] at hx
      have hold := h.frame_of_valid q x hx hxv
      have hne : ev.frame ≠ x.frame := by
        intro hcon
        rw [← hcon, hfv] at hold
        have : (v : Int) = (q : Int) := by injection hold
        exact hq (by exact_mod_cast this)
      simp only [if_neg hne]
      exact hold
  · intro g x hx hne
    simp only [VirtualMemory.page_out, hg, List.getElem?_set] at hx ⊢
    by_cases hgf : ev.frame = g
    · subst hgf
      simp only [if_true, hflt] at hx
      cases hx
      exact absurd rfl hne
    · simp only [if_neg hgf] at hx
      obtain ⟨q, y, hxq, hy, hyv, hyf⟩ := h.page_of_frame g x hx hne
      have hq : v ≠ q := by
        intro hcon
        rw [← hcon, he] at hy
        cases hy
        exact hgf hyf
      exact ⟨q, y, hxq, by simp only [if_neg hq]; exact hy, hyv, hyf⟩
  · intro q x hx hxv
    simp only [VirtualMemory.page_out, hg, List.getElem?_set] at hx ⊢
    by_cases hq : v = q
    · subst hq
      simp only [if_true, hlt] at hx
      cases hx
      cases hxv
    · simp only [if_neg hq] at hx
      exact h.time_le q x hx hxv
  · simp only [VirtualMemory.page_out, hg]
    exact List.getElem?_set_self hflt
  · intro q hq
    simp only [VirtualMemory.page_out, hg]
    rw [List.getElem?_set_ne (fun e => hq e.symm)]

/-- What an access leaves alone, and how it moves the clock. -/
theorem vm_access_config (vm : VirtualMemory) (va : Nat) :
    (vm.access va).1.pageSize = vm.pageSize ∧ (vm.access va).1.pages = vm.pages ∧
      (vm.access va).1.frames = vm.frames ∧ (vm.access va).1.clock = vm.clock + 1 := by
  cases hv : (vm.table.getD (va / vm.pageSize) default).valid with
  | true => rw [vm_access_hit vm va hv]; exact ⟨rfl, rfl, rfl, rfl⟩
  | false =>
    cases hf : firstFree vm.frameMap vm.frames with
    | some f => rw [vm_access_free vm va f hv hf]; exact ⟨rfl, rfl, rfl, rfl⟩
    | none => rw [vm_access_evict vm va hv hf]; exact ⟨rfl, rfl, rfl, rfl⟩

/-- With at least one frame and no free frame, some page is resident. -/
theorem exists_valid_of_full (vm : VirtualMemory) (h : vm.Bij) (hfr : 0 < vm.frames)
    (hf : firstFree vm.frameMap vm.frames = none) :
    ∃ (q : Nat) (e : PageEntry), vm.table[q]? = some e ∧ e.valid = true ∧ e.time ≤ vm.clock := by
  have h0 := (firstFree_eq_none _ _).1 hf 0 hfr
  have hlt : 0 < vm.frameMap.length := by rw [h.frameMap_len]; exact hfr
  have hget := getElem?_of_lt vm.frameMap 0 0 hlt
  obtain ⟨q, e, -, he, hev, -⟩ := h.page_of_frame 0 _ hget h0
  exact ⟨q, e, he, hev, h.time_le q e he hev⟩

theorem Bij_access_hit (vm : VirtualMemory) (va : Nat) (h : vm.Bij)
    (hv : (vm.table.getD (va / vm.pageSize) default).valid = true) :
    (vm.access va).1.Bij := by
  have hlt : va / vm.pageSize < vm.table.length := by
    by_contra hcon
    rw [List.getD_eq_default _ _ (by omega)] at hv
    cases hv
  have he := getElem?_of_lt vm.table _ default hlt
  have h1 : ({ vm with clock := vm.clock + 1 } : VirtualMemory).Bij :=
    Bij_tick vm _ h rfl rfl rfl rfl
  have h2 := Bij_touch _ _ _ h1 he
  rw [vm_access_hit vm va hv]
  exact Bij_congr _ _ h2 rfl rfl rfl rfl

theorem Bij_access_free (vm : VirtualMemory) (va f : Nat) (h : vm.Bij)
    (hr : va / vm.pageSize < vm.table.length)
    (hv : (vm.table.getD (va / vm.pageSize) default).valid = false)
    (hf : firstFree vm.frameMap vm.frames = some f) :
    (vm.access va).1.Bij := by
  have he := getElem?_of_lt vm.table _ default hr
  obtain ⟨hf1, hf2⟩ := firstFree_eq_some _ _ _ hf
  have hfl : f < vm.frameMap.length := by rw [h.frameMap_len]; exact hf1
  have hfg : vm.frameMap[f]? = some (-1) := by
    rw [getElem?_of_lt vm.frameMap f 0 hfl, hf2]
  have h1 : ({ vm with clock := vm.clock + 1 } : VirtualMemory).Bij :=
    Bij_tick vm _ h rfl rfl rfl rfl
  have h2 := Bij_page_in _ (va / vm.pageSize) f _ h1 he hv hfg
  rw [vm_access_free vm va f hv hf]
  exact Bij_congr _ _ h2 rfl rfl rfl rfl

theorem Bij_access_evict (vm : VirtualMemory) (va : Nat) (h : vm.Bij)
    (hr : va / vm.pageSize < vm.table.length)
    (hv : (vm.table.getD (va / vm.pageSize) default).valid = false)
    (hf : firstFree vm.frameMap vm.frames = none)
    (hfr : 0 < vm.frames) (hc : vm.clock < SIZE_MAX) :
    (vm.access va).1.Bij := by
  have he := getElem?_of_lt vm.table _ default hr
  obtain ⟨q, eq, hq, hqv, hqt⟩ := exists_valid_of_full vm h hfr hf
  obtain ⟨ev, hev, hevv, -, -⟩ := select_victim_spec vm q eq hq hqv (by omega)
  have hg : vm.table.getD vm.select_victim default = ev := getD_of_getElem? _ _ _ _ hev
  have hne : va / vm.pageSize ≠ vm.select_victim := by
    intro hcon
    rw [hcon, hg, hevv] at hv
    cases hv
  have h1 : ({ vm with clock := vm.clock + 1 } : VirtualMemory).Bij :=
    Bij_tick vm _ h rfl rfl rfl rfl
  obtain ⟨h2, h3, h4⟩ := Bij_page_out _ vm.select_victim ev h1 hev hevv
  have he' := he
  rw [← h4 _ hne] at he'
  have h5 := Bij_page_in _ (va / vm.pageSize) ev.frame _ h2 he' hv h3
  rw [vm_access_evict vm va hv hf, hg]
  refine Bij_congr _ _ h5 ?_ ?_ rfl rfl
  · simp only [VirtualMemory.page_in, VirtualMemory.page_out, hg]
  · simp only [VirtualMemory.page_in, VirtualMemory.page_out, hg]

/-- An access to an in-range address keeps the frame-pool invariant, as long as
there is a frame and the clock is below `SIZE_MAX`. -/
theorem Bij_access (vm : VirtualMemory) (va : Nat) (hp : vm.Part) (h : vm.Bij)
    (hr : va / vm.pageSize < vm.pages) (hfr : 0 < vm.frames) (hc : vm.clock < SIZE_MAX) :
    (vm.access va).1.Bij := by
  have hlen : va / vm.pageSize < vm.table.length := by rw [hp.table_len]; exact hr
  cases hv : (vm.table.getD (va / vm.pageSize) default).valid with
  | true => exact Bij_access_hit vm va h hv
  | false =>
    cases hf : firstFree vm.frameMap vm.frames with
    | some f => exact Bij_access_free vm va f h hlen hv hf
    | none => exact Bij_access_evict vm va h hlen hv hf hfr hc

theorem Bij_of_reachable (vm : VirtualMemory) (h : Reachable vm) (hfr : 0 < vm.frames)
    (hc : vm.clock ≤ SIZE_MAX) : vm.Bij := by
  induction h with
  | init vSize pSize pSizePg => exact Bij_mk0 vSize pSize pSizePg
  | step va hreach hr ih =>
    obtain ⟨-, -, c3, c4⟩ := vm_access_config _ va
    rw [c3] at hfr
    rw [c4] at hc
    exact Bij_access _ va (Part_of_reachable _ hreach) (ih hfr (by omega)) hr hfr (by omega)

/-- Claim C2 (partition invariant).  In every state reachable from construction
by accesses to in-range addresses, each page `p < pages` is either valid and
not in the disk set, or invalid and in the disk set, and the disk set holds
page numbers only.  Right after construction every page is invalid and in the
disk set. -/
theorem partition_invariant (vm : VirtualMemory) (h : Reachable vm) :
    (∀ p : Nat, p < vm.pages →
        ((vm.table.getD p default).valid = true ∧ p ∉ vm.disk) ∨
        ((vm.table.getD p default).valid = false ∧ p ∈ vm.disk)) ∧
      (∀ p ∈ vm.disk, p < vm.pages) ∧
      (∀ vSize pSize pSizePg p : Nat, p < (VirtualMemory.mk0 vSize pSize pSizePg).pages →
        p ∈ (VirtualMemory.mk0 vSize pSize pSizePg).disk ∧
        ((VirtualMemory.mk0 vSize pSize pSizePg).table.getD p default).valid = false) := by
  have hp := Part_of_reachable vm h
  refine ⟨?_, ?_, ?_⟩
  · intro p hlt
    have hl : p < vm.table.length := by rw [hp.table_len]; exact hlt
    have he := getElem?_of_lt vm.table p default hl
    cases hv : (vm.table.getD p default).valid with
    | true =>
      refine Or.inl ⟨rfl, ?_⟩
      rw [hp.disk_iff]
      rintro ⟨e, he', hev⟩
      rw [he] at he'
      cases he'
      rw [hv] at hev
      cases hev
    | false => exact Or.inr ⟨rfl, (hp.disk_iff p).2 ⟨_, he, hv⟩⟩
  · intro p hmem
    obtain ⟨e, he, -⟩ := (hp.disk_iff p).1 hmem
    rw [← hp.table_len]
    exact lt_of_getElem? _ _ _ he
  · intro vSize pSize pSizePg p hlt
    have hp0 := Part_mk0 vSize pSize pSizePg
    have hl : p < (VirtualMemory.mk0 vSize pSize pSizePg).table.length := by
      rw [hp0.table_len]; exact hlt
    have he := getElem?_of_lt _ p default hl
    have hmem : p ∈ (VirtualMemory.mk0 vSize pSize pSizePg).disk := by
      simp only [VirtualMemory.mk0, Finset.mem_range]
      exact hlt
    obtain ⟨e, he', hev⟩ := (hp0.disk_iff p).1 hmem
    rw [he] at he'
    cases he'
    exact ⟨hmem, hev⟩

/-- Claim C10 (resident path).  When the page of `va` is valid, the access adds
one to `hits`, leaves `faults`, stamps the page with the incremented clock,
hands the physical address `frame * pageSize + va % pageSize` to the cache
hierarchy, and leaves every `valid` and `frame` field, every other stamp, the
frame map and the disk set as they were. -/
theorem resident_access (vm : VirtualMemory) (va : Nat)
    (hv : (vm.table.getD (va / vm.pageSize) default).valid = true) :
    (vm.access va).1.hits = vm.hits + 1 ∧
      (vm.access va).1.faults = vm.faults ∧
      (vm.access va).1.clock = vm.clock + 1 ∧
      (vm.access va).1.table[va / vm.pageSize]?
        = some { vm.table.getD (va / vm.pageSize) default with time := vm.clock + 1 } ∧
      (∀ q : Nat, q ≠ va / vm.pageSize → (vm.access va).1.table[q]? = vm.table[q]?) ∧
      (∀ q : Nat, ((vm.access va).1.table.getD q default).valid
            = (vm.table.getD q default).valid ∧
          ((vm.access va).1.table.getD q default).frame = (vm.table.getD q default).frame) ∧
      (vm.access va).1.table.length = vm.table.length ∧
      (vm.access va).1.frameMap = vm.frameMap ∧
      (vm.access va).1.disk = vm.disk ∧
      (vm.access va).1.cache = (vm.cache.access
        ((vm.table.getD (va / vm.pageSize) default).frame * vm.pageSize + va % vm.pageSize)).1 ∧
      (vm.access va).2 =
        [Event.pageHit va
          ((vm.table.getD (va / vm.pageSize) default).frame * vm.pageSize + va % vm.pageSize),
         Event.cache (vm.cache.access
          ((vm.table.getD (va / vm.pageSize) default).frame * vm.pageSize
            + va % vm.pageSize)).2] := by
  have hlt : va / vm.pageSize < vm.table.length := by
    by_contra hcon
    rw [List.getD_eq_default _ _ (by omega)] at hv
    cases hv
  rw [vm_access_hit vm va hv]
  refine ⟨rfl, rfl, rfl, ?_, ?_, ?_, ?_, rfl, rfl, rfl, rfl⟩
  · simp only
    rw [List.getElem?_set_self hlt]
  · intro q hq
    simp only
    rw [List.getElem?_set_ne (fun e => hq e.symm)]
  · intro q
    simp only
    by_cases hq : va / vm.pageSize = q
    · subst hq
      rw [getD_of_getElem? _ _ default _ (List.getElem?_set_self hlt)]
      exact ⟨rfl, rfl⟩
    · rw [List.getD_eq_getElem?_getD, List.getElem?_set_ne hq, ← List.getD_eq_getElem?_getD]
      exact ⟨rfl, rfl⟩
  · simp only [List.length_set]

/-! ## Traces that fit into the frame pool -/

/-- When no frame is free, every frame holds a resident page, so there are at
least `frames` resident pages. -/
theorem frames_le_card_of_full (vm : VirtualMemory) (hb : vm.Bij)
    (hf : firstFree vm.frameMap vm.frames = none) (S : Finset Nat)
    (hS : ∀ (q : Nat) (e : PageEntry), vm.table[q]? = some e → e.valid = true → q ∈ S) :
    vm.frames ≤ S.card := by
  have hfull := (firstFree_eq_none _ _).1 hf
  have key : ∀ f : Nat, f < vm.frames →
      ∃ (q : Nat) (e : PageEntry), vm.frameMap.getD f 0 = (q : Int) ∧
        vm.table[q]? = some e ∧ e.valid = true ∧ e.frame = f := by
    intro f hlt
    have hl : f < vm.frameMap.length := by rw [hb.frameMap_len]; exact hlt
    exact hb.page_of_frame f _ (getElem?_of_lt vm.frameMap f 0 hl) (hfull f hlt)
  have hcard := Finset.card_le_card_of_injOn (s := Finset.range vm.frames) (t := S)
    (fun f => (vm.frameMap.getD f 0).toNat) ?_ ?_
  · rw [Finset.card_range] at hcard; exact hcard
  · intro f hmem
    obtain ⟨q, e, hx, he, hev, -⟩ := key f (Finset.mem_range.1 hmem)
    simp only [hx, Int.toNat_natCast]
    exact hS q e he hev
  · intro f hmem g hgmem hfg
    obtain ⟨q, e, hx, he, -, hef⟩ := key f (Finset.mem_range.1 hmem)
    obtain ⟨q', e', hx', he', -, hef'⟩ := key g (Finset.mem_range.1 hgmem)
    simp only [hx, hx', Int.toNat_natCast] at hfg
    subst hfg
    rw [he] at he'
    cases he'
    rw [← hef, ← hef']

theorem run_cons (vm : VirtualMemory) (va : Nat) (rest : List Nat) :
    vm.run (va :: rest) =
      (((vm.access va).1.run rest).1, (vm.access va).2 :: ((vm.access va).1.run rest).2) := rfl

/-- First-touch classification for a state whose resident pages are exactly
the pages seen so far, and a remaining trace that needs no more frames than
there are. -/
theorem run_first_touch (tr : List Nat) :
    ∀ (vm : VirtualMemory) (seen : List Nat), vm.Part → vm.Bij →
      (∀ (q : Nat) (e : PageEntry), vm.table[q]? = some e → (e.valid = true ↔ q ∈ seen)) →
      (∀ va ∈ tr, va / vm.pageSize < vm.pages) →
      (seen ++ tr.map (fun va => va / vm.pageSize)).toFinset.card ≤ vm.frames →
      (vm.run tr).2.map classify = firstTouch seen (tr.map (fun va => va / vm.pageSize)) ∧
        ∀ log ∈ (vm.run tr).2, evicts log = false := by
  induction tr with
  | nil =>
    intro vm seen _ _ _ _ _
    exact ⟨rfl, by intro log hlog; cases hlog⟩
  | cons va rest ih =>
    intro vm seen hp hb hseen hr hcard
    have hr0 : va / vm.pageSize < vm.pages := hr va (List.mem_cons_self _ _)
    have hlen : va / vm.pageSize < vm.table.length := by rw [hp.table_len]; exact hr0
    have he := getElem?_of_lt vm.table _ default hlen
    obtain ⟨c1, c2, c3, -⟩ := vm_access_config vm va
    have hr' : ∀ a ∈ rest, a / (vm.access va).1.pageSize < (vm.access va).1.pages := by
      intro a ha
      rw [c1, c2]
      exact hr a (List.mem_cons_of_mem _ ha)
    have hcard' : ((va / vm.pageSize :: seen) ++
        rest.map (fun a => a / (vm.access va).1.pageSize)).toFinset.card
          ≤ (vm.access va).1.frames := by
      rw [c1, c3]
      refine le_trans (le_of_eq ?_) hcard
      congr 1
      ext x
      simp only [List.map_cons, List.toFinset_append, List.toFinset_cons, Finset.mem_union,
        Finset.mem_insert, List.mem_toFinset]
      tauto
    have hpart' := Part_access vm va hp hr0
    rw [run_cons]
    simp only [List.map_cons, firstTouch, List.mem_cons, forall_eq_or_imp]
    by_cases hmem : va / vm.pageSize ∈ seen
    · -- the page has been seen: it is resident
      have hv : (vm.table.getD (va / vm.pageSize) default).valid = true :=
        (hseen _ _ he).2 hmem
      have hbij' := Bij_access_hit vm va hb hv
      have hseen' : ∀ (q : Nat) (e : PageEntry), (vm.access va).1.table[q]? = some e →
          (e.valid = true ↔ q ∈ va / vm.pageSize :: seen) := by
        intro q e hq
        rw [vm_access_hit vm va hv] at hq
        simp only [List.getElem?_set] at hq
        by_cases hqp : va / vm.pageSize = q
        · subst hqp
          simp only [if_true, hlen] at hq
          cases hq
          exact ⟨fun _ => List.mem_cons_self _ _, fun _ => hv⟩
        · simp only [if_neg hqp] at hq
          rw [hseen q e hq]
          constructor
          · exact List.mem_cons_of_mem _
          · intro hh
            rcases List.mem_cons.1 hh with hh | hh
            · exact absurd hh.symm hqp
            · exact hh
      obtain ⟨i1, i2⟩ := ih (vm.access va).1 (va / vm.pageSize :: seen) hpart' hbij' hseen'
        hr' hcard'
      rw [c1] at i1
      refine ⟨?_, ?_, i2⟩
      · rw [i1, if_pos hmem, vm_access_hit vm va hv]
        rfl
      · rw [vm_access_hit vm va hv]
        rfl
    · -- a new page: it is not resident and a frame is free
      have hv : (vm.table.getD (va / vm.pageSize) default).valid = false := by
        cases hvv : (vm.table.getD (va / vm.pageSize) default).valid with
        | false => rfl
        | true => exact absurd ((hseen _ _ he).1 hvv) hmem
      cases hf : firstFree vm.frameMap vm.frames with
      | none =>
        exfalso
        have h1 := frames_le_card_of_full vm hb hf seen.toFinset
          (fun q e hq hev => List.mem_toFinset.2 ((hseen q e hq).1 hev))
        have h2 : seen.toFinset.card + 1 ≤
            (seen ++ (va :: rest).map (fun a => a / vm.pageSize)).toFinset.card := by
          rw [← Finset.card_insert_of_not_mem (fun hh => hmem (List.mem_toFinset.1 hh))]
          apply Finset.card_le_card
          intro x hx
          simp only [List.map_cons, List.toFinset_append, List.toFinset_cons, Finset.mem_union,
            Finset.mem_insert, List.mem_toFinset] at hx ⊢
          tauto
        omega
      | some f =>
        have hbij' := Bij_access_free vm va f hb hlen hv hf
        have hseen' : ∀ (q : Nat) (e : PageEntry), (vm.access va).1.table[q]? = some e →
            (e.valid = true ↔ q ∈ va / vm.pageSize :: seen) := by
          intro q e hq
          rw [vm_access_free vm va f hv hf] at hq
          simp only [List.getElem?_set] at hq
          by_cases hqp : va / vm.pageSize = q
          · subst hqp
            simp only [if_true, hlen] at hq
            cases hq
            exact ⟨fun _ => List.mem_cons_self _ _, fun _ => rfl⟩
          · simp only [if_neg hqp] at hq
            rw [hseen q e hq]
            constructor
            · exact List.mem_cons_of_mem _
            · intro hh
              rcases List.mem_cons.1 hh with hh | hh
              · exact absurd hh.symm hqp
              · exact hh
        obtain ⟨i1, i2⟩ := ih (vm.access va).1 (va / vm.pageSize :: seen) hpart' hbij' hseen'
          hr' hcard'
        rw [c1] at i1
        refine ⟨?_, ?_, i2⟩
        · rw [i1, if_neg hmem, vm_access_free vm va f hv hf]
          rfl
        · rw [vm_access_free vm va f hv hf]
          rfl

/-- Position by position, `firstTouch` answers FAULT exactly for a page that is
neither in `seen` nor at an earlier position. -/
theorem firstTouch_spec (ps : List Nat) :
    ∀ (seen : List Nat) (i p : Nat), ps[i]? = some p →
      ∃ o, (firstTouch seen ps)[i]? = some o ∧
        (o = PageOutcome.FAULT ↔
          p ∉ seen ∧ ∀ (j q : Nat), j < i → ps[j]? = some q → q ≠ p) := by
  induction ps with
  | nil => intro seen i p h; simp at h
  | cons x xs ih =>
    intro seen i p h
    cases i with
    | zero =>
      simp only [List.getElem?_cons_zero, Option.some.injEq] at h
      subst h
      refine ⟨if x ∈ seen then PageOutcome.HIT else PageOutcome.FAULT,
        by simp only [firstTouch, List.getElem?_cons_zero], ?_⟩
      by_cases hx : x ∈ seen
      · simp [hx]
      · simp [hx]
    | succ i =>
      simp only [List.getElem?_cons_succ] at h
      obtain ⟨o, ho, hiff⟩ := ih (x :: seen) i p h
      refine ⟨o, by simp only [firstTouch, List.getElem?_cons_succ]; exact ho, ?_⟩
      rw [hiff]
      constructor
      · rintro ⟨h1, h2⟩
        refine ⟨fun hh => h1 (List.mem_cons_of_mem _ hh), ?_⟩
        intro j q hj hq
        cases j with
        | zero =>
          simp only [List.getElem?_cons_zero, Option.some.injEq] at hq
          subst hq
          exact fun e => h1 (by rw [e]; exact List.mem_cons_self _ _)
        | succ j => exact h2 j q (by omega) (by simpa using hq)
      · rintro ⟨h1, h2⟩
        refine ⟨?_, ?_⟩
        · intro hh
          rcases List.mem_cons.1 hh with hh | hh
          · exact h2 0 x (by omega) (by simp) hh.symm
          · exact h1 hh
        · intro j q hj hq
          exact h2 (j + 1) q (by omega) (by simpa using hq)

/-- Claim C8 (page-layer scenario).  Starting from a freshly constructed
paging unit, for every trace of in-range addresses that touches no more
distinct pages than there are frames, an access is classified FAULT exactly
when no earlier access of the trace went to its page and HIT otherwise, and no
access pages anything out. -/
theorem first_touch_classification (vSize pSize pSizePg : Nat) (tr : List Nat)
    (hr : ∀ va ∈ tr, va / pSizePg < (VirtualMemory.mk0 vSize pSize pSizePg).pages)
    (hd : (tr.map (fun va => va / pSizePg)).toFinset.card
      ≤ (VirtualMemory.mk0 vSize pSize pSizePg).frames) :
    ((VirtualMemory.mk0 vSize pSize pSizePg).run tr).2.map classify
        = firstTouch [] (tr.map (fun va => va / pSizePg)) ∧
      (∀ (i va : Nat), tr[i]? = some va →
        ∃ o, (((VirtualMemory.mk0 vSize pSize pSizePg).run tr).2.map classify)[i]? = some o ∧
          (o = PageOutcome.FAULT ↔
            ∀ (j vb : Nat), j < i → tr[j]? = some vb → vb / pSizePg ≠ va / pSizePg)) ∧
      ∀ log ∈ ((VirtualMemory.mk0 vSize pSize pSizePg).run tr).2, evicts log = false := by
  have hmain := run_first_touch tr (VirtualMemory.mk0 vSize pSize pSizePg) []
    (Part_mk0 _ _ _) (Bij_mk0 _ _ _) ?_ hr (by simpa using hd)
  · refine ⟨hmain.1, ?_, hmain.2⟩
    intro i va hi
    have hi' : (tr.map (fun va => va / pSizePg))[i]? = some (va / pSizePg) := by
      rw [List.getElem?_map, hi]; rfl
    obtain ⟨o, ho, hiff⟩ := firstTouch_spec _ [] i (va / pSizePg) hi'
    refine ⟨o, by rw [hmain.1]; exact ho, ?_⟩
    rw [hiff]
    constructor
    · rintro ⟨-, h2⟩ j vb hj hvb
      exact h2 j (vb / pSizePg) hj (by rw [List.getElem?_map, hvb]; rfl)
    · intro h2
      refine ⟨by simp, ?_⟩
      intro j q hj hq
      rw [List.getElem?_map] at hq
      cases hvb : tr[j]? with
      | none => rw [hvb] at hq; cases hq
      | some vb =>
        rw [hvb] at hq
        simp only [Option.map_some', Option.some.injEq] at hq
        rw [← hq]
        exact h2 j vb hj hvb
  · intro q e he
    simp only [VirtualMemory.mk0, List.getElem?_replicate] at he
    split at he
    · cases he; simp
    · cases he

/-! ## Instances of the theorems at concrete states -/

theorem demoOneFrame_reachable : Reachable demoOneFrame :=
  Reachable.step 0 (Reachable.init 2048 64 64) (by decide)

/-- Claim C4 at the L1 geometry (block 32, two sets) and address 64. -/
theorem cache_level_lookup_witness :
    (CacheLevel.mk0 256 32 4 CachePolicy.LRU).blockSize = 2 ^ 5 ∧
      (CacheLevel.mk0 256 32 4 CachePolicy.LRU).setsCount = 2 ^ 1 ∧
      (((CacheLevel.mk0 256 32 4 CachePolicy.LRU).access 64).2 = false →
        ((CacheLevel.mk0 256 32 4 CachePolicy.LRU).access 64).1.misses = 0 + 1 ∧
        ((CacheLevel.mk0 256 32 4 CachePolicy.LRU).access 64).1.hits = 0) ∧
      ((CacheLevel.mk0 256 32 4 CachePolicy.LRU).access 64).1.clock = 0 + 1 :=
  ⟨by decide, by decide,
    (cache_level_lookup (CacheLevel.mk0 256 32 4 CachePolicy.LRU) 64 5 1
      (by decide) (by decide)).2.2.1,
    (cache_level_lookup (CacheLevel.mk0 256 32 4 CachePolicy.LRU) 64 5 1
      (by decide) (by decide)).2.2.2⟩

/-- Claim C5 at a full set with stamps 5 and 3: way 1 is replaced. -/
theorem cache_level_replacement_witness :
    demoFullLevel.sets[demoFullLevel.index 0]?
        = some [{ valid := true, tag := 1, stamp := 5 }, { valid := true, tag := 2, stamp := 3 }] ∧
      (∀ l ∈ [({ valid := true, tag := 1, stamp := 5 } : CacheLine),
            { valid := true, tag := 2, stamp := 3 }],
        l.valid = true ∧ l.tag ≠ demoFullLevel.tagOf 0) ∧
      demoFullLevel.index 0 = 0 ∧
      (demoFullLevel.access 0).1.line? 0 1 = some { valid := true, tag := 0, stamp := 6 } ∧
      (demoFullLevel.access 0).1.line? 0 0 = some { valid := true, tag := 1, stamp := 5 } ∧
      (demoFullLevel.access 0).2 = false := by
  obtain ⟨v, lv, h1, h2, -, h4, h5, h6, -⟩ := cache_level_replacement demoFullLevel 0
    [{ valid := true, tag := 1, stamp := 5 }, { valid := true, tag := 2, stamp := 3 }]
    (by decide) (by decide) (by decide)
  have hv : v = 1 := by
    match v, h1, h2 with
    | 0, h1, h2 =>
      simp only [List.getElem?_cons_zero, Option.some.injEq] at h1
      subst h1
      have := h2 1 { valid := true, tag := 2, stamp := 3 } rfl
      simp at this
    | 1, _, _ => rfl
    | (n + 2), h1, _ => simp at h1
  subst hv
  simp only [List.getElem?_cons_succ, List.getElem?_cons_zero, Option.some.injEq] at h1
  subst h1
  refine ⟨by decide, by decide, by decide, h4, ?_, h6⟩
  rw [h5 0 0 (Or.inr (by decide))]
  decide

/-- Claim C6 (amended) at the freshly constructed hierarchies and address 64. -/
theorem full_miss_path_witness :
    CacheHierarchy.mk0.L1.WF ∧ CacheHierarchy.mk0.L2.WF ∧
      CacheSystem.mk0.L1.WF ∧ CacheSystem.mk0.L2.WF ∧
      ¬ CacheHierarchy.mk0.L1.present 64 ∧ ¬ CacheHierarchy.mk0.L2.present 64 ∧
      ¬ CacheSystem.mk0.L1.present 64 ∧ ¬ CacheSystem.mk0.L2.present 64 ∧
      (CacheHierarchy.mk0.access 64).2 = CacheOutcome.Miss ∧
      ((CacheHierarchy.mk0.L2.access 64).1.access 64).2 = true ∧
      ((CacheHierarchy.mk0.L1.access 64).1.access 64).2 = true ∧
      (CacheHierarchy.mk0.access 64).1.totalTime = 0 + 1 + 8 + 80 ∧
      (CacheSystem.mk0.access 64).2 = CacheOutcome.Miss := by
  have h := full_miss_path CacheHierarchy.mk0 CacheSystem.mk0 64
    hierarchy_mk0_wf.1 hierarchy_mk0_wf.2 (by decide) (by decide)
    system_mk0_wf.1 system_mk0_wf.2 (by decide) (by decide)
  obtain ⟨⟨a1, -, -, -, -, -, -, a8, a9, -, -, -, -, a14⟩, ⟨b1, -⟩⟩ := h
  exact ⟨hierarchy_mk0_wf.1, hierarchy_mk0_wf.2, system_mk0_wf.1,
    system_mk0_wf.2, by decide, by decide, by decide, by decide, a1, a8, a9, a14, b1⟩

/-- Claim C7 at the freshly constructed hierarchies and address 64. -/
theorem l1_populated_after_access_witness :
    CacheHierarchy.mk0.L1.WF ∧ CacheSystem.mk0.L1.WF ∧
      (CacheHierarchy.mk0.access 64).1.L1.present 64 ∧
      (CacheSystem.mk0.access 64).1.L1.present 64 :=
  ⟨hierarchy_mk0_wf.1, system_mk0_wf.1,
   (l1_populated_after_access CacheHierarchy.mk0 CacheSystem.mk0 64
      hierarchy_mk0_wf.1 system_mk0_wf.1).1,
   (l1_populated_after_access CacheHierarchy.mk0 CacheSystem.mk0 64
      hierarchy_mk0_wf.1 system_mk0_wf.1).2.1⟩

/-- Claim C2 at the one-frame unit after its first access. -/
theorem partition_invariant_witness :
    Reachable demoOneFrame ∧
      ∀ p : Nat, p < demoOneFrame.pages →
        ((demoOneFrame.table.getD p default).valid = true ∧ p ∉ demoOneFrame.disk) ∨
        ((demoOneFrame.table.getD p default).valid = false ∧ p ∈ demoOneFrame.disk) :=
  ⟨demoOneFrame_reachable, (partition_invariant demoOneFrame demoOneFrame_reachable).1⟩

/-- Claim C10 at the one-frame unit: address 5 lies in the resident page 0. -/
theorem resident_access_witness :
    (demoOneFrame.table.getD (5 / demoOneFrame.pageSize) default).valid = true ∧
      (demoOneFrame.access 5).1.hits = demoOneFrame.hits + 1 ∧
      (demoOneFrame.access 5).1.faults = demoOneFrame.faults ∧
      (demoOneFrame.access 5).1.frameMap = demoOneFrame.frameMap ∧
      (demoOneFrame.access 5).1.disk = demoOneFrame.disk :=
  ⟨by decide, (resident_access demoOneFrame 5 (by decide)).1,
    (resident_access demoOneFrame 5 (by decide)).2.1,
    (resident_access demoOneFrame 5 (by decide)).2.2.2.2.2.2.2.1,
    (resident_access demoOneFrame 5 (by decide)).2.2.2.2.2.2.2.2.1⟩

/-- Claim C8 at `VirtualMemory(2048, 512, 64)` (32 pages, 8 frames) and the
driver's trace: FAULT, FAULT, FAULT, FAULT, HIT, HIT, FAULT, HIT, HIT, ending
with 4 hits, 5 faults and 27 pages on disk. -/
theorem first_touch_classification_witness :
    (∀ va ∈ driverTrace, va / 64 < (VirtualMemory.mk0 2048 512 64).pages) ∧
      (driverTrace.map (fun va => va / 64)).toFinset.card
        ≤ (VirtualMemory.mk0 2048 512 64).frames ∧
      ((VirtualMemory.mk0 2048 512 64).run driverTrace).2.map classify
        = [PageOutcome.FAULT, PageOutcome.FAULT, PageOutcome.FAULT, PageOutcome.FAULT,
           PageOutcome.HIT, PageOutcome.HIT, PageOutcome.FAULT, PageOutcome.HIT,
           PageOutcome.HIT] ∧
      (∀ log ∈ ((VirtualMemory.mk0 2048 512 64).run driverTrace).2, evicts log = false) ∧
      ((VirtualMemory.mk0 2048 512 64).run driverTrace).1.hits = 4 ∧
      ((VirtualMemory.mk0 2048 512 64).run driverTrace).1.faults = 5 ∧
      ((VirtualMemory.mk0 2048 512 64).run driverTrace).1.disk.card = 27 := by
  have h := first_touch_classification 2048 512 64 driverTrace (by decide) (by decide)
  refine ⟨by decide, by decide, ?_, h.2.2, by decide, by decide, by decide⟩
  rw [h.1]
  decide

/-! ## The fault path with a free frame -/

theorem find?_range_min (p : Nat → Bool) (n f : Nat) (h : (List.range n).find? p = some f) :
    ∀ g : Nat, g < f → p g = false := by
  induction n with
  | zero => simp at h
  | succ n ih =>
    rw [List.range_succ, List.find?_append] at h
    cases hfind : (List.range n).find? p with
    | some x =>
      rw [hfind] at h
      simp only [Option.or_some, Option.some.injEq] at h
      subst h
      exact ih hfind
    | none =>
      rw [hfind] at h
      simp only [Option.none_or] at h
      have hmem := List.mem_of_find?_eq_some h
      simp only [List.mem_singleton] at hmem
      subst hmem
      intro g hg
      have := (List.find?_eq_none.1 hfind) g (List.mem_range.2 hg)
      simpa using this

/-- The frame found by the scan is the lowest free one. -/
theorem firstFree_min (fm : List Int) (n f : Nat) (h : firstFree fm n = some f) :
    ∀ g : Nat, g < f → fm.getD g 0 ≠ -1 := by
  intro g hg
  have := find?_range_min _ n f h g hg
  simpa using this

theorem firstFree_isSome (fm : List Int) (n g : Nat) (hg : g < n) (hfree : fm.getD g 0 = -1) :
    ∃ f, firstFree fm n = some f := by
  cases h : firstFree fm n with
  | some f => exact ⟨f, rfl⟩
  | none => exact absurd hfree ((firstFree_eq_none fm n).1 h g hg)

theorem vm_access_frameMap_length (vm : VirtualMemory) (va : Nat) :
    (vm.access va).1.frameMap.length = vm.frameMap.length := by
  cases hv : (vm.table.getD (va / vm.pageSize) default).valid with
  | true => rw [vm_access_hit vm va hv]
  | false =>
    cases hf : firstFree vm.frameMap vm.frames with
    | some f => rw [vm_access_free vm va f hv hf]; simp only [List.length_set]
    | none => rw [vm_access_evict vm va hv hf]; simp only [List.length_set]

/-- The frame map of a reachable state has one slot per frame. -/
theorem frameMap_len_of_reachable (vm : VirtualMemory) (h : Reachable vm) :
    vm.frameMap.length = vm.frames := by
  induction h with
  | init vSize pSize pSizePg => simp [VirtualMemory.mk0]
  | step va _ _ ih =>
    rw [vm_access_frameMap_length, (vm_access_config _ va).2.2.1]
    exact ih

/-- A reachable unit with a page has a positive page size. -/
theorem pageSize_pos_of_reachable (vm : VirtualMemory) (h : Reachable vm)
    (hp : 0 < vm.pages) : 0 < vm.pageSize := by
  induction h with
  | init vSize pSize pSizePg =>
    simp only [VirtualMemory.mk0] at hp ⊢
    by_contra hcon
    have : pSizePg = 0 := by omega
    subst this
    simp at hp
  | step va _ _ ih =>
    obtain ⟨c1, c2, -, -⟩ := vm_access_config _ va
    rw [c1]; rw [c2] at hp
    exact ih hp

/-- Claim C12, evaluated on the code.  With two frames, the trace 0, 64, 0, 128
pages in page 0 first and page 1 second, then hits page 0; the fault on page 2
pages out page 1, the least recently used page, and keeps page 0, the page
that was paged in first.  A first-in-first-out policy would page out page 0. -/
theorem page_replacement_not_fifo :
    (demoTwoFrames.run [0, 64, 0, 128]).2 =
      [[Event.pageFault 0, Event.pageIn 0, Event.cache CacheOutcome.Miss],
       [Event.pageFault 64, Event.pageIn 1, Event.cache CacheOutcome.Miss],
       [Event.pageHit 0 0, Event.cache CacheOutcome.L1Hit],
       [Event.pageFault 128, Event.pageOut 1, Event.pageIn 2, Event.replaced 1 2,
        Event.cache CacheOutcome.L1Hit]] ∧
      ((demoTwoFrames.run [0, 64, 0, 128]).1.table.getD 0 default).valid = true ∧
      ((demoTwoFrames.run [0, 64, 0, 128]).1.table.getD 1 default).valid = false ∧
      (demoTwoFrames.run [0, 64, 0]).1.select_victim = 1 ∧
      ((demoTwoFrames.run [0, 64, 0]).1.table.getD 0 default).time = 3 ∧
      ((demoTwoFrames.run [0, 64, 0]).1.table.getD 1 default).time = 2 := by
  decide

/-! ## A unit with a single frame -/

/-- After an access to an in-range address its page is resident. -/
theorem page_valid_after_access (vm : VirtualMemory) (va : Nat)
    (hlen : va / vm.pageSize < vm.table.length) :
    ∃ e, (vm.access va).1.table[va / vm.pageSize]? = some e ∧ e.valid = true := by
  cases hv : (vm.table.getD (va / vm.pageSize) default).valid with
  | true =>
    rw [vm_access_hit vm va hv]
    exact ⟨_, List.getElem?_set_self hlen, hv⟩
  | false =>
    cases hf : firstFree vm.frameMap vm.frames with
    | some f =>
      rw [vm_access_free vm va f hv hf]
      exact ⟨_, List.getElem?_set_self hlen, rfl⟩
    | none =>
      rw [vm_access_evict vm va hv hf]
      exact ⟨_, List.getElem?_set_self (by rw [List.length_set]; exact hlen), rfl⟩

/-- An access is classified HIT exactly when its page is valid. -/
theorem classify_access (vm : VirtualMemory) (va : Nat) :
    classify (vm.access va).2 =
      if (vm.table.getD (va / vm.pageSize) default).valid = true then PageOutcome.HIT
      else PageOutcome.FAULT := by
  cases hv : (vm.table.getD (va / vm.pageSize) default).valid with
  | true => rw [vm_access_hit vm va hv]; rfl
  | false =>
    cases hf : firstFree vm.frameMap vm.frames with
    | some f => rw [vm_access_free vm va f hv hf]; rfl
    | none => rw [vm_access_evict vm va hv hf]; rfl

/-- With a single frame at most one page is resident. -/
theorem valid_unique_of_one_frame (vm : VirtualMemory) (hb : vm.Bij) (h1 : vm.frames = 1)
    (p q : Nat) (ep eq : PageEntry) (hp : vm.table[p]? = some ep) (hq : vm.table[q]? = some eq)
    (hpv : ep.valid = true) (hqv : eq.valid = true) : p = q := by
  have a := hb.frame_of_valid p ep hp hpv
  have b := hb.frame_of_valid q eq hq hqv
  have la := lt_of_getElem? _ _ _ a
  have lb := lt_of_getElem? _ _ _ b
  rw [hb.frameMap_len, h1] at la lb
  have ea : ep.frame = 0 := by omega
  have eb : eq.frame = 0 := by omega
  rw [ea] at a
  rw [eb, a] at b
  have : (p : Int) = (q : Int) := by injection b
  exact (by exact_mod_cast this)

/-- Position by position, `lastTouch` answers HIT exactly for a page equal to
the one just before it. -/
theorem lastTouch_spec (ps : List Nat) :
    ∀ (prev : Option Nat) (i p : Nat), ps[i]? = some p →
      ∃ o, (lastTouch prev ps)[i]? = some o ∧
        (o = PageOutcome.HIT ↔
          (i = 0 ∧ prev = some p) ∨ ∃ j : Nat, i = j + 1 ∧ ps[j]? = some p) := by
  induction ps with
  | nil => intro prev i p h; simp at h
  | cons x xs ih =>
    intro prev i p h
    cases i with
    | zero =>
      simp only [List.getElem?_cons_zero, Option.some.injEq] at h
      subst h
      refine ⟨if prev = some x then PageOutcome.HIT else PageOutcome.FAULT,
        by simp only [lastTouch, List.getElem?_cons_zero], ?_⟩
      by_cases hx : prev = some x
      · simp [hx]
      · simp [hx]
    | succ i =>
      simp only [List.getElem?_cons_succ] at h
      obtain ⟨o, ho, hiff⟩ := ih (some x) i p h
      refine ⟨o, by simp only [lastTouch, List.getElem?_cons_succ]; exact ho, ?_⟩
      rw [hiff]
      constructor
      · rintro (⟨h0, hx⟩ | ⟨j, hj, hjp⟩)
        · refine Or.inr ⟨0, by omega, ?_⟩
          simp only [List.getElem?_cons_zero]
          exact hx
        · exact Or.inr ⟨j + 1, by omega, by simpa using hjp⟩
      · rintro (⟨h0, -⟩ | ⟨j, hj, hjp⟩)
        · omega
        · cases j with
          | zero =>
            simp only [List.getElem?_cons_zero] at hjp
            exact Or.inl ⟨by omega, hjp⟩
          | succ j => exact Or.inr ⟨j, by omega, by simpa using hjp⟩

/-- Classification along a trace for a reachable unit with a single frame whose
only resident page, if any, is `prev`. -/
theorem run_last_touch (tr : List Nat) :
    ∀ (vm : VirtualMemory) (prev : Option Nat), Reachable vm → vm.frames = 1 →
      vm.clock + tr.length ≤ SIZE_MAX →
      (∀ (q : Nat) (e : PageEntry), vm.table[q]? = some e → (e.valid = true ↔ prev = some q)) →
      (∀ va ∈ tr, va / vm.pageSize < vm.pages) →
      (vm.run tr).2.map classify = lastTouch prev (tr.map (fun va => va / vm.pageSize)) := by
  induction tr with
  | nil => intro vm prev _ _ _ _ _; rfl
  | cons va rest ih =>
    intro vm prev hreach h1 hc hprev hr
    have hr0 : va / vm.pageSize < vm.pages := hr va (List.mem_cons_self _ _)
    have hp := Part_of_reachable vm hreach
    have hlen : va / vm.pageSize < vm.table.length := by rw [hp.table_len]; exact hr0
    have he := getElem?_of_lt vm.table _ default hlen
    obtain ⟨c1, c2, c3, c4⟩ := vm_access_config vm va
    have hreach' : Reachable (vm.access va).1 := Reachable.step va hreach hr0
    simp only [List.length_cons] at hc
    have hb' : (vm.access va).1.Bij :=
      Bij_of_reachable _ hreach' (by rw [c3, h1]; decide) (by rw [c4]; omega)
    obtain ⟨e', he', hev'⟩ := page_valid_after_access vm va hlen
    have hprev' : ∀ (q : Nat) (e : PageEntry), (vm.access va).1.table[q]? = some e →
        (e.valid = true ↔ some (va / vm.pageSize) = some q) := by
      intro q e hq
      constructor
      · intro hev
        rw [valid_unique_of_one_frame _ hb' (by rw [c3]; exact h1) _ _ _ _ he' hq hev' hev]
      · intro heq
        simp only [Option.some.injEq] at heq
        subst heq
        rw [he'] at hq
        cases hq
        exact hev'
    have hrest := ih (vm.access va).1 (some (va / vm.pageSize)) hreach' (by rw [c3]; exact h1)
      (by rw [c4]; omega) hprev'
      (by intro a ha; rw [c1, c2]; exact hr a (List.mem_cons_of_mem _ ha))
    rw [c1] at hrest
    rw [run_cons]
    simp only [List.map_cons, lastTouch]
    rw [hrest, classify_access]
    congr 1
    by_cases hv : (vm.table.getD (va / vm.pageSize) default).valid = true
    · rw [if_pos hv, if_pos ((hprev _ _ he).1 hv)]
    · rw [if_neg hv, if_neg (fun hh => hv ((hprev _ _ he).2 hh))]

theorem mk0_nothing_valid (vSize pSize pSizePg : Nat) (q : Nat) (e : PageEntry)
    (he : (VirtualMemory.mk0 vSize pSize pSizePg).table[q]? = some e) : e.valid = false := by
  simp only [VirtualMemory.mk0, List.getElem?_replicate] at he
  split at he
  · cases he; rfl
  · cases he

/-- Claim C17 (L1 fast path).  For an address whose line is valid in L1 the
hierarchy makes one L1 access and nothing else: the outcome is an L1 hit, the
new L1 is the result of that one access (so `hits` grows by one, `misses`
stays), and L2 is the same as before in every field.  Whenever an access
changes L2 at all, the L1 access before it has returned miss.  Stated for
`CacheHierarchy` and for `CacheSystem`. -/
theorem l1_fast_path (h : CacheHierarchy) (s : CacheSystem) (addr : Nat)
    (hp : h.L1.present addr) (sp : s.L1.present addr) :
    ((h.access addr).2 = CacheOutcome.L1Hit ∧
      (h.access addr).1.L1 = (h.L1.access addr).1 ∧
      (h.access addr).1.L2 = h.L2 ∧
      (h.access addr).1.L1.hits = h.L1.hits + 1 ∧
      (h.access addr).1.L1.misses = h.L1.misses ∧
      (h.access addr).1.L1.clock = h.L1.clock + 1 ∧
      (h.access addr).1.totalTime = h.totalTime + h.L1.latency) ∧
    ((s.access addr).2 = CacheOutcome.L1Hit ∧
      (s.access addr).1.L1 = (s.L1.access addr).1 ∧
      (s.access addr).1.L2 = s.L2 ∧
      (s.access addr).1.L1.hits = s.L1.hits + 1 ∧
      (s.access addr).1.L1.misses = s.L1.misses ∧
      (s.access addr).1.L1.clock = s.L1.clock + 1) ∧
    (∀ (g : CacheHierarchy) (a : Nat), (g.access a).1.L2 ≠ g.L2 → (g.L1.access a).2 = false) ∧
    (∀ (g : CacheSystem) (a : Nat), (g.access a).1.L2 ≠ g.L2 → (g.L1.access a).2 = false) := by
  have h1 := (access_hit_iff h.L1.toCacheLevel addr).2 hp
  have s1 := (access_hit_iff s.L1 addr).2 sp
  refine ⟨?_, ?_, ?_, ?_⟩
  · rw [hierarchy_access_l1_hit h addr hp]
    exact ⟨rfl, rfl, rfl, (access_counters_hit h.L1.toCacheLevel addr h1).1,
      (access_counters_hit h.L1.toCacheLevel addr h1).2, access_clock h.L1.toCacheLevel addr, rfl⟩
  · rw [system_access_l1_hit s addr sp]
    exact ⟨rfl, rfl, rfl, (access_counters_hit s.L1 addr s1).1,
      (access_counters_hit s.L1 addr s1).2, access_clock s.L1 addr⟩
  · intro g a hne
    by_contra hcon
    have hpres : g.L1.present a := by
      rw [← access_hit_iff]
      rw [Cache.access_snd] at hcon
      simpa using hcon
    rw [hierarchy_access_l1_hit g a hpres] at hne
    exact hne rfl
  · intro g a hne
    by_contra hcon
    have hpres : g.L1.present a := by
      rw [← access_hit_iff]
      simpa using hcon
    rw [system_access_l1_hit g a hpres] at hne
    exact hne rfl

/-- Claim C17 at the hierarchies that have just loaded address 64. -/
theorem l1_fast_path_witness :
    (CacheHierarchy.mk0.access 64).1.L1.present 64 ∧
      (CacheSystem.mk0.access 64).1.L1.present 64 ∧
      ((CacheHierarchy.mk0.access 64).1.access 64).2 = CacheOutcome.L1Hit ∧
      ((CacheHierarchy.mk0.access 64).1.access 64).1.L2 = (CacheHierarchy.mk0.access 64).1.L2 ∧
      ((CacheSystem.mk0.access 64).1.access 64).1.L2 = (CacheSystem.mk0.access 64).1.L2 :=
  ⟨by decide, by decide,
    (l1_fast_path (CacheHierarchy.mk0.access 64).1 (CacheSystem.mk0.access 64).1 64
      (by decide) (by decide)).1.1,
    (l1_fast_path (CacheHierarchy.mk0.access 64).1 (CacheSystem.mk0.access 64).1 64
      (by decide) (by decide)).1.2.2.1,
    (l1_fast_path (CacheHierarchy.mk0.access 64).1 (CacheSystem.mk0.access 64).1 64
      (by decide) (by decide)).2.1.2.2.1⟩

/-! ## Hits and the two policies -/

theorem set_getD_self {α : Type} (l : List α) (i : Nat) (d : α) (h : i < l.length) :
    l.set i (l.getD i d) = l := by
  apply List.ext_getElem?
  intro n
  rw [List.getElem?_set]
  by_cases hn : i = n
  · subst hn
    simp only [if_true, h]
    exact (getElem?_of_lt l i d h).symm
  · simp only [if_neg hn]

/-- The set addressed by a present line is a set of the level. -/
theorem setAt_eq_of_present (c : CacheLevel) (addr : Nat) (hp : c.present addr) :
    c.sets[c.index addr]? = some (c.setAt addr) := by
  obtain ⟨l, hl, -, -⟩ := hp
  unfold CacheLevel.setAt at hl ⊢
  rw [List.getD_eq_getElem?_getD] at hl ⊢
  cases hget : c.sets[c.index addr]? with
  | none => rw [hget] at hl; simp at hl
  | some s => rfl

/-- What a hit does to the lines, under each policy. -/
theorem hit_effect (c : CacheLevel) (addr : Nat) (hp : c.present addr) :
    (c.policy = CachePolicy.FIFO →
      (c.access addr).1 = { c with clock := c.clock + 1, hits := c.hits + 1 } ∧
      (c.access addr).1.sets = c.sets) ∧
    (c.policy = CachePolicy.LRU →
      ∃ (i : Nat) (l : CacheLine), c.line? (c.index addr) i = some l ∧
        l.valid = true ∧ l.tag = c.tagOf addr ∧
        (∀ (j : Nat) (l' : CacheLine), j < i → c.line? (c.index addr) j = some l' →
          ¬ (l'.valid = true ∧ l'.tag = c.tagOf addr)) ∧
        (c.access addr).1.line? (c.index addr) i = some { l with stamp := c.clock + 1 } ∧
        (∀ a b : Nat, (a ≠ c.index addr ∨ b ≠ i) →
          (c.access addr).1.line? a b = c.line? a b) ∧
        (c.access addr).1.hits = c.hits + 1 ∧
        (c.access addr).1.misses = c.misses ∧
        (c.access addr).1.clock = c.clock + 1) ∧
    (c.access addr).2 = true := by
  obtain ⟨i, hi⟩ := (present_iff_scan c addr).1 hp
  obtain ⟨⟨x, hx, hpx⟩, hfirst⟩ := firstIdx_eq_some _ _ _ hi
  have hpx' := (hitTest_iff _ _).1 hpx
  have hil := lt_of_getElem? _ _ _ hx
  have hg : (c.setAt addr).getD i default = x := getD_of_getElem? _ _ _ _ hx
  have hset := setAt_eq_of_present c addr hp
  have hidx := lt_of_getElem? _ _ _ hset
  have hacc := access_of_hit c addr i hi
  refine ⟨?_, ?_, by rw [hacc]⟩
  · intro hpol
    have hsets : c.sets.set (c.index addr) ((c.setAt addr).set i ((c.setAt addr).getD i default))
        = c.sets := by
      rw [set_getD_self _ _ _ hil]
      have : c.setAt addr = c.sets.getD (c.index addr) [] := rfl
      rw [this, set_getD_self _ _ _ hidx]
    have hne : ¬ c.policy = CachePolicy.LRU := by rw [hpol]; decide
    rw [hacc, if_neg hne, hsets]
    exact ⟨rfl, rfl⟩
  · intro hpol
    rw [hacc, if_pos hpol, hg]
    obtain ⟨hl1, hl2⟩ := line?_after_set c
      { c with clock := c.clock + 1, hits := c.hits + 1,
               sets := c.sets.set (c.index addr)
                 ((c.setAt addr).set i { x with stamp := c.clock + 1 }) }
      (c.index addr) i (c.setAt addr) { x with stamp := c.clock + 1 } hset hil rfl
    refine ⟨i, x, ?_, hpx'.1, hpx'.2, ?_, hl1, hl2, rfl, rfl, rfl⟩
    · unfold CacheLevel.line?
      rw [hset]
      exact hx
    · intro j l' hj hl'
      unfold CacheLevel.line? at hl'
      rw [hset] at hl'
      have := hfirst j l' hj hl'
      intro hcon
      rw [(hitTest_iff _ _).2 hcon] at this
      cases this


/-- What a miss does to the lines of a well-formed level: way `missWay` of the
addressed set becomes a valid line with the requested tag and the incremented
clock as stamp. -/
theorem access_miss_effect (c : CacheLevel) (addr : Nat) (hw : c.WF)
    (hnp : ¬ c.present addr) :
    ∃ new : CacheLine, new.valid = true ∧ new.tag = c.tagOf addr ∧ new.stamp = c.clock + 1 ∧
      missWay (c.setAt addr) < (c.setAt addr).length ∧
      (c.access addr).1.sets
        = c.sets.set (c.index addr) ((c.setAt addr).set (missWay (c.setAt addr)) new) ∧
      (c.access addr).2 = false := by
  have h := (not_present_iff_scan c addr).1 hnp
  cases h' : firstIdx (fun l => !l.valid) (c.setAt addr) with
  | some i =>
    obtain ⟨⟨x, hx, -⟩, -⟩ := firstIdx_eq_some _ _ _ h'
    have hm : missWay (c.setAt addr) = i := by simp only [missWay, h']
    rw [access_of_install c addr i h h', hm]
    exact ⟨_, rfl, rfl, rfl, lt_of_getElem? _ _ _ hx, rfl, rfl⟩
  | none =>
    obtain ⟨lv, hlv, -⟩ := victimWay_spec _ (hw.setAt_ne_nil addr)
    have hm : missWay (c.setAt addr) = victimWay (c.setAt addr) := by simp only [missWay, h']
    have hg : (c.setAt addr).getD (victimWay (c.setAt addr)) default = lv :=
      getD_of_getElem? _ _ _ _ hlv
    have hall := (firstIdx_eq_none _ _).1 h' lv (List.mem_iff_getElem?.2 ⟨_, hlv⟩)
    rw [access_of_replace c addr h h', hm, hg]
    exact ⟨_, by simpa using hall, rfl, rfl, lt_of_getElem? _ _ _ hlv, rfl, rfl⟩

/-- In a FIFO level whose valid lines all agree with the record, they still do
after any trace of accesses. -/
theorem fifo_installs (tr : List Nat) :
    ∀ (c : CacheLevel) (g : Nat → Nat → Option (Nat × Nat)), c.WF →
      c.policy = CachePolicy.FIFO →
      (∀ (i j : Nat) (l : CacheLine), c.line? i j = some l → l.valid = true →
        g i j = some (l.tag, l.stamp)) →
      ∀ (i j : Nat) (l : CacheLine), (c.run tr).line? i j = some l → l.valid = true →
        c.installs g tr i j = some (l.tag, l.stamp) := by
  induction tr with
  | nil => intro c g _ _ hg; exact hg
  | cons a rest ih =>
    intro c g hw hpol hg
    simp only [CacheLevel.run, CacheLevel.installs]
    apply ih _ _ (hw.access_wf a) (by rw [(access_geometry c a).2.2.2.1]; exact hpol)
    intro i j l hl hlv
    by_cases hp : c.present a
    · have hacc := (access_hit_iff c a).2 hp
      have hsets := ((hit_effect c a hp).1 hpol).2
      rw [if_pos hacc]
      apply hg i j l _ hlv
      unfold CacheLevel.line? at hl ⊢
      rw [hsets] at hl
      exact hl
    · obtain ⟨new, hnv, hnt, hns, hway, hsets, hres⟩ := access_miss_effect c a hw hp
      have hne : ¬ (c.access a).2 = true := by rw [hres]; simp
      rw [if_neg hne]
      obtain ⟨hl1, hl2⟩ := line?_after_set c (c.access a).1 (c.index a) (missWay (c.setAt a))
        (c.setAt a) new (hw.setAt_eq a) hway hsets
      by_cases hij : i = c.index a ∧ j = missWay (c.setAt a)
      · rw [if_pos hij]
        obtain ⟨rfl, rfl⟩ := hij
        rw [hl1] at hl
        cases hl
        rw [hnt, hns]
      · rw [if_neg hij]
        apply hg i j l _ hlv
        rw [← hl2 i j (by
          by_contra hcon
          simp only [not_or, not_not] at hcon
          exact hij hcon)]
        exact hl

/-- Claim C15 (stamp refresh on a hit).  For an address that hits: under FIFO
the access leaves every line of every set as it was and changes only `hits`
and `clock`; under LRU it rewrites one line, the first valid line of the
addressed set that carries the tag, and only its stamp, which becomes the
incremented clock.  Consequently, in a FIFO level run from construction, every
valid line carries the tag and the clock value of the last miss that wrote its
way. -/
theorem hit_stamp_refresh (c : CacheLevel) (addr : Nat) (hp : c.present addr) :
    (c.policy = CachePolicy.FIFO →
      (c.access addr).1 = { c with clock := c.clock + 1, hits := c.hits + 1 } ∧
      (c.access addr).1.sets = c.sets) ∧
    (c.policy = CachePolicy.LRU →
      ∃ (i : Nat) (l : CacheLine), c.line? (c.index addr) i = some l ∧
        l.valid = true ∧ l.tag = c.tagOf addr ∧
        (∀ (j : Nat) (l' : CacheLine), j < i → c.line? (c.index addr) j = some l' →
          ¬ (l'.valid = true ∧ l'.tag = c.tagOf addr)) ∧
        (c.access addr).1.line? (c.index addr) i = some { l with stamp := c.clock + 1 } ∧
        (∀ a b : Nat, (a ≠ c.index addr ∨ b ≠ i) →
          (c.access addr).1.line? a b = c.line? a b) ∧
        (c.access addr).1.hits = c.hits + 1 ∧
        (c.access addr).1.misses = c.misses ∧
        (c.access addr).1.clock = c.clock + 1) ∧
    (c.access addr).2 = true ∧
    (∀ (cs b w : Nat) (tr : List Nat) (i j : Nat) (l : CacheLine),
      0 < (cs / b) / w → 0 < w →
      ((CacheLevel.mk0 cs b w CachePolicy.FIFO).run tr).line? i j = some l → l.valid = true →
      (CacheLevel.mk0 cs b w CachePolicy.FIFO).installs (fun _ _ => none) tr i j
        = some (l.tag, l.stamp)) := by
  obtain ⟨h1, h2, h3⟩ := hit_effect c addr hp
  refine ⟨h1, h2, h3, ?_⟩
  intro cs b w tr i j l hs hw hl hlv
  refine fifo_installs tr _ _ (WF_mk0 cs b w CachePolicy.FIFO hs hw) rfl ?_ i j l hl hlv
  intro i' j' l' hl' hlv'
  exfalso
  unfold CacheLevel.line? at hl'
  simp only [CacheLevel.mk0, List.getElem?_replicate] at hl'
  split at hl'
  · simp only [Option.some_bind, List.getElem?_replicate] at hl'
    split at hl'
    · cases hl'; cases hlv'
    · cases hl'
  · cases hl'

/-! ## The number of valid lines of a set -/

theorem countP_set_same {α : Type} (p : α → Bool) (l : List α) (i : Nat) (old new : α)
    (h : l[i]? = some old) (hp : p new = p old) :
    (l.set i new).countP p = l.countP p := by
  induction l generalizing i with
  | nil => simp at h
  | cons x xs ih =>
    cases i with
    | zero =>
      simp only [List.getElem?_cons_zero, Option.some.injEq] at h
      subst h
      simp only [List.set_cons_zero, List.countP_cons, hp]
    | succ i =>
      simp only [List.getElem?_cons_succ] at h
      simp only [List.set_cons_succ, List.countP_cons, ih i h]

theorem countP_set_gain {α : Type} (p : α → Bool) (l : List α) (i : Nat) (old new : α)
    (h : l[i]? = some old) (ho : p old = false) (hn : p new = true) :
    (l.set i new).countP p = l.countP p + 1 := by
  induction l generalizing i with
  | nil => simp at h
  | cons x xs ih =>
    cases i with
    | zero =>
      simp only [List.getElem?_cons_zero, Option.some.injEq] at h
      subst h
      simp only [List.set_cons_zero, List.countP_cons, ho, hn]
      simp
    | succ i =>
      simp only [List.getElem?_cons_succ] at h
      simp only [List.set_cons_succ, List.countP_cons, ih i h]
      omega

/-- The shape of what any access does: one way `i` of the addressed set is
written with a valid line `new`; the way held a valid line before, except when
the access is a miss that installs into the first invalid way. -/
theorem access_effect (c : CacheLevel) (addr : Nat) :
    ∃ (i : Nat) (new : CacheLine),
      (c.access addr).1.sets = c.sets.set (c.index addr) ((c.setAt addr).set i new) ∧
      ((c.setAt addr)[i]? = none ∨
        ∃ old, (c.setAt addr)[i]? = some old ∧ new.valid = true ∧
          (old.valid = true ∨
            (¬ c.present addr ∧ firstIdx (fun l => !l.valid) (c.setAt addr) = some i ∧
              new = { valid := true, tag := c.tagOf addr, stamp := c.clock + 1 }))) := by
  cases h : firstIdx (fun l => l.valid && l.tag == c.tagOf addr) (c.setAt addr) with
  | some i =>
    obtain ⟨⟨x, hx, hpx⟩, -⟩ := firstIdx_eq_some _ _ _ h
    have hpx' := (hitTest_iff _ _).1 hpx
    have hg : (c.setAt addr).getD i default = x := getD_of_getElem? _ _ _ _ hx
    rw [access_of_hit c addr i h, hg]
    refine ⟨i, _, rfl, Or.inr ⟨x, hx, ?_, Or.inl hpx'.1⟩⟩
    split <;> exact hpx'.1
  | none =>
    have hnp := (not_present_iff_scan c addr).2 h
    cases h' : firstIdx (fun l => !l.valid) (c.setAt addr) with
    | some i =>
      obtain ⟨⟨x, hx, -⟩, -⟩ := firstIdx_eq_some _ _ _ h'
      rw [access_of_install c addr i h h']
      exact ⟨i, _, rfl, Or.inr ⟨x, hx, rfl, Or.inr ⟨hnp, rfl, rfl⟩⟩⟩
    | none =>
      rw [access_of_replace c addr h h']
      refine ⟨_, _, rfl, ?_⟩
      cases hget : (c.setAt addr)[victimWay (c.setAt addr)]? with
      | none => exact Or.inl rfl
      | some lv =>
        have hg : (c.setAt addr).getD (victimWay (c.setAt addr)) default = lv :=
          getD_of_getElem? _ _ _ _ hget
        have hall := (firstIdx_eq_none _ _).1 h' lv (List.mem_iff_getElem?.2 ⟨_, hget⟩)
        have hlv : lv.valid = true := by simpa using hall
        rw [hg]
        exact Or.inr ⟨lv, rfl, hlv, Or.inl hlv⟩

/-- The sets other than the addressed one are the same after an access. -/
theorem access_other_sets (c : CacheLevel) (addr i : Nat) (hi : i ≠ c.index addr) :
    (c.access addr).1.sets[i]? = c.sets[i]? := by
  obtain ⟨w, new, hs, -⟩ := access_effect c addr
  rw [hs, List.getElem?_set_ne (fun e => hi e.symm)]

/-- Every set keeps its length. -/
theorem access_sets_length (c : CacheLevel) (addr : Nat) :
    (c.access addr).1.sets.length = c.sets.length := by
  obtain ⟨w, new, hs, -⟩ := access_effect c addr
  rw [hs, List.length_set]

/-- The addressed set after an access: the old set with one way rewritten. -/
theorem access_setAt (c : CacheLevel) (addr : Nat) :
    ∃ (i : Nat) (new : CacheLine),
      (c.access addr).1.setAt addr = (c.setAt addr).set i new ∧
      ((c.setAt addr)[i]? = none ∨
        ∃ old, (c.setAt addr)[i]? = some old ∧ new.valid = true ∧
          (old.valid = true ∨
            (¬ c.present addr ∧ firstIdx (fun l => !l.valid) (c.setAt addr) = some i ∧
              new = { valid := true, tag := c.tagOf addr, stamp := c.clock + 1 }))) := by
  obtain ⟨i, new, hs, hcase⟩ := access_effect c addr
  refine ⟨i, new, ?_, hcase⟩
  unfold CacheLevel.setAt
  rw [access_index, hs]
  by_cases hidx : c.index addr < c.sets.length
  · rw [getD_of_getElem? _ _ _ _ (List.getElem?_set_self hidx)]
    rfl
  · rw [List.set_eq_of_length_le (by omega)]
    have h0 : c.sets.getD (c.index addr) [] = [] := List.getD_eq_default _ _ (by omega)
    rw [h0]
    rfl

/-- One access and the valid lines of a set `i`: the count never drops, and it
changes only in the addressed set. -/
theorem validCount_access (c : CacheLevel) (addr i : Nat) :
    validCount (c.sets.getD i []) ≤ validCount ((c.access addr).1.sets.getD i []) := by
  by_cases hi : i = c.index addr
  · subst hi
    obtain ⟨w, new, hs, hcase⟩ := access_setAt c addr
    have e1 : (c.access addr).1.sets.getD (c.index addr) [] = (c.access addr).1.setAt addr := by
      unfold CacheLevel.setAt; rw [access_index]
    rw [e1, hs]
    show validCount (c.setAt addr) ≤ _
    unfold validCount
    rcases hcase with hnone | ⟨old, hold, hnv, hov | ⟨-, hfi, -⟩⟩
    · have : (c.setAt addr).length ≤ w := by
        by_contra hcon
        rw [List.getElem?_eq_getElem (by omega)] at hnone
        cases hnone
      rw [List.set_eq_of_length_le this]
    · rw [countP_set_same (fun l : CacheLine => l.valid) _ _ old new hold (by simp only [hnv, hov])]
    · obtain ⟨⟨x, hx, hpx⟩, -⟩ := firstIdx_eq_some _ _ _ hfi
      rw [hold] at hx
      cases hx
      rw [countP_set_gain (fun l : CacheLine => l.valid) _ _ old new hold (by simpa using hpx) hnv]
      omega
  · rw [List.getD_eq_getElem?_getD, List.getD_eq_getElem?_getD, access_other_sets c addr i hi]

theorem setAt_of_sets (c c' : CacheLevel) (addr i : Nat) (new : CacheLine)
    (hidx : c'.index addr = c.index addr)
    (hs : c'.sets = c.sets.set (c.index addr) ((c.setAt addr).set i new)) :
    c'.setAt addr = (c.setAt addr).set i new := by
  unfold CacheLevel.setAt
  rw [hidx, hs]
  by_cases hlt : c.index addr < c.sets.length
  · rw [getD_of_getElem? _ _ _ _ (List.getElem?_set_self hlt)]
    rfl
  · rw [List.set_eq_of_length_le (by omega)]
    have h0 : c.sets.getD (c.index addr) [] = [] := List.getD_eq_default _ _ (by omega)
    rw [h0]
    rfl

theorem setAt_eq_of_mem (c : CacheLevel) (addr : Nat) (l : CacheLine) (hl : l ∈ c.setAt addr) :
    c.sets[c.index addr]? = some (c.setAt addr) := by
  unfold CacheLevel.setAt at hl ⊢
  rw [List.getD_eq_getElem?_getD] at hl ⊢
  cases hget : c.sets[c.index addr]? with
  | none => rw [hget] at hl; simp at hl
  | some s => rfl

theorem validCount_run (tr : List Nat) :
    ∀ (c : CacheLevel) (i : Nat),
      validCount (c.sets.getD i []) ≤ validCount ((c.run tr).sets.getD i []) := by
  induction tr with
  | nil => intro c i; exact le_refl _
  | cons a rest ih =>
    intro c i
    exact le_trans (validCount_access c a i) (ih (c.access a).1 i)

theorem run_wf (tr : List Nat) :
    ∀ c : CacheLevel, c.WF → (c.run tr).WF ∧ (c.run tr).ways = c.ways := by
  induction tr with
  | nil => intro c hw; exact ⟨hw, rfl⟩
  | cons a rest ih =>
    intro c hw
    obtain ⟨h1, h2⟩ := ih (c.access a).1 (hw.access_wf a)
    exact ⟨h1, by rw [← (access_geometry c a).2.2.1]; exact h2⟩

theorem validCount_le_ways (c : CacheLevel) (hw : c.WF) (i : Nat) :
    validCount (c.sets.getD i []) ≤ c.ways := by
  by_cases hi : i < c.sets.length
  · have hget := getElem?_of_lt c.sets i [] hi
    rw [← hw.set_len _ (List.mem_iff_getElem?.2 ⟨i, hget⟩)]
    exact List.countP_le_length _
  · rw [List.getD_eq_default _ _ (by omega)]
    exact Nat.zero_le _

/-- Claim C16 (cache set invariant).  For every level and access: a valid line
stays valid; a miss on a set that has an invalid way installs the tag in the
lowest invalid way with the incremented clock as stamp and raises the set's
number of valid lines by one; a hit, or a miss on a full set, leaves that
number unchanged; the other sets are untouched.  Hence along any trace the
number of valid lines of a set never drops, never exceeds `ways` in a
well-formed level, and stays at `ways` once it is there. -/
theorem cache_set_invariant (c : CacheLevel) (addr : Nat) :
    (∀ (i j : Nat) (l : CacheLine), c.line? i j = some l → l.valid = true →
      ∃ l', (c.access addr).1.line? i j = some l' ∧ l'.valid = true) ∧
    (¬ c.present addr → (∃ l ∈ c.setAt addr, l.valid = false) →
      ∃ w : Nat, (∃ old, (c.setAt addr)[w]? = some old ∧ old.valid = false) ∧
        (∀ (j : Nat) (l : CacheLine), j < w → (c.setAt addr)[j]? = some l → l.valid = true) ∧
        (c.access addr).1.line? (c.index addr) w
          = some { valid := true, tag := c.tagOf addr, stamp := c.clock + 1 } ∧
        validCount ((c.access addr).1.setAt addr) = validCount (c.setAt addr) + 1) ∧
    ((c.present addr ∨ ∀ l ∈ c.setAt addr, l.valid = true) →
      validCount ((c.access addr).1.setAt addr) = validCount (c.setAt addr)) ∧
    (∀ i : Nat, i ≠ c.index addr → (c.access addr).1.sets[i]? = c.sets[i]?) ∧
    (∀ (tr : List Nat) (i : Nat),
      validCount (c.sets.getD i []) ≤ validCount ((c.run tr).sets.getD i [])) ∧
    (c.WF → ∀ (tr : List Nat) (i : Nat), validCount ((c.run tr).sets.getD i []) ≤ c.ways) ∧
    (c.WF → ∀ (tr tr' : List Nat) (i : Nat),
      validCount ((c.run tr).sets.getD i []) = c.ways →
      validCount (((c.run tr).run tr').sets.getD i []) = c.ways) := by
  refine ⟨?_, ?_, ?_, access_other_sets c addr, fun tr i => validCount_run tr c i, ?_, ?_⟩
  · intro i j l hl hlv
    obtain ⟨w, new, hs, hcase⟩ := access_effect c addr
    unfold CacheLevel.line? at hl ⊢
    rw [hs]
    by_cases hi : i = c.index addr
    · subst hi
      cases hget : c.sets[c.index addr]? with
      | none => rw [hget] at hl; cases hl
      | some s =>
        rw [hget] at hl
        simp only [Option.some_bind] at hl
        have hsa : c.setAt addr = s := getD_of_getElem? _ _ _ _ hget
        rw [List.getElem?_set_self (lt_of_getElem? _ _ _ hget), hsa]
        simp only [Option.some_bind]
        rw [hsa] at hcase
        by_cases hwj : w = j
        · subst hwj
          rcases hcase with hnone | ⟨old, -, hnv, -⟩
          · rw [hnone] at hl; cases hl
          · exact ⟨new, List.getElem?_set_self (lt_of_getElem? _ _ _ hl), hnv⟩
        · exact ⟨l, by rw [List.getElem?_set_ne hwj]; exact hl, hlv⟩
    · rw [List.getElem?_set_ne (fun e => hi e.symm)]
      exact ⟨l, hl, hlv⟩
  · intro hnp ⟨l, hl, hlinv⟩
    have h := (not_present_iff_scan c addr).1 hnp
    obtain ⟨w, hw⟩ := firstIdx_isSome (fun l : CacheLine => !l.valid) _ l hl (by simp [hlinv])
    obtain ⟨⟨x, hx, hpx⟩, hfirst⟩ := firstIdx_eq_some _ _ _ hw
    have hxinv : x.valid = false := by simpa using hpx
    have hacc := access_of_install c addr w h hw
    have hsets : (c.access addr).1.sets = c.sets.set (c.index addr) ((c.setAt addr).set w
        { valid := true, tag := c.tagOf addr, stamp := c.clock + 1 }) := by rw [hacc]
    obtain ⟨hl1, -⟩ := line?_after_set c (c.access addr).1 (c.index addr) w (c.setAt addr) _
      (setAt_eq_of_mem c addr l hl) (lt_of_getElem? _ _ _ hx) hsets
    refine ⟨w, ⟨x, hx, hxinv⟩, ?_, hl1, ?_⟩
    · intro j y hj hy
      have := hfirst j y hj hy
      simpa using this
    · rw [setAt_of_sets c _ addr w _ (access_index c addr addr) hsets]
      exact countP_set_gain (fun l : CacheLine => l.valid) _ _ x _ hx hxinv rfl
  · intro hor
    obtain ⟨w, new, hs, hcase⟩ := access_setAt c addr
    rw [hs]
    unfold validCount
    rcases hcase with hnone | ⟨old, hold, hnv, hov | ⟨hnp, hfi, -⟩⟩
    · have : (c.setAt addr).length ≤ w := by
        by_contra hcon
        rw [List.getElem?_eq_getElem (by omega)] at hnone
        cases hnone
      rw [List.set_eq_of_length_le this]
    · exact countP_set_same (fun l : CacheLine => l.valid) _ _ old new hold
        (by simp only [hnv, hov])
    · exfalso
      rcases hor with hp | hall
      · exact hnp hp
      · obtain ⟨⟨x, hx, hpx⟩, -⟩ := firstIdx_eq_some _ _ _ hfi
        have := hall x (List.mem_iff_getElem?.2 ⟨_, hx⟩)
        rw [this] at hpx
        cases hpx
  · intro hw tr i
    obtain ⟨h1, h2⟩ := run_wf tr c hw
    rw [← h2]
    exact validCount_le_ways _ h1 i
  · intro hw tr tr' i hfull
    obtain ⟨h1, h2⟩ := run_wf tr c hw
    obtain ⟨h3, h4⟩ := run_wf tr' _ h1
    have lo := validCount_run tr' (c.run tr) i
    have hi := validCount_le_ways _ h3 i
    rw [h4, h2] at hi
    omega

/-! ## Accessing the same address twice -/

theorem firstIdx_set {α : Type} (p : α → Bool) (l : List α) (i : Nat) (y : α)
    (hbefore : ∀ (j : Nat) (x : α), j < i → l[j]? = some x → p x = false)
    (hi : i < l.length) (hy : p y = true) : firstIdx p (l.set i y) = some i := by
  induction l generalizing i with
  | nil => simp at hi
  | cons x xs ih =>
    cases i with
    | zero => simp only [List.set_cons_zero, firstIdx, hy, if_true]
    | succ i =>
      have hx : p x = false := hbefore 0 x (by omega) (by simp)
      have := ih i (fun j z hj hz => hbefore (j + 1) z (by omega) (by simpa using hz))
        (by simpa using hi)
      simp only [List.set_cons_succ, firstIdx, hx, this, Bool.false_eq_true, if_false,
        Option.map_some']

/-- After an access to a well-formed level, the first line of the addressed set
that matches the address is the line just written; if the access was a miss or
the policy is LRU, its stamp is the new clock. -/
theorem hit_line_after_access (c : CacheLevel) (addr : Nat) (hw : c.WF) :
    ∃ (i : Nat) (l : CacheLine),
      firstIdx (fun l => l.valid && l.tag == c.tagOf addr) ((c.access addr).1.setAt addr)
        = some i ∧
      ((c.access addr).1.setAt addr)[i]? = some l ∧
      (c.policy = CachePolicy.LRU → l.stamp = c.clock + 1) := by
  cases h : firstIdx (fun l => l.valid && l.tag == c.tagOf addr) (c.setAt addr) with
  | some i =>
    obtain ⟨⟨x, hx, hpx⟩, hfirst⟩ := firstIdx_eq_some _ _ _ h
    have hil := lt_of_getElem? _ _ _ hx
    have hg : (c.setAt addr).getD i default = x := getD_of_getElem? _ _ _ _ hx
    have hacc := access_of_hit c addr i h
    rw [hg] at hacc
    have hsets : (c.access addr).1.sets = c.sets.set (c.index addr) ((c.setAt addr).set i
        (if c.policy = CachePolicy.LRU then { x with stamp := c.clock + 1 } else x)) := by
      rw [hacc]
    rw [setAt_of_sets c _ addr i _ (access_index c addr addr) hsets]
    refine ⟨i, _, firstIdx_set _ _ i _ hfirst hil ?_, List.getElem?_set_self hil, ?_⟩
    · split <;> exact hpx
    · intro hpol
      rw [if_pos hpol]
  | none =>
    have hnp := (not_present_iff_scan c addr).2 h
    obtain ⟨new, hnv, hnt, hns, hway, hsets, -⟩ := access_miss_effect c addr hw hnp
    rw [setAt_of_sets c _ addr _ _ (access_index c addr addr) hsets]
    refine ⟨_, new, firstIdx_set _ _ _ _ ?_ hway ?_, List.getElem?_set_self hway, fun _ => hns⟩
    · intro j x _ hx
      exact (firstIdx_eq_none _ _).1 h x (List.mem_iff_getElem?.2 ⟨j, hx⟩)
    · simp [hnv, hnt]

/-- An access keeps the shape of the cache system, and its final L1 is the
result of an L1 access to the same address on a well-formed LRU level. -/
theorem system_access_good (s : CacheSystem) (pa : Nat) (hg : s.Good) :
    (s.access pa).1.Good ∧
      ∃ X : CacheLevel, X.WF ∧ X.policy = CachePolicy.LRU ∧
        (s.access pa).1.L1 = (X.access pa).1 := by
  have p1 : (s.L1.access pa).1.policy = CachePolicy.LRU := by
    rw [(access_geometry s.L1 pa).2.2.2.1]; exact hg.l1_lru
  have p2 : ((s.L1.access pa).1.access pa).1.policy = CachePolicy.LRU := by
    rw [(access_geometry _ pa).2.2.2.1]; exact p1
  by_cases h1 : s.L1.present pa
  · rw [system_access_l1_hit s pa h1]
    exact ⟨⟨hg.l1_wf.access_wf pa, hg.l2_wf, p1⟩, s.L1, hg.l1_wf, hg.l1_lru, rfl⟩
  · by_cases h2 : s.L2.present pa
    · rw [system_access_l2_hit s pa h1 h2]
      exact ⟨⟨(hg.l1_wf.access_wf pa).access_wf pa, hg.l2_wf.access_wf pa, p2⟩,
        (s.L1.access pa).1, hg.l1_wf.access_wf pa, p1, rfl⟩
    · rw [system_access_miss s pa h1 h2]
      exact ⟨⟨(hg.l1_wf.access_wf pa).access_wf pa, (hg.l2_wf.access_wf pa).access_wf pa, p2⟩,
        (s.L1.access pa).1, hg.l1_wf.access_wf pa, p1, rfl⟩

/-- The physical address an access hands to the cache, read off the table
after the access. -/
theorem vm_access_cache (vm : VirtualMemory) (va : Nat)
    (hlen : va / vm.pageSize < vm.table.length) :
    (vm.access va).1.cache = (vm.cache.access
      (((vm.access va).1.table.getD (va / vm.pageSize) default).frame * vm.pageSize
        + va % vm.pageSize)).1 := by
  cases hv : (vm.table.getD (va / vm.pageSize) default).valid with
  | true =>
    rw [vm_access_hit vm va hv]
    simp only
    rw [getD_of_getElem? _ _ default _ (List.getElem?_set_self hlen)]
  | false =>
    cases hf : firstFree vm.frameMap vm.frames with
    | some f =>
      rw [vm_access_free vm va f hv hf]
      simp only
      rw [getD_of_getElem? _ _ default _ (List.getElem?_set_self hlen)]
    | none =>
      rw [vm_access_evict vm va hv hf]
      simp only
      rw [getD_of_getElem? _ _ default _
        (List.getElem?_set_self (by rw [List.length_set]; exact hlen))]

theorem Good_mk0 : CacheSystem.mk0.Good :=
  ⟨system_mk0_wf.1, system_mk0_wf.2, rfl⟩

/-- The cache of a reachable paging unit has the shape its constructor gave
it. -/
theorem Good_of_reachable (vm : VirtualMemory) (h : Reachable vm) : vm.cache.Good := by
  induction h with
  | init vSize pSize pSizePg => exact Good_mk0
  | step va hreach hr ih =>
    have hlen := (Part_of_reachable _ hreach).table_len ▸ hr
    rw [vm_access_cache _ va hlen]
    exact (system_access_good _ _ ih).1

/-- After an access to an in-range address its page carries the new clock as
stamp. -/
theorem page_time_after_access (vm : VirtualMemory) (va : Nat)
    (hlen : va / vm.pageSize < vm.table.length) :
    ((vm.access va).1.table.getD (va / vm.pageSize) default).valid = true ∧
      ((vm.access va).1.table.getD (va / vm.pageSize) default).time = vm.clock + 1 := by
  cases hv : (vm.table.getD (va / vm.pageSize) default).valid with
  | true =>
    rw [vm_access_hit vm va hv]
    simp only
    rw [getD_of_getElem? _ _ default _ (List.getElem?_set_self hlen)]
    exact ⟨hv, rfl⟩
  | false =>
    cases hf : firstFree vm.frameMap vm.frames with
    | some f =>
      rw [vm_access_free vm va f hv hf]
      simp only
      rw [getD_of_getElem? _ _ default _ (List.getElem?_set_self hlen)]
      exact ⟨rfl, rfl⟩
    | none =>
      rw [vm_access_evict vm va hv hf]
      simp only
      rw [getD_of_getElem? _ _ default _
        (List.getElem?_set_self (by rw [List.length_set]; exact hlen))]
      exact ⟨rfl, rfl⟩

/-- Claim C14 (repeated access).  In a reachable state with at least one frame,
accessing an in-range address twice in a row makes the second access a page
HIT that hands the cache the same physical address `pa` as the first; the
page's stamp is `clock + 1` after the first access and `clock + 2` after the
second; if the page was resident beforehand the first access is a HIT as well.
In the cache the second access is an L1 hit, and the stamp of the hit line
after the second access is strictly larger than after the first. -/
theorem repeated_access (vm : VirtualMemory) (va : Nat) (h : Reachable vm)
    (hfr : 0 < vm.frames) (hr : va / vm.pageSize < vm.pages) :
    ∃ pa : Nat,
      pa = ((vm.access va).1.table.getD (va / vm.pageSize) default).frame * vm.pageSize
            + va % vm.pageSize ∧
      (vm.access va).1.cache = (vm.cache.access pa).1 ∧
      ((vm.access va).1.access va).2
        = [Event.pageHit va pa, Event.cache CacheOutcome.L1Hit] ∧
      classify ((vm.access va).1.access va).2 = PageOutcome.HIT ∧
      ((vm.access va).1.access va).1.cache = ((vm.access va).1.cache.access pa).1 ∧
      ((vm.access va).1.table.getD (va / vm.pageSize) default).time = vm.clock + 1 ∧
      (((vm.access va).1.access va).1.table.getD (va / vm.pageSize) default).time
        = vm.clock + 2 ∧
      ((vm.table.getD (va / vm.pageSize) default).valid = true →
        classify (vm.access va).2 = PageOutcome.HIT ∧
        (vm.access va).2 = [Event.pageHit va pa, Event.cache (vm.cache.access pa).2]) ∧
      ∃ (i : Nat) (l1 l2 : CacheLine),
        (vm.access va).1.cache.L1.line? ((vm.access va).1.cache.L1.index pa) i = some l1 ∧
        l1.valid = true ∧ l1.tag = (vm.access va).1.cache.L1.tagOf pa ∧
        (∀ (j : Nat) (l' : CacheLine), j < i →
          (vm.access va).1.cache.L1.line? ((vm.access va).1.cache.L1.index pa) j = some l' →
          ¬ (l'.valid = true ∧ l'.tag = (vm.access va).1.cache.L1.tagOf pa)) ∧
        ((vm.access va).1.access va).1.cache.L1.line? ((vm.access va).1.cache.L1.index pa) i
          = some l2 ∧
        l2.valid = true ∧ l2.tag = l1.tag ∧ l1.stamp < l2.stamp := by
  have _ := hfr
  have hp := Part_of_reachable vm h
  have hlen : va / vm.pageSize < vm.table.length := by rw [hp.table_len]; exact hr
  obtain ⟨c1, -, -, c4⟩ := vm_access_config vm va
  obtain ⟨hv1, ht1⟩ := page_time_after_access vm va hlen
  have hcache := vm_access_cache vm va hlen
  have hgood := Good_of_reachable vm h
  obtain ⟨hgood1, X, hXw, hXp, hXe⟩ := system_access_good vm.cache
    (((vm.access va).1.table.getD (va / vm.pageSize) default).frame * vm.pageSize
      + va % vm.pageSize) hgood
  rw [← hcache] at hXe hgood1
  -- abbreviations
  generalize hpa : ((vm.access va).1.table.getD (va / vm.pageSize) default).frame * vm.pageSize
      + va % vm.pageSize = pa at *
  generalize hvm1 : (vm.access va).1 = vm1 at *
  have hlen1 : va / vm1.pageSize < vm1.table.length := by
    rw [c1]
    have := lt_of_getElem? vm1.table (va / vm.pageSize)
    by_contra hcon
    rw [List.getD_eq_default _ _ (by omega)] at hv1
    cases hv1
  have hv1' : (vm1.table.getD (va / vm1.pageSize) default).valid = true := by rw [c1]; exact hv1
  have hpres : vm1.cache.L1.present pa := by rw [hXe]; exact hXw.present_access pa
  have hsys := system_access_l1_hit vm1.cache pa hpres
  have hacc2 := vm_access_hit vm1 va hv1'
  rw [c1, hpa, hsys] at hacc2
  -- the hit line
  obtain ⟨i, l, hfi, hli, hstamp⟩ := hit_line_after_access X pa hXw
  rw [← hXe] at hfi hli
  have htag : X.tagOf pa = vm1.cache.L1.tagOf pa := by rw [hXe, access_tagOf]
  have hclk : vm1.cache.L1.clock = X.clock + 1 := by rw [hXe, access_clock]
  rw [htag] at hfi
  obtain ⟨⟨x, hx, hpx⟩, hfirst⟩ := firstIdx_eq_some _ _ _ hfi
  rw [hli] at hx
  cases hx
  have hpx' := (hitTest_iff _ _).1 hpx
  have hil := lt_of_getElem? _ _ _ hli
  have hset := hgood1.l1_wf.setAt_eq pa
  have hg : (vm1.cache.L1.setAt pa).getD i default = l := getD_of_getElem? _ _ _ _ hli
  have hL1acc := access_of_hit vm1.cache.L1 pa i hfi
  rw [if_pos hgood1.l1_lru, hg] at hL1acc
  obtain ⟨hl1, -⟩ := line?_after_set vm1.cache.L1 (vm1.cache.L1.access pa).1
    (vm1.cache.L1.index pa) i (vm1.cache.L1.setAt pa)
    { l with stamp := vm1.cache.L1.clock + 1 } hset hil (by rw [hL1acc])
  refine ⟨pa, rfl, hcache, ?_, ?_, ?_, ht1, ?_, ?_, i, l, { l with stamp := vm1.cache.L1.clock + 1 },
    ?_, hpx'.1, hpx'.2, ?_, ?_, hpx'.1, rfl, ?_⟩
  · rw [hacc2]
  · rw [hacc2]; rfl
  · rw [hacc2, hsys]
  · rw [hacc2]
    simp only
    rw [getD_of_getElem? _ _ default _ (List.getElem?_set_self (by rw [← c1]; exact hlen1)), c4]
  · intro hv
    have hacc1 := vm_access_hit vm va hv
    have hfr1 : (vm1.table.getD (va / vm.pageSize) default).frame
        = (vm.table.getD (va / vm.pageSize) default).frame := by
      rw [← hvm1, hacc1]
      simp only
      rw [getD_of_getElem? _ _ default _ (List.getElem?_set_self hlen)]
    rw [← hvm1] at hpa
    rw [hacc1] at hpa ⊢
    simp only at hpa
    rw [getD_of_getElem? _ _ default _ (List.getElem?_set_self hlen)] at hpa
    simp only at hpa
    rw [hpa]
    exact ⟨rfl, rfl⟩
  · unfold CacheLevel.line?
    rw [hset]
    exact hli
  · intro j l' hj hl'
    unfold CacheLevel.line? at hl'
    rw [hset] at hl'
    have := hfirst j l' hj hl'
    intro hcon
    rw [(hitTest_iff _ _).2 hcon] at this
    cases this
  · rw [hacc2]
    exact hl1
  · have := hstamp hXp
    simp only
    omega

/-! ## Counter accounting -/

theorem reachable_of_reachableIn (n : Nat) (vm : VirtualMemory) (h : ReachableIn n vm) :
    Reachable vm := by
  induction h with
  | init vSize pSize pSizePg => exact Reachable.init _ _ _
  | step va _ hr ih => exact Reachable.step va ih hr

/-- How one access moves the counters. -/
theorem vm_access_counters (vm : VirtualMemory) (va : Nat) :
    (vm.access va).1.hits + (vm.access va).1.faults = vm.hits + vm.faults + 1 := by
  cases hv : (vm.table.getD (va / vm.pageSize) default).valid with
  | true => rw [vm_access_hit vm va hv]; simp only; omega
  | false =>
    cases hf : firstFree vm.frameMap vm.frames with
    | some f => rw [vm_access_free vm va f hv hf]; simp only; omega
    | none => rw [vm_access_evict vm va hv hf]; simp only; omega

theorem getD_set_int (l : List Int) (i j : Nat) (x d : Int) :
    (l.set i x).getD j d = if i = j ∧ i < l.length then x else l.getD j d := by
  rw [List.getD_eq_getElem?_getD, List.getElem?_set, List.getD_eq_getElem?_getD]
  by_cases hij : i = j
  · subst hij
    by_cases hl : i < l.length
    · simp [hl]
    · rw [List.getElem?_eq_none (by omega)]
      simp [hl]
  · simp [hij]

/-- An occupied frame is still occupied after an access. -/
theorem occupied_stays (vm : VirtualMemory) (va f : Nat) (h : vm.frameMap.getD f 0 ≠ -1) :
    (vm.access va).1.frameMap.getD f 0 ≠ -1 := by
  have hcast : ∀ p : Nat, (p : Int) ≠ -1 := by intro p; omega
  cases hv : (vm.table.getD (va / vm.pageSize) default).valid with
  | true => rw [vm_access_hit vm va hv]; exact h
  | false =>
    cases hf : firstFree vm.frameMap vm.frames with
    | some g =>
      rw [vm_access_free vm va g hv hf]
      simp only
      rw [getD_set_int]
      split
      · exact hcast _
      · exact h
    | none =>
      rw [vm_access_evict vm va hv hf]
      simp only
      rw [List.set_set, getD_set_int]
      split
      · exact hcast _
      · exact h

/-- The access reaches `select_victim` exactly when its output reports a
page-out. -/
theorem evicts_iff (vm : VirtualMemory) (va : Nat) :
    evicts (vm.access va).2 = true ↔ vm.callsSelectVictim va := by
  unfold VirtualMemory.callsSelectVictim
  cases hv : (vm.table.getD (va / vm.pageSize) default).valid with
  | true => rw [vm_access_hit vm va hv]; simp [evicts]
  | false =>
    cases hf : firstFree vm.frameMap vm.frames with
    | some g => rw [vm_access_free vm va g hv hf]; simp [evicts]
    | none => rw [vm_access_evict vm va hv hf]; simp [evicts]

/-- The number of occupied frames after `faults` faults. -/
theorem occupied_card_access (vm : VirtualMemory) (va : Nat)
    (hlen : vm.frameMap.length = vm.frames)
    (h : vm.occupied.card = min vm.frames vm.faults) :
    (vm.access va).1.occupied.card = min (vm.access va).1.frames (vm.access va).1.faults := by
  have hcast : ∀ p : Nat, (p : Int) ≠ -1 := by intro p; omega
  cases hv : (vm.table.getD (va / vm.pageSize) default).valid with
  | true => rw [vm_access_hit vm va hv]; exact h
  | false =>
    cases hf : firstFree vm.frameMap vm.frames with
    | some g =>
      obtain ⟨hg1, hg2⟩ := firstFree_eq_some _ _ _ hf
      have hnot : g ∉ vm.occupied := by
        simp only [VirtualMemory.occupied, Finset.mem_filter, Finset.mem_range, not_and, not_not]
        exact fun _ => hg2
      have hins : (vm.access va).1.occupied = insert g vm.occupied := by
        rw [vm_access_free vm va g hv hf]
        ext f
        simp only [VirtualMemory.occupied, Finset.mem_filter, Finset.mem_range,
          Finset.mem_insert, getD_set_int]
        by_cases hfg : g = f
        · subst hfg
          rw [if_pos ⟨rfl, by rw [hlen]; exact hg1⟩]
          exact ⟨fun _ => Or.inl rfl, fun _ => ⟨hg1, hcast _⟩⟩
        · rw [if_neg (fun hh => hfg hh.1)]
          constructor
          · exact fun hh => Or.inr hh
          · rintro (rfl | hh)
            · exact absurd rfl hfg
            · exact hh
      have hsub : vm.occupied.card < vm.frames := by
        have : (insert g vm.occupied).card ≤ (Finset.range vm.frames).card := by
          apply Finset.card_le_card
          intro f hf'
          rcases Finset.mem_insert.1 hf' with rfl | hf'
          · exact Finset.mem_range.2 hg1
          · exact (Finset.mem_filter.1 hf').1
        rw [Finset.card_insert_of_not_mem hnot, Finset.card_range] at this
        omega
      rw [hins, Finset.card_insert_of_not_mem hnot]
      rw [vm_access_free vm va g hv hf]
      simp only
      omega
    | none =>
      have hfull := (firstFree_eq_none _ _).1 hf
      have hall : vm.occupied = Finset.range vm.frames := by
        ext f
        simp only [VirtualMemory.occupied, Finset.mem_filter, Finset.mem_range, and_iff_left_iff_imp]
        exact hfull f
      have hall' : (vm.access va).1.occupied = Finset.range vm.frames := by
        ext f
        have hfr := (vm_access_config vm va).2.2.1
        simp only [VirtualMemory.occupied, Finset.mem_filter, Finset.mem_range, hfr,
          and_iff_left_iff_imp]
        intro hlt
        exact occupied_stays vm va f (hfull f hlt)
      rw [hall'] 
      rw [hall, Finset.card_range] at h
      rw [Finset.card_range, vm_access_evict vm va hv hf]
      simp only
      omega

/-- Resident pages and occupied frames are equally many. -/
theorem resident_card_eq_occupied (vm : VirtualMemory) (hp : vm.Part) (hb : vm.Bij) :
    vm.resident.card = vm.occupied.card := by
  apply le_antisymm
  · apply Finset.card_le_card_of_injOn (fun p => (vm.table.getD p default).frame)
    · intro p hmem
      simp only [VirtualMemory.resident, Finset.mem_filter, Finset.mem_range] at hmem
      have hl : p < vm.table.length := by rw [hp.table_len]; exact hmem.1
      have hfv := hb.frame_of_valid p _ (getElem?_of_lt vm.table p default hl) hmem.2
      have hfl := lt_of_getElem? _ _ _ hfv
      simp only [VirtualMemory.occupied, Finset.mem_filter, Finset.mem_range]
      refine ⟨by rw [← hb.frameMap_len]; exact hfl, ?_⟩
      rw [getD_of_getElem? _ _ 0 _ hfv]
      omega
    · intro p hmem q hqmem hf
      simp only [VirtualMemory.resident, Finset.coe_filter, Finset.mem_range,
        Set.mem_setOf_eq] at hmem hqmem
      have hl : p < vm.table.length := by rw [hp.table_len]; exact hmem.1
      have hl' : q < vm.table.length := by rw [hp.table_len]; exact hqmem.1
      have a := hb.frame_of_valid p _ (getElem?_of_lt vm.table p default hl) hmem.2
      have b := hb.frame_of_valid q _ (getElem?_of_lt vm.table q default hl') hqmem.2
      simp only at hf
      rw [hf, b] at a
      have : (q : Int) = (p : Int) := by injection a
      exact (by exact_mod_cast this.symm)
  · have key : ∀ f : Nat, f ∈ vm.occupied →
        ∃ (q : Nat) (e : PageEntry), vm.frameMap.getD f 0 = (q : Int) ∧
          vm.table[q]? = some e ∧ e.valid = true ∧ e.frame = f := by
      intro f hmem
      simp only [VirtualMemory.occupied, Finset.mem_filter, Finset.mem_range] at hmem
      have hl : f < vm.frameMap.length := by rw [hb.frameMap_len]; exact hmem.1
      exact hb.page_of_frame f _ (getElem?_of_lt vm.frameMap f 0 hl) hmem.2
    apply Finset.card_le_card_of_injOn (fun f => (vm.frameMap.getD f 0).toNat)
    · intro f hmem
      obtain ⟨q, e, hx, he, hev, -⟩ := key f hmem
      simp only [hx, Int.toNat_natCast, VirtualMemory.resident, Finset.mem_filter,
        Finset.mem_range]
      refine ⟨by rw [← hp.table_len]; exact lt_of_getElem? _ _ _ he, ?_⟩
      rw [getD_of_getElem? _ _ default _ he]
      exact hev
    · intro f hmem g hgmem hfg
      obtain ⟨q, e, hx, he, -, hef⟩ := key f hmem
      obtain ⟨q', e', hx', he', -, hef'⟩ := key g hgmem
      simp only [hx, hx', Int.toNat_natCast] at hfg
      subst hfg
      rw [he] at he'
      cases he'
      rw [← hef, ← hef']

/-- The disk set holds the pages that are not resident. -/
theorem disk_card (vm : VirtualMemory) (hp : vm.Part) :
    vm.disk.card = vm.pages - vm.resident.card := by
  have hdisk : vm.disk
      = (Finset.range vm.pages).filter (fun p => ¬ (vm.table.getD p default).valid = true) := by
    ext p
    rw [hp.disk_iff]
    simp only [Finset.mem_filter, Finset.mem_range, Bool.not_eq_true]
    constructor
    · rintro ⟨e, he, hev⟩
      refine ⟨by rw [← hp.table_len]; exact lt_of_getElem? _ _ _ he, ?_⟩
      rw [getD_of_getElem? _ _ default _ he]
      exact hev
    · rintro ⟨hlt, hv⟩
      exact ⟨_, getElem?_of_lt vm.table p default (by rw [hp.table_len]; exact hlt), hv⟩
  have hsum := Finset.filter_card_add_filter_neg_card_eq_card (s := Finset.range vm.pages)
    (fun p => (vm.table.getD p default).valid = true)
  rw [Finset.card_range] at hsum
  rw [hdisk]
  unfold VirtualMemory.resident
  omega

theorem counters_of_reachableIn (n : Nat) (vm : VirtualMemory) (h : ReachableIn n vm) :
    vm.hits + vm.faults = vm.clock ∧ vm.clock = n ∧
      vm.occupied.card = min vm.frames vm.faults := by
  induction h with
  | init vSize pSize pSizePg =>
    refine ⟨rfl, rfl, ?_⟩
    have hempty : (VirtualMemory.mk0 vSize pSize pSizePg).occupied = ∅ := by
      ext f
      simp only [VirtualMemory.occupied, VirtualMemory.mk0, Finset.mem_filter, Finset.mem_range,
        Finset.not_mem_empty, iff_false, not_and, not_not]
      intro hlt
      rw [List.getD_eq_getElem?_getD, List.getElem?_replicate, if_pos hlt]
      rfl
    rw [hempty]
    simp [VirtualMemory.mk0]
  | @step m vm0 va hreach hr ih =>
    obtain ⟨i1, i2, i3⟩ := ih
    have hc := vm_access_counters vm0 va
    have hk := (vm_access_config vm0 va).2.2.2
    refine ⟨by omega, by omega, ?_⟩
    exact occupied_card_access vm0 va
      (frameMap_len_of_reachable vm0 (reachable_of_reachableIn m vm0 hreach)) i3

/-- Claim C14 at the one-frame unit with page 0 resident, for address 64 (page
1): the first access faults, the second hits. -/
theorem repeated_access_witness :
    Reachable demoOneFrame ∧ 0 < demoOneFrame.frames ∧
      64 / demoOneFrame.pageSize < demoOneFrame.pages ∧
      classify ((demoOneFrame.access 64).1.access 64).2 = PageOutcome.HIT ∧
      ((demoOneFrame.access 64).1.table.getD (64 / demoOneFrame.pageSize) default).time
        = demoOneFrame.clock + 1 ∧
      (((demoOneFrame.access 64).1.access 64).1.table.getD
        (64 / demoOneFrame.pageSize) default).time = demoOneFrame.clock + 2 := by
  obtain ⟨pa, -, -, -, h4, -, h6, h7, -⟩ :=
    repeated_access demoOneFrame 64 demoOneFrame_reachable (by decide) (by decide)
  exact ⟨demoOneFrame_reachable, by decide, by decide, h4, h6, h7⟩

/-- Claim C15 at a FIFO level that holds the line of address 64: a second
access to 64 leaves the sets as they are. -/
theorem hit_stamp_refresh_witness :
    demoFifoLevel.present 64 ∧ demoFifoLevel.policy = CachePolicy.FIFO ∧
      (demoFifoLevel.access 64).1.sets = demoFifoLevel.sets ∧
      (demoFifoLevel.access 64).2 = true :=
  ⟨by decide, rfl, ((hit_stamp_refresh demoFifoLevel 64 (by decide)).1 rfl).2,
    (hit_stamp_refresh demoFifoLevel 64 (by decide)).2.2.1⟩

/-- Claim C16 at the L1 geometry: along the trace 64, 128, 64 set 0 never holds
more valid lines than there are ways. -/
theorem cache_set_invariant_witness :
    (CacheLevel.mk0 256 32 4 CachePolicy.LRU).WF ∧
      validCount (((CacheLevel.mk0 256 32 4 CachePolicy.LRU).run [64, 128, 64]).sets.getD 0 [])
        ≤ (CacheLevel.mk0 256 32 4 CachePolicy.LRU).ways :=
  ⟨WF_mk0 256 32 4 CachePolicy.LRU (by decide) (by decide),
    (cache_set_invariant (CacheLevel.mk0 256 32 4 CachePolicy.LRU) 64).2.2.2.2.2.1
      (WF_mk0 256 32 4 CachePolicy.LRU (by decide) (by decide)) [64, 128, 64] 0⟩

/-! ## No duplicate lines in a set -/

/-- Reading a line after way `w` of set `idx` has been written, with no
assumption on the indices: the line read is the one written, or it was there
before at another place. -/
theorem line?_of_set (c c' : CacheLevel) (addr w : Nat) (new : CacheLine)
    (hs : c'.sets = c.sets.set (c.index addr) ((c.setAt addr).set w new))
    (i j : Nat) (l : CacheLine) (hl : c'.line? i j = some l) :
    (i = c.index addr ∧ j = w ∧ l = new) ∨
      ((i ≠ c.index addr ∨ j ≠ w) ∧ c.line? i j = some l) := by
  unfold CacheLevel.line? at hl ⊢
  rw [hs, List.getElem?_set] at hl
  by_cases hi : c.index addr = i
  · subst hi
    rw [if_pos rfl] at hl
    by_cases hlt : c.index addr < c.sets.length
    · rw [if_pos hlt] at hl
      simp only [Option.some_bind, List.getElem?_set] at hl
      have hset : c.sets[c.index addr]? = some (c.setAt addr) := getElem?_of_lt _ _ [] hlt
      by_cases hw : w = j
      · subst hw
        rw [if_pos rfl] at hl
        split at hl
        · cases hl
          exact Or.inl ⟨rfl, rfl, rfl⟩
        · cases hl
      · rw [if_neg hw] at hl
        refine Or.inr ⟨Or.inr (fun e => hw e.symm), ?_⟩
        rw [hset]
        exact hl
    · rw [if_neg hlt] at hl
      cases hl
  · rw [if_neg hi] at hl
    exact Or.inr ⟨Or.inl (fun e => hi e.symm), hl⟩

theorem line_mem_setAt (c : CacheLevel) (addr j : Nat) (l : CacheLine)
    (hl : c.line? (c.index addr) j = some l) : l ∈ c.setAt addr := by
  unfold CacheLevel.line? at hl
  cases hget : c.sets[c.index addr]? with
  | none => rw [hget] at hl; cases hl
  | some s =>
    rw [hget] at hl
    have hsa : c.setAt addr = s := getD_of_getElem? _ _ _ _ hget
    rw [hsa]
    exact List.mem_iff_getElem?.2 ⟨j, hl⟩

theorem line_of_setAt (c : CacheLevel) (addr j : Nat) (l : CacheLine)
    (hl : (c.setAt addr)[j]? = some l) : c.line? (c.index addr) j = some l := by
  have hset := setAt_eq_of_mem c addr l (List.mem_iff_getElem?.2 ⟨j, hl⟩)
  unfold CacheLevel.line?
  rw [hset]
  exact hl

/-- One access keeps the sets free of duplicate tags. -/
theorem NoDup_access (c : CacheLevel) (addr : Nat) (h : c.NoDup) : (c.access addr).1.NoDup := by
  by_cases hp : c.present addr
  · -- a hit rewrites a line with the same validity and tag
    obtain ⟨i, hi⟩ := (present_iff_scan c addr).1 hp
    obtain ⟨⟨x, hx, -⟩, -⟩ := firstIdx_eq_some _ _ _ hi
    have hg : (c.setAt addr).getD i default = x := getD_of_getElem? _ _ _ _ hx
    have hacc := access_of_hit c addr i hi
    rw [hg] at hacc
    have hsets : (c.access addr).1.sets = c.sets.set (c.index addr) ((c.setAt addr).set i
        (if c.policy = CachePolicy.LRU then { x with stamp := c.clock + 1 } else x)) := by
      rw [hacc]
    have hold : ∀ (a b : Nat) (l : CacheLine), (c.access addr).1.line? a b = some l →
        ∃ l0, c.line? a b = some l0 ∧ l0.valid = l.valid ∧ l0.tag = l.tag := by
      intro a b l hl
      rcases line?_of_set c _ addr i _ hsets a b l hl with ⟨rfl, rfl, rfl⟩ | ⟨-, hl0⟩
      · refine ⟨x, line_of_setAt c addr _ x hx, ?_, ?_⟩
        · split <;> rfl
        · split <;> rfl
      · exact ⟨l, hl0, rfl, rfl⟩
    intro a j1 j2 l1 l2 h1 h2 v1 v2 ht
    obtain ⟨m1, hm1, e1, t1⟩ := hold a j1 l1 h1
    obtain ⟨m2, hm2, e2, t2⟩ := hold a j2 l2 h2
    exact h a j1 j2 m1 m2 hm1 hm2 (by rw [e1]; exact v1) (by rw [e2]; exact v2)
      (by rw [t1, t2]; exact ht)
  · -- a miss writes a tag that no valid line of the set carries
    have hscan := (not_present_iff_scan c addr).1 hp
    have hform : ∃ (w : Nat) (new : CacheLine), new.tag = c.tagOf addr ∧
        (c.access addr).1.sets = c.sets.set (c.index addr) ((c.setAt addr).set w new) := by
      cases h' : firstIdx (fun l => !l.valid) (c.setAt addr) with
      | some w => rw [access_of_install c addr w hscan h']; exact ⟨w, _, rfl, rfl⟩
      | none => rw [access_of_replace c addr hscan h']; exact ⟨_, _, rfl, rfl⟩
    obtain ⟨w, new, hnt, hsets⟩ := hform
    have habsent : ∀ (b : Nat) (l : CacheLine), c.line? (c.index addr) b = some l →
        l.valid = true → l.tag ≠ c.tagOf addr := by
      intro b l hl hv ht
      exact hp ⟨l, line_mem_setAt c addr b l hl, hv, ht⟩
    intro a j1 j2 l1 l2 h1 h2 v1 v2 ht
    rcases line?_of_set c _ addr w new hsets a j1 l1 h1 with ⟨ra, rj, rl⟩ | ⟨-, hl1⟩
    · rcases line?_of_set c _ addr w new hsets a j2 l2 h2 with ⟨-, rj', -⟩ | ⟨-, hl2⟩
      · rw [rj, rj']
      · exfalso
        rw [ra] at hl2
        exact habsent j2 l2 hl2 v2 (by rw [← ht, rl, hnt])
    · rcases line?_of_set c _ addr w new hsets a j2 l2 h2 with ⟨ra, -, rl⟩ | ⟨-, hl2⟩
      · exfalso
        rw [ra] at hl1
        exact habsent j1 l1 hl1 v1 (by rw [ht, rl, hnt])
      · exact h a j1 j2 l1 l2 hl1 hl2 v1 v2 ht

theorem NoDup_mk0 (cs b w : Nat) (p : CachePolicy) : (CacheLevel.mk0 cs b w p).NoDup := by
  intro i j1 j2 l1 l2 h1 _ v1 _ _
  exfalso
  unfold CacheLevel.line? at h1
  simp only [CacheLevel.mk0, List.getElem?_replicate] at h1
  split at h1
  · simp only [Option.some_bind, List.getElem?_replicate] at h1
    split at h1
    · cases h1; cases v1
    · cases h1
  · cases h1

theorem NoDup_run (tr : List Nat) : ∀ c : CacheLevel, c.NoDup → (c.run tr).NoDup := by
  induction tr with
  | nil => intro c h; exact h
  | cons a rest ih => intro c h; exact ih _ (NoDup_access c a h)

theorem run_geometry (tr : List Nat) :
    ∀ c : CacheLevel, (c.run tr).blockSize = c.blockSize ∧ (c.run tr).setsCount = c.setsCount := by
  induction tr with
  | nil => intro c; exact ⟨rfl, rfl⟩
  | cons a rest ih =>
    intro c
    obtain ⟨h1, h2⟩ := ih (c.access a).1
    obtain ⟨g1, g2, -⟩ := access_geometry c a
    exact ⟨by rw [← g1]; exact h1, by rw [← g2]; exact h2⟩

/-- Claim C21 (no duplicate lines).  In every state of a level reached from
construction by a sequence of accesses, no set holds two valid lines with the
same tag; hence a valid line carrying the tag of an address is the one the hit
scan finds, and no other way of the set matches.  With `blockSize` and
`setsCount` powers of two, two addresses with the same set index and tag lie
in the same block, so a block is cached in at most one way. -/
theorem no_duplicate_lines (cs b w : Nat) (p : CachePolicy) (tr : List Nat) :
    ((CacheLevel.mk0 cs b w p).run tr).NoDup ∧
    (∀ (addr j : Nat) (l : CacheLine),
      ((CacheLevel.mk0 cs b w p).run tr).line? (((CacheLevel.mk0 cs b w p).run tr).index addr) j
        = some l →
      l.valid = true → l.tag = ((CacheLevel.mk0 cs b w p).run tr).tagOf addr →
      firstIdx (fun l => l.valid && l.tag == ((CacheLevel.mk0 cs b w p).run tr).tagOf addr)
          (((CacheLevel.mk0 cs b w p).run tr).setAt addr) = some j ∧
      ∀ (j' : Nat) (l' : CacheLine),
        ((CacheLevel.mk0 cs b w p).run tr).line?
          (((CacheLevel.mk0 cs b w p).run tr).index addr) j' = some l' →
        l'.valid = true → l'.tag = ((CacheLevel.mk0 cs b w p).run tr).tagOf addr → j' = j) ∧
    (∀ (a k addr addr' : Nat), b = 2 ^ a → (cs / b) / w = 2 ^ k →
      ((CacheLevel.mk0 cs b w p).run tr).index addr
        = ((CacheLevel.mk0 cs b w p).run tr).index addr' →
      ((CacheLevel.mk0 cs b w p).run tr).tagOf addr
        = ((CacheLevel.mk0 cs b w p).run tr).tagOf addr' →
      addr / b = addr' / b) := by
  have hnd := NoDup_run tr _ (NoDup_mk0 cs b w p)
  obtain ⟨g1, g2⟩ := run_geometry tr (CacheLevel.mk0 cs b w p)
  generalize (CacheLevel.mk0 cs b w p).run tr = c at *
  refine ⟨hnd, ?_, ?_⟩
  · intro addr j l hl hv ht
    have honly : ∀ (j' : Nat) (l' : CacheLine), c.line? (c.index addr) j' = some l' →
        l'.valid = true → l'.tag = c.tagOf addr → j' = j :=
      fun j' l' hl' hv' ht' => hnd _ j' j l' l hl' hl hv' hv (by rw [ht', ht])
    refine ⟨?_, honly⟩
    have hpres : c.present addr := ⟨l, line_mem_setAt c addr j l hl, hv, ht⟩
    obtain ⟨i, hi⟩ := (present_iff_scan c addr).1 hpres
    obtain ⟨⟨x, hx, hpx⟩, -⟩ := firstIdx_eq_some _ _ _ hi
    have hpx' := (hitTest_iff _ _).1 hpx
    rw [hi, honly i x (line_of_setAt c addr i x hx) hpx'.1 hpx'.2]
  · intro a k addr addr' hb hk hidx htag
    have hbs : c.blockSize = 2 ^ a := by rw [g1]; exact hb
    have hsc : c.setsCount = 2 ^ k := by rw [g2]; exact hk
    rw [index_eq c addr a k hbs hsc, index_eq c addr' a k hbs hsc] at hidx
    rw [tagOf_eq c addr a k hbs hsc, tagOf_eq c addr' a k hbs hsc,
      ← Nat.div_div_eq_div_mul, ← Nat.div_div_eq_div_mul] at htag
    have e1 := Nat.div_add_mod (addr / c.blockSize) c.setsCount
    have e2 := Nat.div_add_mod (addr' / c.blockSize) c.setsCount
    rw [hidx, htag] at e1
    have : addr / c.blockSize = addr' / c.blockSize := e1.symm.trans e2
    rw [g1] at this
    exact this

/-- Claim C21 at the L1 geometry after the accesses 64, 128, 64, 320. -/
theorem no_duplicate_lines_witness :
    (32 = 2 ^ 5 ∧ (256 / 32) / 4 = 2 ^ 1) ∧
      ((CacheLevel.mk0 256 32 4 CachePolicy.LRU).run [64, 128, 64, 320]).NoDup :=
  ⟨⟨by decide, by decide⟩,
    (no_duplicate_lines 256 32 4 CachePolicy.LRU [64, 128, 64, 320]).1⟩

/-! ## The contiguous allocator: list surgery -/

theorem Tiles_nil (a c : Nat) : Tiles a [] c ↔ a = c := Iff.rfl

theorem Tiles_cons (a c : Nat) (s : Block) (rest : List Block) :
    Tiles a (s :: rest) c ↔ s.start = a ∧ 0 < s.size ∧ Tiles (a + s.size) rest c := Iff.rfl

theorem tiles_append (l1 l2 : List Block) (a c : Nat) :
    Tiles a (l1 ++ l2) c ↔ ∃ b, Tiles a l1 b ∧ Tiles b l2 c := by
  induction l1 generalizing a with
  | nil =>
    rw [List.nil_append]
    constructor
    · exact fun h => ⟨a, (Tiles_nil a a).2 rfl, h⟩
    · rintro ⟨b, hb, h⟩
      rw [Tiles_nil] at hb
      subst hb
      exact h
  | cons s rest ih =>
    rw [List.cons_append, Tiles_cons, ih]
    constructor
    · rintro ⟨h1, h2, b, h3, h4⟩
      exact ⟨b, (Tiles_cons _ _ _ _).2 ⟨h1, h2, h3⟩, h4⟩
    · rintro ⟨b, hb, h4⟩
      obtain ⟨h1, h2, h3⟩ := (Tiles_cons _ _ _ _).1 hb
      exact ⟨h1, h2, b, h3, h4⟩

theorem split_at {α : Type} (l : List α) (i : Nat) (t : α) (h : l[i]? = some t) :
    ∃ pre post, l = pre ++ t :: post ∧ pre.length = i := by
  induction l generalizing i with
  | nil => simp at h
  | cons x xs ih =>
    cases i with
    | zero =>
      simp only [List.getElem?_cons_zero, Option.some.injEq] at h
      subst h
      exact ⟨[], xs, rfl, rfl⟩
    | succ i =>
      simp only [List.getElem?_cons_succ] at h
      obtain ⟨pre, post, hl, hlen⟩ := ih i h
      exact ⟨x :: pre, post, by rw [hl]; rfl, by simp [hlen]⟩

theorem set_at_middle {α : Type} (pre post : List α) (t x : α) :
    (pre ++ t :: post).set pre.length x = pre ++ x :: post := by
  induction pre with
  | nil => rfl
  | cons p ps ih => simp only [List.cons_append, List.length_cons, List.set_cons_succ, ih]

theorem insert_after_middle {α : Type} (pre post : List α) (x y : α) :
    (pre ++ x :: post).insertIdx (pre.length + 1) y = pre ++ x :: y :: post := by
  induction pre with
  | nil => rfl
  | cons p ps ih =>
    simp only [List.cons_append, List.length_cons, List.insertIdx_succ_cons, ih]

theorem getD_at_middle {α : Type} (pre post : List α) (t d : α) :
    (pre ++ t :: post).getD pre.length d = t := by
  induction pre with
  | nil => rfl
  | cons p ps ih => simp only [List.cons_append, List.length_cons, List.getD_cons_succ, ih]

/-- The segment chosen by the loop of `best_fit_malloc` is free and large
enough. -/
theorem bestLoop_spec (req : Nat) (l : List Block) :
    ∀ (i : Nat) (chosen : Option Nat) (best j : Nat), bestLoop req l i chosen best = some j →
      chosen = some j ∨
        (i ≤ j ∧ ∃ t, l[j - i]? = some t ∧ t.free = true ∧ req ≤ t.size) := by
  induction l with
  | nil => intro i chosen best j h; exact Or.inl h
  | cons s rest ih =>
    intro i chosen best j h
    unfold bestLoop at h
    have lift : ∀ c b, bestLoop req rest (i + 1) c b = some j → c = some j ∨
        (i ≤ j ∧ ∃ t, (s :: rest)[j - i]? = some t ∧ t.free = true ∧ req ≤ t.size) := by
      intro c b hc
      rcases ih (i + 1) c b j hc with h1 | ⟨h1, t, ht, hf, hs⟩
      · exact Or.inl h1
      · refine Or.inr ⟨by omega, t, ?_, hf, hs⟩
        have : j - i = (j - (i + 1)) + 1 := by omega
        rw [this]; simpa using ht
    by_cases hc : (s.free && decide (req ≤ s.size)) = true
    · rw [if_pos hc] at h
      simp only [Bool.and_eq_true, decide_eq_true_eq] at hc
      by_cases hb : s.size < best
      · rw [if_pos hb] at h
        rcases lift _ _ h with h1 | h1
        · cases h1
          exact Or.inr ⟨le_refl _, s, by simp, hc.1, hc.2⟩
        · exact Or.inr h1
      · rw [if_neg hb] at h
        exact lift _ _ h
    · rw [if_neg hc] at h
      exact lift _ _ h

/-- The segment chosen by the loop of `worst_fit_malloc` is free and large
enough. -/
theorem worstLoop_spec (req : Nat) (l : List Block) :
    ∀ (i : Nat) (chosen : Option Nat) (worst j : Nat), worstLoop req l i chosen worst = some j →
      chosen = some j ∨
        (i ≤ j ∧ ∃ t, l[j - i]? = some t ∧ t.free = true ∧ req ≤ t.size) := by
  induction l with
  | nil => intro i chosen worst j h; exact Or.inl h
  | cons s rest ih =>
    intro i chosen worst j h
    unfold worstLoop at h
    have lift : ∀ c b, worstLoop req rest (i + 1) c b = some j → c = some j ∨
        (i ≤ j ∧ ∃ t, (s :: rest)[j - i]? = some t ∧ t.free = true ∧ req ≤ t.size) := by
      intro c b hc
      rcases ih (i + 1) c b j hc with h1 | ⟨h1, t, ht, hf, hs⟩
      · exact Or.inl h1
      · refine Or.inr ⟨by omega, t, ?_, hf, hs⟩
        have : j - i = (j - (i + 1)) + 1 := by omega
        rw [this]; simpa using ht
    by_cases hc : (s.free && decide (req ≤ s.size)) = true
    · rw [if_pos hc] at h
      simp only [Bool.and_eq_true, decide_eq_true_eq] at hc
      by_cases hb : worst < s.size
      · rw [if_pos hb] at h
        rcases lift _ _ h with h1 | h1
        · cases h1
          exact Or.inr ⟨le_refl _, s, by simp, hc.1, hc.2⟩
        · exact Or.inr h1
      · rw [if_neg hb] at h
        exact lift _ _ h
    · rw [if_neg hc] at h
      exact lift _ _ h

theorem wrap32_of_range (x : Int) (h1 : -2 ^ 31 ≤ x) (h2 : x < 2 ^ 31) : wrap32 x = x := by
  unfold wrap32
  rw [Int.emod_eq_of_lt (by omega) (by omega)]
  omega

/-- What `allocate_using_index` does to the segment list when the target is
the segment `t` between `pre` and `post`. -/
theorem allocate_segments (a : Allocator) (pre post : List Block) (t : Block) (req : Nat)
    (hs : a.segments = pre ++ t :: post) :
    (allocate_using_index a pre.length req).1.segments =
      (if 0 < t.size - req then
        pre ++ { start := t.start, size := req, free := false, id := a.NEXT_ID } ::
          { start := t.start + req, size := t.size - req, free := true, id := -1 } :: post
       else pre ++ { start := t.start, size := req, free := false, id := a.NEXT_ID } :: post) ∧
    (allocate_using_index a pre.length req).1.NEXT_ID = wrap32 (a.NEXT_ID + 1) ∧
    (allocate_using_index a pre.length req).1.TOTAL_MEMORY = a.TOTAL_MEMORY ∧
    (allocate_using_index a pre.length req).2 = a.NEXT_ID := by
  refine ⟨?_, rfl, rfl, rfl⟩
  simp only [allocate_using_index, hs, getD_at_middle, set_at_middle, gt_iff_lt]
  split
  · rw [insert_after_middle]
  · rfl

/-! ## The contiguous allocator: the layout invariant -/

theorem liveIds_free_cons (s : Block) (rest : List Block) (h : s.free = true) :
    liveIds (s :: rest) = liveIds rest := by
  simp only [liveIds, h, if_true]

theorem liveIds_used_cons (s : Block) (rest : List Block) (h : s.free = false) :
    liveIds (s :: rest) = s.id :: liveIds rest := by
  simp only [liveIds, h, Bool.false_eq_true, if_false]

theorem liveIds_append (l1 l2 : List Block) : liveIds (l1 ++ l2) = liveIds l1 ++ liveIds l2 := by
  induction l1 with
  | nil => rfl
  | cons s rest ih =>
    rw [List.cons_append]
    cases hf : s.free with
    | true => rw [liveIds_free_cons _ _ hf, liveIds_free_cons _ _ hf, ih]
    | false => rw [liveIds_used_cons _ _ hf, liveIds_used_cons _ _ hf, ih, List.cons_append]

theorem mem_liveIds (l : List Block) (x : Int) :
    x ∈ liveIds l ↔ ∃ s ∈ l, s.free = false ∧ s.id = x := by
  induction l with
  | nil => simp [liveIds]
  | cons s rest ih =>
    simp only [liveIds]
    cases hf : s.free with
    | true =>
      simp only [if_true, ih, List.mem_cons, exists_eq_or_imp, hf, Bool.true_eq_false, false_and,
        false_or]
    | false =>
      simp only [Bool.false_eq_true, if_false, List.mem_cons, ih, exists_eq_or_imp, hf, true_and]
      constructor
      · rintro (h | h)
        · exact Or.inl h.symm
        · exact Or.inr h
      · rintro (h | h)
        · exact Or.inl h.symm
        · exact Or.inr h

theorem chain_replace_last {α : Type} (R : α → α → Prop) (pre : List α) (t x : α)
    (h : List.Chain' R (pre ++ [t])) (hx : ∀ z, R z x) : List.Chain' R (pre ++ [x]) := by
  rw [List.chain'_append] at h ⊢
  refine ⟨h.1, List.chain'_singleton x, ?_⟩
  intro z _ y hy
  simp only [List.head?_cons, Option.mem_def, Option.some.injEq] at hy
  subst hy
  exact hx z

/-- Allocating from a free segment that is large enough keeps the layout, as
long as the increment of `NEXT_ID` does not overflow. -/
theorem Layout_allocate (a : Allocator) (pre post : List Block) (t : Block) (req : Nat)
    (hL : a.Layout) (hs : a.segments = pre ++ t :: post) (htf : t.free = true)
    (hreq : req ≤ t.size) (h1 : 1 ≤ req) (hN : a.NEXT_ID < 2 ^ 31 - 1) :
    (allocate_using_index a pre.length req).1.Layout := by
  obtain ⟨e1, e2, e3, -⟩ := allocate_segments a pre post t req hs
  have hpos := hL.next_pos
  rw [wrap32_of_range _ (by omega) (by omega)] at e2
  have htiles := hL.tiles
  rw [hs, tiles_append] at htiles
  obtain ⟨b, hpre, htail⟩ := htiles
  obtain ⟨hts, -, hpost⟩ := (Tiles_cons _ _ _ _).1 htail
  have hchain := hL.no_adjacent_free
  rw [hs, List.chain'_split] at hchain
  obtain ⟨hc1, hc2⟩ := hchain
  have hnodup := hL.ids_nodup
  rw [hs, liveIds_append, liveIds_free_cons t post htf] at hnodup
  have hfresh : a.NEXT_ID ∉ liveIds pre ++ liveIds post := by
    intro hmem
    rw [← liveIds_append, mem_liveIds] at hmem
    obtain ⟨s, hsm, hsf, hsid⟩ := hmem
    have hmem' : s ∈ a.segments := by
      rw [hs]
      rcases List.mem_append.1 hsm with h | h
      · exact List.mem_append_left _ h
      · exact List.mem_append_right _ (List.mem_cons_of_mem _ h)
    have := (hL.ids_range s hmem' hsf).2
    omega
  have hpostfree : ∀ h ∈ post.head?, h.free = false := by
    intro h hh
    cases post with
    | nil => cases hh
    | cons p ps =>
      simp only [List.head?_cons, Option.mem_def, Option.some.injEq] at hh
      subst hh
      have := (List.chain'_cons.1 hc2).1
      cases hpf : p.free with
      | false => rfl
      | true => exact absurd ⟨htf, hpf⟩ this
  have hnext := hL.next_pos
  -- the members of the new list
  have hmem_old : ∀ s, s ∈ pre ∨ s ∈ post → s ∈ a.segments := by
    intro s h
    rw [hs]
    rcases h with h | h
    · exact List.mem_append_left _ h
    · exact List.mem_append_right _ (List.mem_cons_of_mem _ h)
  by_cases hrem : 0 < t.size - req
  · rw [if_pos hrem] at e1
    refine ⟨?_, ?_, ?_, ?_, ?_, ?_⟩
    · rw [e1, e3, tiles_append]
      refine ⟨b, hpre, (Tiles_cons _ _ _ _).2 ⟨hts, h1, (Tiles_cons _ _ _ _).2 ⟨?_, hrem, ?_⟩⟩⟩
      · show t.start + req = b + req
        rw [hts]
      · have : b + req + (t.size - req) = b + t.size := by omega
        show Tiles (b + req + (t.size - req)) post a.TOTAL_MEMORY
        rw [this]
        exact hpost
    · rw [e1]
      intro s hmem
      simp only [List.mem_append, List.mem_cons] at hmem
      rcases hmem with h | rfl | rfl | h
      · exact hL.free_iff s (hmem_old s (Or.inl h))
      · simp only [Bool.false_eq_true, false_iff]
        omega
      · simp
      · exact hL.free_iff s (hmem_old s (Or.inr h))
    · rw [e1, e2]
      intro s hmem hsf
      simp only [List.mem_append, List.mem_cons] at hmem
      rcases hmem with h | rfl | rfl | h
      · have := hL.ids_range s (hmem_old s (Or.inl h)) hsf
        omega
      · exact ⟨hnext, by simp⟩
      · cases hsf
      · have := hL.ids_range s (hmem_old s (Or.inr h)) hsf
        omega
    · rw [e1, liveIds_append, liveIds_used_cons _ _ rfl, liveIds_free_cons _ _ rfl]
      exact List.nodup_middle.2 (List.nodup_cons.2 ⟨hfresh, hnodup⟩)
    · rw [e1, List.chain'_split]
      refine ⟨chain_replace_last _ pre t _ hc1 (fun z hz => by cases hz.2), ?_⟩
      refine List.chain'_cons.2 ⟨(fun hz => by cases hz.1), ?_⟩
      cases post with
      | nil => exact List.chain'_singleton _
      | cons p ps =>
        refine List.chain'_cons.2 ⟨?_, (List.chain'_cons.1 hc2).2⟩
        intro hz
        have := hpostfree p (by simp)
        rw [this] at hz
        cases hz.2
    · rw [e2]; omega
  · rw [if_neg hrem] at e1
    have hsize : req = t.size := by omega
    refine ⟨?_, ?_, ?_, ?_, ?_, ?_⟩
    · rw [e1, e3, tiles_append]
      refine ⟨b, hpre, (Tiles_cons _ _ _ _).2 ⟨hts, h1, ?_⟩⟩
      show Tiles (b + req) post a.TOTAL_MEMORY
      rw [hsize]
      exact hpost
    · rw [e1]
      intro s hmem
      simp only [List.mem_append, List.mem_cons] at hmem
      rcases hmem with h | rfl | h
      · exact hL.free_iff s (hmem_old s (Or.inl h))
      · simp only [Bool.false_eq_true, false_iff]
        omega
      · exact hL.free_iff s (hmem_old s (Or.inr h))
    · rw [e1, e2]
      intro s hmem hsf
      simp only [List.mem_append, List.mem_cons] at hmem
      rcases hmem with h | rfl | h
      · have := hL.ids_range s (hmem_old s (Or.inl h)) hsf
        omega
      · exact ⟨hnext, by simp⟩
      · have := hL.ids_range s (hmem_old s (Or.inr h)) hsf
        omega
    · rw [e1, liveIds_append, liveIds_used_cons _ _ rfl]
      exact List.nodup_middle.2 (List.nodup_cons.2 ⟨hfresh, hnodup⟩)
    · rw [e1, List.chain'_split]
      refine ⟨chain_replace_last _ pre t _ hc1 (fun z hz => by cases hz.2), ?_⟩
      cases post with
      | nil => exact List.chain'_singleton _
      | cons p ps =>
        exact List.chain'_cons.2 ⟨(fun hz => by cases hz.1), (List.chain'_cons.1 hc2).2⟩
    · rw [e2]; omega

/-! ## The contiguous allocator: coalescing and release -/

theorem coalesceFrom_tiles (rest : List Block) :
    ∀ (last : Block) (a c : Nat), Tiles a (last :: rest) c → Tiles a (coalesceFrom last rest) c := by
  induction rest with
  | nil => intro last a c h; exact h
  | cons s rest ih =>
    intro last a c h
    obtain ⟨h1, h2, h3⟩ := (Tiles_cons _ _ _ _).1 h
    obtain ⟨h4, h5, h6⟩ := (Tiles_cons _ _ _ _).1 h3
    unfold coalesceFrom
    split
    · apply ih
      refine (Tiles_cons _ _ _ _).2 ⟨h1, ?_, ?_⟩
      · show 0 < last.size + s.size
        omega
      · show Tiles (a + (last.size + s.size)) rest c
        rw [← Nat.add_assoc]
        exact h6
    · exact (Tiles_cons _ _ _ _).2 ⟨h1, h2, ih s _ c h3⟩

theorem coalesceFrom_mem (rest : List Block) :
    ∀ (last x : Block), x ∈ coalesceFrom last rest →
      ∃ y ∈ last :: rest, x.free = y.free ∧ x.id = y.id := by
  induction rest with
  | nil =>
    intro last x h
    exact ⟨x, h, rfl, rfl⟩
  | cons s rest ih =>
    intro last x h
    unfold coalesceFrom at h
    split at h
    · obtain ⟨y, hy, e1, e2⟩ := ih _ x h
      rcases List.mem_cons.1 hy with rfl | hy
      · exact ⟨last, List.mem_cons_self _ _, e1, e2⟩
      · exact ⟨y, List.mem_cons_of_mem _ (List.mem_cons_of_mem _ hy), e1, e2⟩
    · rcases List.mem_cons.1 h with rfl | h
      · exact ⟨x, List.mem_cons_self _ _, rfl, rfl⟩
      · obtain ⟨y, hy, e1, e2⟩ := ih _ x h
        exact ⟨y, List.mem_cons_of_mem _ hy, e1, e2⟩

theorem coalesceFrom_liveIds (rest : List Block) :
    ∀ (last : Block), liveIds (coalesceFrom last rest) = liveIds (last :: rest) := by
  induction rest with
  | nil => intro last; rfl
  | cons s rest ih =>
    intro last
    unfold coalesceFrom
    split
    · rename_i hm
      rw [Bool.and_eq_true] at hm
      rw [ih, liveIds_free_cons _ _ (show ({ last with size := last.size + s.size } : Block).free
        = true from hm.1), liveIds_free_cons _ _ hm.1, liveIds_free_cons _ _ hm.2]
    · cases hf : last.free with
      | true => rw [liveIds_free_cons _ _ hf, liveIds_free_cons _ _ hf, ih]
      | false => rw [liveIds_used_cons _ _ hf, liveIds_used_cons _ _ hf, ih]

theorem coalesceFrom_chain (rest : List Block) :
    ∀ (last : Block),
      (∃ h tl, coalesceFrom last rest = h :: tl ∧ h.free = last.free) ∧
      (coalesceFrom last rest).Chain' (fun x y => ¬ (x.free = true ∧ y.free = true)) := by
  induction rest with
  | nil =>
    intro last
    exact ⟨⟨last, [], rfl, rfl⟩, List.chain'_singleton _⟩
  | cons s rest ih =>
    intro last
    unfold coalesceFrom
    split
    · obtain ⟨⟨h, tl, e, hf⟩, hc⟩ := ih { last with size := last.size + s.size }
      exact ⟨⟨h, tl, e, hf⟩, hc⟩
    · rename_i hm
      obtain ⟨⟨h, tl, e, hf⟩, hc⟩ := ih s
      refine ⟨⟨last, _, rfl, rfl⟩, ?_⟩
      rw [e] at hc ⊢
      refine List.chain'_cons.2 ⟨?_, hc⟩
      rintro ⟨h1, h2⟩
      rw [hf] at h2
      rw [h1, h2] at hm
      exact hm rfl

/-- Marking an allocated segment free and merging keeps the layout. -/
theorem Layout_release (a : Allocator) (pre post : List Block) (t : Block)
    (hL : a.Layout) (hs : a.segments = pre ++ t :: post) (htf : t.free = false) :
    Allocator.Layout { a with
      segments := (coalesce_free_segments (pre ++ { t with free := true, id := -1 } :: post)) } := by
  have htiles := hL.tiles
  rw [hs, tiles_append] at htiles
  obtain ⟨b, hpre, htail⟩ := htiles
  have hnodup := hL.ids_nodup
  rw [hs, liveIds_append, liveIds_used_cons t post htf] at hnodup
  have hnodup' := (List.nodup_cons.1 (List.nodup_middle.1 hnodup)).2
  have hmem_old : ∀ s, s ∈ pre ∨ s ∈ post → s ∈ a.segments := by
    intro s h
    rw [hs]
    rcases h with h | h
    · exact List.mem_append_left _ h
    · exact List.mem_append_right _ (List.mem_cons_of_mem _ h)
  -- the list with the segment marked free
  have hmarked : ∀ s ∈ pre ++ { t with free := true, id := -1 } :: post,
      (s.free = true ↔ s.id = -1) ∧ (s.free = false → 1 ≤ s.id ∧ s.id < a.NEXT_ID) := by
    intro s hmem
    simp only [List.mem_append, List.mem_cons] at hmem
    rcases hmem with h | rfl | h
    · exact ⟨hL.free_iff s (hmem_old s (Or.inl h)), hL.ids_range s (hmem_old s (Or.inl h))⟩
    · exact ⟨by simp, fun h => by cases h⟩
    · exact ⟨hL.free_iff s (hmem_old s (Or.inr h)), hL.ids_range s (hmem_old s (Or.inr h))⟩
  have htiles' : Tiles 0 (pre ++ { t with free := true, id := -1 } :: post) a.TOTAL_MEMORY := by
    rw [tiles_append]
    exact ⟨b, hpre, htail⟩
  have hlive : liveIds (pre ++ { t with free := true, id := -1 } :: post)
      = liveIds pre ++ liveIds post := by
    rw [liveIds_append, liveIds_free_cons _ _ rfl]
  generalize pre ++ { t with free := true, id := -1 } :: post = marked at hmarked htiles' hlive
  cases marked with
  | nil =>
    exact ⟨htiles', (fun s h => by cases h), (fun s h => by cases h), List.nodup_nil,
      List.chain'_nil, hL.next_pos⟩
  | cons hd tl =>
    refine ⟨coalesceFrom_tiles tl hd 0 _ htiles', ?_, ?_, ?_, (coalesceFrom_chain tl hd).2,
      hL.next_pos⟩
    · intro s hmem
      obtain ⟨y, hy, e1, e2⟩ := coalesceFrom_mem tl hd s hmem
      rw [e1, e2]
      exact (hmarked y hy).1
    · intro s hmem hsf
      obtain ⟨y, hy, e1, e2⟩ := coalesceFrom_mem tl hd s hmem
      rw [e2]
      exact (hmarked y hy).2 (e1 ▸ hsf)
    · show (liveIds (coalesceFrom hd tl)).Nodup
      rw [coalesceFrom_liveIds, hlive]
      exact hnodup'

theorem Layout_free_block (a : Allocator) (id : Int) (hL : a.Layout) :
    (free_block a id).Layout := by
  unfold free_block
  cases hfi : firstIdx (fun s : Block => !s.free && s.id == id) a.segments with
  | none => exact hL
  | some i =>
    obtain ⟨⟨t, hti, hpt⟩, -⟩ := firstIdx_eq_some _ _ _ hfi
    obtain ⟨pre, post, hs, hlen⟩ := split_at _ _ _ hti
    have htf : t.free = false := by
      simp only [Bool.and_eq_true, Bool.not_eq_true'] at hpt
      exact hpt.1
    have := Layout_release a pre post t hL hs htf
    show Allocator.Layout { a with
      segments := (coalesce_free_segments
        (a.segments.set i { a.segments.getD i default with free := true, id := -1 })) }
    rw [← hlen]
    rw [hs, getD_at_middle, set_at_middle]
    exact this

theorem Layout_init (n : Nat) (hn : 0 < n) : (init_memory n).Layout := by
  refine ⟨?_, ?_, ?_, ?_, ?_, ?_⟩
  · exact (Tiles_cons _ _ _ _).2 ⟨rfl, hn, (Tiles_nil _ _).2 (by simp [init_memory])⟩
  · intro s hs
    simp only [init_memory, List.mem_singleton] at hs
    subst hs
    simp
  · intro s hs hf
    simp only [init_memory, List.mem_singleton] at hs
    subst hs
    cases hf
  · simp [init_memory, liveIds]
  · exact List.chain'_singleton _
  · simp [init_memory]

theorem Layout_failure (a : Allocator) (x : Int) (hL : a.Layout) :
    ({ a with failure_count := x } : Allocator).Layout :=
  ⟨hL.tiles, hL.free_iff, hL.ids_range, hL.ids_nodup, hL.no_adjacent_free, hL.next_pos⟩

theorem Layout_allocate_at (a : Allocator) (i req : Nat) (t : Block) (hL : a.Layout)
    (hti : a.segments[i]? = some t) (htf : t.free = true) (hreq : req ≤ t.size)
    (h1 : 1 ≤ req) (hN : a.NEXT_ID < 2 ^ 31 - 1) : (allocate_using_index a i req).1.Layout := by
  obtain ⟨pre, post, hs, hlen⟩ := split_at _ _ _ hti
  rw [← hlen]
  exact Layout_allocate a pre post t req hL hs htf hreq h1 hN

theorem Layout_step (a : Allocator) (op : AllocOp) (hL : a.Layout) (hop : op.positive)
    (hN : op.isAlloc = true → a.NEXT_ID < 2 ^ 31 - 1) : (a.step op).Layout := by
  cases op with
  | firstFit req =>
    show (first_fit_malloc a req).1.Layout
    unfold first_fit_malloc
    cases hfi : firstIdx (fun s : Block => s.free && decide (req ≤ s.size)) a.segments with
    | none => exact Layout_failure a _ hL
    | some i =>
      obtain ⟨⟨t, hti, hpt⟩, -⟩ := firstIdx_eq_some _ _ _ hfi
      simp only [Bool.and_eq_true, decide_eq_true_eq] at hpt
      exact Layout_allocate_at a i req t hL hti hpt.1 hpt.2 hop (hN rfl)
  | bestFit req =>
    show (best_fit_malloc a req).1.Layout
    unfold best_fit_malloc
    cases hfi : bestLoop req a.segments 0 none SIZE_MAX with
    | none => exact Layout_failure a _ hL
    | some i =>
      rcases bestLoop_spec req a.segments 0 none SIZE_MAX i hfi with h | ⟨-, t, hti, htf, hreq⟩
      · cases h
      · exact Layout_allocate_at a i req t hL hti htf hreq hop (hN rfl)
  | worstFit req =>
    show (worst_fit_malloc a req).1.Layout
    unfold worst_fit_malloc
    cases hfi : worstLoop req a.segments 0 none 0 with
    | none => exact Layout_failure a _ hL
    | some i =>
      rcases worstLoop_spec req a.segments 0 none 0 i hfi with h | ⟨-, t, hti, htf, hreq⟩
      · cases h
      · exact Layout_allocate_at a i req t hL hti htf hreq hop (hN rfl)
  | release id => exact Layout_free_block a id hL

/-- A call raises `NEXT_ID` by at most one, and only an allocation call does. -/
theorem step_next_id (a : Allocator) (op : AllocOp) (h1 : 1 ≤ a.NEXT_ID)
    (hN : op.isAlloc = true → a.NEXT_ID < 2 ^ 31 - 1) :
    (op.isAlloc = false → (a.step op).NEXT_ID = a.NEXT_ID) ∧
      (a.step op).NEXT_ID ≤ a.NEXT_ID + 1 := by
  have hw : op.isAlloc = true → wrap32 (a.NEXT_ID + 1) = a.NEXT_ID + 1 := fun h =>
    wrap32_of_range _ (by omega) (by have := hN h; omega)
  cases op with
  | firstFit req =>
    refine ⟨(fun h => by cases h), ?_⟩
    show (first_fit_malloc a req).1.NEXT_ID ≤ _
    unfold first_fit_malloc
    split
    · show wrap32 (a.NEXT_ID + 1) ≤ _
      rw [hw rfl]
    · show a.NEXT_ID ≤ _
      omega
  | bestFit req =>
    refine ⟨(fun h => by cases h), ?_⟩
    show (best_fit_malloc a req).1.NEXT_ID ≤ _
    unfold best_fit_malloc
    split
    · show a.NEXT_ID ≤ _
      omega
    · show wrap32 (a.NEXT_ID + 1) ≤ _
      rw [hw rfl]
  | worstFit req =>
    refine ⟨(fun h => by cases h), ?_⟩
    show (worst_fit_malloc a req).1.NEXT_ID ≤ _
    unfold worst_fit_malloc
    split
    · show a.NEXT_ID ≤ _
      omega
    · show wrap32 (a.NEXT_ID + 1) ≤ _
      rw [hw rfl]
  | release id =>
    have e : (free_block a id).NEXT_ID = a.NEXT_ID := by
      unfold free_block
      split <;> rfl
    refine ⟨fun _ => e, ?_⟩
    show (free_block a id).NEXT_ID ≤ _
    rw [e]
    omega

theorem allocCalls_cons (op : AllocOp) (rest : List AllocOp) :
    allocCalls (op :: rest) = allocCalls rest + (if op.isAlloc = true then 1 else 0) := by
  unfold allocCalls
  rw [List.countP_cons]

theorem Layout_runOps (ops : List AllocOp) :
    ∀ (a : Allocator), a.Layout → (∀ op ∈ ops, op.positive) →
      a.NEXT_ID + (allocCalls ops : Int) ≤ 2 ^ 31 - 1 → (a.runOps ops).Layout := by
  induction ops with
  | nil => intro a hL _ _; exact hL
  | cons op rest ih =>
    intro a hL hops hb
    rw [allocCalls_cons] at hb
    have hN : op.isAlloc = true → a.NEXT_ID < 2 ^ 31 - 1 := by
      intro h
      rw [if_pos h] at hb
      push_cast at hb
      omega
    obtain ⟨s1, s2⟩ := step_next_id a op hL.next_pos hN
    refine ih _ (Layout_step a op hL (hops op (List.mem_cons_self _ _)) hN)
      (fun o ho => hops o (List.mem_cons_of_mem _ ho)) ?_
    cases hi : op.isAlloc with
    | true =>
      rw [if_pos hi] at hb
      push_cast at hb
      omega
    | false =>
      rw [s1 hi]
      rw [if_neg (by rw [hi]; exact Bool.false_ne_true)] at hb
      push_cast at hb
      omega

/-! ## The contiguous allocator: the layout after any run -/

theorem tiles_props (l : List Block) :
    ∀ (a c : Nat), Tiles a l c →
      (∀ s, l[0]? = some s → s.start = a) ∧
      (∀ (i : Nat) (x y : Block), l[i]? = some x → l[i + 1]? = some y →
        y.start = x.start + x.size) ∧
      (∀ s ∈ l, 0 < s.size) ∧
      a + (l.map (fun s => s.size)).sum = c := by
  induction l with
  | nil =>
    intro a c h
    refine ⟨(fun s hs => by cases hs), (fun i x y hx => by cases hx), (fun s hs => by cases hs),
      ?_⟩
    simpa using (Tiles_nil a c).1 h
  | cons s rest ih =>
    intro a c h
    obtain ⟨h1, h2, h3⟩ := (Tiles_cons _ _ _ _).1 h
    obtain ⟨i1, i2, i3, i4⟩ := ih _ _ h3
    refine ⟨?_, ?_, ?_, ?_⟩
    · intro x hx
      simp only [List.getElem?_cons_zero, Option.some.injEq] at hx
      subst hx
      exact h1
    · intro i x y hx hy
      cases i with
      | zero =>
        simp only [List.getElem?_cons_zero, Option.some.injEq] at hx
        subst hx
        rw [List.getElem?_cons_succ] at hy
        rw [i1 y hy, h1]
      | succ k =>
        rw [List.getElem?_cons_succ] at hx hy
        exact i2 k x y hx hy
    · intro x hx
      rcases List.mem_cons.1 hx with rfl | hx
      · exact h2
      · exact i3 x hx
    · rw [List.map_cons, List.sum_cons, ← Nat.add_assoc]
      exact i4

theorem liveIds_index_inj (l : List Block) (h : (liveIds l).Nodup) :
    ∀ (i j : Nat) (x y : Block), l[i]? = some x → l[j]? = some y → x.free = false →
      y.free = false → x.id = y.id → i = j := by
  induction l with
  | nil => intro i j x y hx; cases hx
  | cons s rest ih =>
    have hrest : (liveIds rest).Nodup := by
      cases hf : s.free with
      | true => rw [liveIds_free_cons _ _ hf] at h; exact h
      | false => rw [liveIds_used_cons _ _ hf] at h; exact (List.nodup_cons.1 h).2
    have hhead : ∀ (k : Nat) (y : Block), rest[k]? = some y → s.free = false → y.free = false →
        s.id = y.id → False := by
      intro k y hy hsf hyf hid
      rw [liveIds_used_cons _ _ hsf] at h
      apply (List.nodup_cons.1 h).1
      rw [mem_liveIds]
      exact ⟨y, (List.mem_iff_getElem?.2 ⟨k, hy⟩), hyf, hid.symm⟩
    intro i j x y hx hy hxf hyf hid
    cases i with
    | zero =>
      simp only [List.getElem?_cons_zero, Option.some.injEq] at hx
      subst hx
      cases j with
      | zero => rfl
      | succ k =>
        rw [List.getElem?_cons_succ] at hy
        exact absurd (hhead k y hy hxf hyf hid) id
    | succ k =>
      rw [List.getElem?_cons_succ] at hx
      cases j with
      | zero =>
        simp only [List.getElem?_cons_zero, Option.some.injEq] at hy
        subst hy
        exact absurd (hhead k x hx hyf hxf hid.symm) id
      | succ m =>
        rw [List.getElem?_cons_succ] at hy
        rw [ih hrest k m x y hx hy hxf hyf hid]

theorem chain_adjacent {α : Type} (R : α → α → Prop) (l : List α) (h : l.Chain' R) :
    ∀ (i : Nat) (x y : α), l[i]? = some x → l[i + 1]? = some y → R x y := by
  induction l with
  | nil => intro i x y hx; cases hx
  | cons s rest ih =>
    intro i x y hx hy
    cases i with
    | zero =>
      simp only [List.getElem?_cons_zero, Option.some.injEq] at hx
      subst hx
      rw [List.getElem?_cons_succ] at hy
      cases rest with
      | nil => cases hy
      | cons r rs =>
        simp only [List.getElem?_cons_zero, Option.some.injEq] at hy
        subst hy
        exact (List.chain'_cons.1 h).1
    | succ k =>
      rw [List.getElem?_cons_succ] at hx hy
      exact ih (List.Chain'.tail h) k x y hx hy

/-- Claim C22, amended.  After `init_memory n` with `n > 0` and any calls of
`first_fit_malloc`, `best_fit_malloc`, `worst_fit_malloc` with a request of at
least 1 and of `free_block`, of which fewer than `2 ^ 31 - 1` are allocation
calls (so that `NEXT_ID` never overflows), the first segment starts at 0, each
next segment starts where the one before it ends, every size is positive, the
sizes add up to `n`, a segment is free exactly when its id is -1, the ids of
the allocated segments are pairwise distinct, and no two neighbours are both
free. -/
theorem allocator_layout (n : Nat) (ops : List AllocOp) (hn : 0 < n)
    (hops : ∀ op ∈ ops, op.positive) (hcalls : allocCalls ops < 2 ^ 31 - 1) :
    (∃ s rest, ((init_memory n).runOps ops).segments = s :: rest ∧ s.start = 0) ∧
    (∀ (i : Nat) (x y : Block), ((init_memory n).runOps ops).segments[i]? = some x →
      ((init_memory n).runOps ops).segments[i + 1]? = some y → y.start = x.start + x.size) ∧
    (∀ s ∈ ((init_memory n).runOps ops).segments, 0 < s.size) ∧
    (((init_memory n).runOps ops).segments.map (fun s => s.size)).sum = n ∧
    (∀ s ∈ ((init_memory n).runOps ops).segments, (s.free = true ↔ s.id = -1)) ∧
    (∀ (i j : Nat) (x y : Block), ((init_memory n).runOps ops).segments[i]? = some x →
      ((init_memory n).runOps ops).segments[j]? = some y → x.free = false → y.free = false →
      x.id = y.id → i = j) ∧
    (∀ (i : Nat) (x y : Block), ((init_memory n).runOps ops).segments[i]? = some x →
      ((init_memory n).runOps ops).segments[i + 1]? = some y →
      ¬ (x.free = true ∧ y.free = true)) := by
  have hcast : (1 : Int) + (allocCalls ops : Int) ≤ 2 ^ 31 - 1 := by omega
  have hL := Layout_runOps ops (init_memory n) (Layout_init n hn) hops hcast
  have htot : ∀ (l : List AllocOp) (a : Allocator), (a.runOps l).TOTAL_MEMORY = a.TOTAL_MEMORY := by
    intro l
    induction l with
    | nil => intro a; rfl
    | cons op rest ih =>
      intro a
      show ((a.step op).runOps rest).TOTAL_MEMORY = a.TOTAL_MEMORY
      rw [ih]
      cases op with
      | firstFit req =>
        show (first_fit_malloc a req).1.TOTAL_MEMORY = _
        unfold first_fit_malloc
        split <;> rfl
      | bestFit req =>
        show (best_fit_malloc a req).1.TOTAL_MEMORY = _
        unfold best_fit_malloc
        split <;> rfl
      | worstFit req =>
        show (worst_fit_malloc a req).1.TOTAL_MEMORY = _
        unfold worst_fit_malloc
        split <;> rfl
      | release id =>
        show (free_block a id).TOTAL_MEMORY = _
        unfold free_block
        split <;> rfl
  have ht := hL.tiles
  rw [htot] at ht
  obtain ⟨t1, t2, t3, t4⟩ := tiles_props _ _ _ ht
  refine ⟨?_, t2, t3, ?_, hL.free_iff, liveIds_index_inj _ hL.ids_nodup,
    chain_adjacent _ _ hL.no_adjacent_free⟩
  · cases hsegs : ((init_memory n).runOps ops).segments with
    | nil =>
      rw [hsegs] at t4
      simp only [List.map_nil, List.sum_nil, Nat.add_zero] at t4
      have : (init_memory n).TOTAL_MEMORY = n := rfl
      omega
    | cons s rest =>
      refine ⟨s, rest, rfl, t1 s ?_⟩
      rw [hsegs, List.getElem?_cons_zero]
  · have : (init_memory n).TOTAL_MEMORY = n := rfl
    omega

/-- Claim C22 (amended) on a run of 100 units with three allocations, two
releases and one more allocation. -/
theorem allocator_layout_witness :
    (0 < 100 ∧ (∀ op ∈ [AllocOp.firstFit 10, AllocOp.bestFit 20, AllocOp.worstFit 5,
        AllocOp.release 2, AllocOp.release 1, AllocOp.bestFit 3], op.positive) ∧
      allocCalls [AllocOp.firstFit 10, AllocOp.bestFit 20, AllocOp.worstFit 5,
        AllocOp.release 2, AllocOp.release 1, AllocOp.bestFit 3] < 2 ^ 31 - 1) ∧
    ((init_memory 100).runOps [AllocOp.firstFit 10, AllocOp.bestFit 20, AllocOp.worstFit 5,
        AllocOp.release 2, AllocOp.release 1, AllocOp.bestFit 3]).segments =
      [⟨0, 3, false, 4⟩, ⟨3, 27, true, -1⟩, ⟨30, 5, false, 3⟩, ⟨35, 65, true, -1⟩] ∧
    (((init_memory 100).runOps [AllocOp.firstFit 10, AllocOp.bestFit 20, AllocOp.worstFit 5,
        AllocOp.release 2, AllocOp.release 1, AllocOp.bestFit 3]).segments.map
          (fun s => s.size)).sum = 100 :=
  ⟨⟨by decide, by decide, by decide⟩, by decide,
    (allocator_layout 100 [AllocOp.firstFit 10, AllocOp.bestFit 20, AllocOp.worstFit 5,
        AllocOp.release 2, AllocOp.release 1, AllocOp.bestFit 3] (by decide) (by decide)
        (by decide)).2.2.2.1⟩

/-! ## The buddy allocator: block sizes and buddies -/

theorem bs_eq (l : Nat) : BASE_BLOCK <<< l = 2 ^ (l + 5) := by
  rw [Nat.shiftLeft_eq, BASE_BLOCK, pow_add]
  norm_num
  ring

theorem bs_pos (l : Nat) : 0 < BASE_BLOCK <<< l := by
  rw [bs_eq]; positivity

theorem bs_succ (l : Nat) : BASE_BLOCK <<< (l + 1) = 2 * (BASE_BLOCK <<< l) := by
  rw [bs_eq, bs_eq, show l + 1 + 5 = (l + 5) + 1 from by omega, pow_succ]
  ring

theorem bs_dvd (l m : Nat) (h : l ≤ m) : (BASE_BLOCK <<< l) ∣ (BASE_BLOCK <<< m) := by
  rw [bs_eq, bs_eq]
  exact pow_dvd_pow 2 (by omega)

theorem bs_le (l m : Nat) (h : l ≤ m) : BASE_BLOCK <<< l ≤ BASE_BLOCK <<< m :=
  Nat.le_of_dvd (bs_pos m) (bs_dvd l m h)

theorem bs_lt (l m : Nat) (h : l < m) : BASE_BLOCK <<< l < BASE_BLOCK <<< m := by
  rw [bs_eq, bs_eq]
  exact Nat.pow_lt_pow_right (by omega) (by omega)

theorem bs_lt_iff (l m : Nat) : BASE_BLOCK <<< l < BASE_BLOCK <<< m ↔ l < m := by
  constructor
  · intro h
    by_contra hc
    have := bs_le m l (by omega)
    omega
  · exact bs_lt l m

theorem xor_two_pow_of_dvd (a m : Nat) (h : 2 ^ (m + 1) ∣ a) : a ^^^ 2 ^ m = a + 2 ^ m := by
  obtain ⟨q, rfl⟩ := h
  apply Nat.eq_of_testBit_eq
  intro i
  have hlt : 2 ^ m < 2 ^ (m + 1) := Nat.pow_lt_pow_right (by omega) (by omega)
  have h0 : (0 : Nat) < 2 ^ (m + 1) := by positivity
  have e1 := Nat.testBit_mul_pow_two_add q hlt i
  have e2 := Nat.testBit_mul_pow_two_add q h0 i
  rw [Nat.add_zero] at e2
  rw [Nat.testBit_xor, e1, e2]
  by_cases hi : i < m + 1
  · rw [if_pos hi, if_pos hi, Nat.zero_testBit, Bool.false_xor]
  · rw [if_neg hi, if_neg hi, Nat.testBit_two_pow]
    have : ¬ (m = i) := by omega
    simp [this]

theorem buddy_up (a l : Nat) (h : (BASE_BLOCK <<< (l + 1)) ∣ a) :
    buddy_address a l = a + BASE_BLOCK <<< l := by
  unfold buddy_address
  rw [bs_eq] at h ⊢
  exact xor_two_pow_of_dvd a (l + 5) (by rwa [show l + 1 + 5 = l + 5 + 1 from by omega] at h)

theorem buddy_invol (a l : Nat) : buddy_address (buddy_address a l) l = a := by
  unfold buddy_address
  exact Nat.xor_cancel_right _ _

theorem buddy_ne (a l : Nat) : buddy_address a l ≠ a := by
  unfold buddy_address
  intro h
  have h1 : a ^^^ (a ^^^ BASE_BLOCK <<< l) = a ^^^ a := by rw [h]
  rw [Nat.xor_cancel_left, Nat.xor_self] at h1
  have := bs_pos l
  omega

/-- A block of level `l` is the lower or the upper half of a block of level
`l + 1`, and its buddy is the other half. -/
theorem buddy_cases (a l : Nat) (h : (BASE_BLOCK <<< l) ∣ a) :
    ((BASE_BLOCK <<< (l + 1)) ∣ a ∧ buddy_address a l = a + BASE_BLOCK <<< l) ∨
    ((BASE_BLOCK <<< (l + 1)) ∣ buddy_address a l ∧ a = buddy_address a l + BASE_BLOCK <<< l) := by
  obtain ⟨q, hq⟩ := h
  rcases Nat.even_or_odd' q with ⟨p, hp | hp⟩
  · left
    have hd : (BASE_BLOCK <<< (l + 1)) ∣ a := by
      rw [bs_succ, hq, hp]
      exact ⟨p, by ring⟩
    exact ⟨hd, buddy_up a l hd⟩
  · right
    have hd : (BASE_BLOCK <<< (l + 1)) ∣ (BASE_BLOCK <<< l) * (2 * p) := by
      rw [bs_succ]
      exact ⟨p, by ring⟩
    have hb := buddy_up _ l hd
    have ha : a = buddy_address ((BASE_BLOCK <<< l) * (2 * p)) l := by
      rw [hb, hq, hp]
      ring
    have hba : buddy_address a l = (BASE_BLOCK <<< l) * (2 * p) := by
      rw [ha, buddy_invol]
    rw [hba]
    refine ⟨hd, ?_⟩
    rw [hq, hp]
    ring

/-! ## The buddy allocator: the loops on sizes -/

theorem normalizeLoop_zero (r : Nat) (h : 0 < r) : ∀ (fuel : Nat), normalizeLoop r fuel 0 = none := by
  intro fuel
  induction fuel with
  | zero => rfl
  | succ f ih =>
    unfold normalizeLoop
    rw [if_pos h]
    exact ih

theorem bs_double_mod (j : Nat) (h : j < 58) :
    ((BASE_BLOCK <<< j) <<< 1) % 2 ^ 64 = BASE_BLOCK <<< (j + 1) := by
  rw [Nat.shiftLeft_eq (BASE_BLOCK <<< j) 1, bs_succ, Nat.pow_one, Nat.mul_comm]
  apply Nat.mod_eq_of_lt
  rw [← bs_succ, bs_eq]
  exact Nat.pow_lt_pow_right (by omega) (by omega)

theorem bs_double_wrap : ((BASE_BLOCK <<< 58) <<< 1) % 2 ^ 64 = 0 := by decide

theorem normalizeLoop_some (r s : Nat) :
    ∀ (fuel j : Nat), j ≤ 58 → (∀ j2, j2 < j → BASE_BLOCK <<< j2 < r) →
      normalizeLoop r fuel (BASE_BLOCK <<< j) = some s →
      ∃ j1, j1 ≤ 58 ∧ s = BASE_BLOCK <<< j1 ∧ r ≤ s ∧ ∀ j2, j2 < j1 → BASE_BLOCK <<< j2 < r := by
  intro fuel
  induction fuel with
  | zero => intro j _ _ h; cases h
  | succ f ih =>
    intro j hj hlow h
    unfold normalizeLoop at h
    by_cases hlt : BASE_BLOCK <<< j < r
    · rw [if_pos hlt] at h
      by_cases hj58 : j < 58
      · rw [bs_double_mod j hj58] at h
        refine ih (j + 1) (by omega) ?_ h
        intro j2 hj2
        by_cases e : j2 = j
        · rw [e]; exact hlt
        · exact hlow j2 (by omega)
      · have : j = 58 := by omega
        subst this
        rw [bs_double_wrap, normalizeLoop_zero r (by omega)] at h
        cases h
    · rw [if_neg hlt] at h
      cases h
      exact ⟨j, hj, rfl, by omega, hlow⟩

/-- What `normalize_size` returns is the smallest block size that is at least
the request. -/
theorem normalize_some (r s : Nat) (h : normalize_size r = some s) :
    ∃ j, j ≤ 58 ∧ s = BASE_BLOCK <<< j ∧ r ≤ s ∧ ∀ j2, j2 < j → BASE_BLOCK <<< j2 < r := by
  have h0 : BASE_BLOCK = BASE_BLOCK <<< 0 := rfl
  unfold normalize_size at h
  rw [h0] at h
  exact normalizeLoop_some r s 64 0 (by omega) (fun j2 hj2 => by omega) h

theorem normalizeLoop_total (r : Nat) (hr : r ≤ 2 ^ 63) :
    ∀ (fuel j : Nat), j ≤ 58 → 59 ≤ fuel + j →
      ∃ s, normalizeLoop r fuel (BASE_BLOCK <<< j) = some s := by
  intro fuel
  induction fuel with
  | zero => intro j h1 h2; omega
  | succ f ih =>
    intro j hj hf
    unfold normalizeLoop
    by_cases hlt : BASE_BLOCK <<< j < r
    · rw [if_pos hlt]
      have hj58 : j < 58 := by
        by_contra hc
        have : j = 58 := by omega
        subst this
        rw [bs_eq] at hlt
        omega
      rw [bs_double_mod j hj58]
      exact ih (j + 1) (by omega) (by omega)
    · rw [if_neg hlt]
      exact ⟨_, rfl⟩

/-- The loop of `normalize_size` ends for every request up to `2 ^ 63`. -/
theorem normalize_total (r : Nat) (hr : r ≤ 2 ^ 63) : ∃ s, normalize_size r = some s :=
  normalizeLoop_total r hr 64 0 (by omega) (by omega)

/-- For a request above `2 ^ 63` the loop of `normalize_size` never ends,
whatever the fuel. -/
theorem normalize_diverges (r : Nat) (hr : 2 ^ 63 < r) :
    ∀ (fuel j : Nat), j ≤ 58 → normalizeLoop r fuel (BASE_BLOCK <<< j) = none := by
  intro fuel
  induction fuel with
  | zero => intro j _; rfl
  | succ f ih =>
    intro j hj
    unfold normalizeLoop
    have hlt : BASE_BLOCK <<< j < r := by
      have := bs_le j 58 hj
      rw [bs_eq 58] at this
      omega
    rw [if_pos hlt]
    by_cases hj58 : j < 58
    · rw [bs_double_mod j hj58]
      exact ih (j + 1) (by omega)
    · have : j = 58 := by omega
      subst this
      rw [bs_double_wrap]
      exact normalizeLoop_zero r (by omega) f

theorem levelLoop_bs (j : Nat) (hj : j ≤ 58) :
    ∀ (fuel i : Nat), i ≤ j → j - i < fuel →
      levelLoop (BASE_BLOCK <<< j) fuel (BASE_BLOCK <<< i) i = some j := by
  intro fuel
  induction fuel with
  | zero => intro i _ h; omega
  | succ f ih =>
    intro i hi hf
    unfold levelLoop
    by_cases hlt : i < j
    · rw [if_pos (bs_lt i j hlt), bs_double_mod i (by omega)]
      exact ih (i + 1) (by omega) (by omega)
    · rw [if_neg (by rw [bs_lt_iff]; exact hlt)]
      have : i = j := by omega
      rw [this]

/-- The level of the block size `32 * 2 ^ j` is `j`. -/
theorem size_to_level_bs (j : Nat) (hj : j ≤ 58) : size_to_level (BASE_BLOCK <<< j) = some j :=
  levelLoop_bs j hj 64 0 (by omega) (by omega)

theorem initLoop_pow (k : Nat) :
    ∀ (fuel i : Nat), i ≤ k → k - i ≤ fuel → initLoop (2 ^ k) fuel i = k := by
  intro fuel
  induction fuel with
  | zero =>
    intro i h1 h2
    show i = k
    omega
  | succ f ih =>
    intro i hi hf
    unfold initLoop
    rw [Nat.one_shiftLeft]
    by_cases hlt : i < k
    · rw [if_pos (Nat.pow_lt_pow_right (by omega) hlt)]
      exact ih (i + 1) (by omega) (by omega)
    · have : i = k := by omega
      subst this
      rw [if_neg (by omega)]

/-! ## The buddy allocator: the free lists -/

theorem getD_set_lists (fb : List (List Nat)) (i j : Nat) (v : List Nat) :
    (fb.set i v).getD j [] = if i = j ∧ i < fb.length then v else fb.getD j [] := by
  rw [List.getD_eq_getElem?_getD, List.getD_eq_getElem?_getD, List.getElem?_set]
  by_cases hij : i = j
  · subst hij
    by_cases hlt : i < fb.length
    · rw [if_pos rfl, if_pos hlt, if_pos ⟨rfl, hlt⟩]
      rfl
    · rw [if_pos rfl, if_neg hlt, if_neg (fun h => hlt h.2)]
      rw [List.getElem?_eq_none (by omega)]
  · rw [if_neg hij, if_neg (fun h => hij h.1)]

theorem getD_set_self (fb : List (List Nat)) (i : Nat) (v : List Nat) (h : i < fb.length) :
    (fb.set i v).getD i [] = v := by
  rw [getD_set_lists, if_pos ⟨rfl, h⟩]

theorem getD_set_other (fb : List (List Nat)) (i j : Nat) (v : List Nat) (h : i ≠ j) :
    (fb.set i v).getD j [] = fb.getD j [] := by
  rw [getD_set_lists, if_neg (fun hc => h hc.1)]

/-- Replacing a list by a part of it keeps the invariant. -/
theorem FbInv_set_sub (K : Nat) (fb : List (List Nat)) (l : Nat) (v : List Nat)
    (h : FbInv K fb) (hv : ∀ x ∈ v, x ∈ fb.getD l []) : FbInv K (fb.set l v) := by
  have hmem : ∀ (j x : Nat), x ∈ (fb.set l v).getD j [] → x ∈ fb.getD j [] := by
    intro j x hx
    rw [getD_set_lists] at hx
    by_cases hc : l = j ∧ l < fb.length
    · rw [if_pos hc] at hx
      rw [← hc.1]
      exact hv x hx
    · rw [if_neg hc] at hx
      exact hx
  refine ⟨?_, ?_, ?_, ?_⟩
  · rw [List.length_set]; exact h.len
  · exact fun j x hx => h.aligned j x (hmem j x hx)
  · exact fun j x hx => h.inside j x (hmem j x hx)
  · exact fun j x hj hx hb => h.no_buddy j x hj (hmem j x hx) (hmem j _ hb)

/-- Adding a block whose buddy is not free keeps the invariant. -/
theorem FbInv_push (K : Nat) (fb : List (List Nat)) (l a : Nat) (h : FbInv K fb)
    (ha : (BASE_BLOCK <<< l) ∣ a) (hin : a + (BASE_BLOCK <<< l) ≤ BASE_BLOCK <<< K)
    (hb : l < K → buddy_address a l ∉ fb.getD l []) :
    FbInv K (fb.set l (fb.getD l [] ++ [a])) := by
  have hmem : ∀ (j x : Nat), x ∈ (fb.set l (fb.getD l [] ++ [a])).getD j [] →
      x ∈ fb.getD j [] ∨ (j = l ∧ x = a) := by
    intro j x hx
    rw [getD_set_lists] at hx
    by_cases hc : l = j ∧ l < fb.length
    · rw [if_pos hc, List.mem_append, List.mem_singleton] at hx
      rcases hx with hx | hx
      · left; rw [← hc.1]; exact hx
      · right; exact ⟨hc.1.symm, hx⟩
    · rw [if_neg hc] at hx
      exact Or.inl hx
  refine ⟨?_, ?_, ?_, ?_⟩
  · rw [List.length_set]; exact h.len
  · intro j x hx
    rcases hmem j x hx with h1 | ⟨rfl, rfl⟩
    · exact h.aligned j x h1
    · exact ha
  · intro j x hx
    rcases hmem j x hx with h1 | ⟨rfl, rfl⟩
    · exact h.inside j x h1
    · exact hin
  · intro j x hj hx hbx
    rcases hmem j x hx with h1 | ⟨rfl, rfl⟩
    · rcases hmem j _ hbx with h2 | ⟨rfl, h2⟩
      · exact h.no_buddy j x hj h1 h2
      · apply hb hj
        rw [← h2, buddy_invol]
        exact h1
    · rcases hmem j _ hbx with h2 | ⟨-, h2⟩
      · exact hb hj h2
      · exact buddy_ne x j h2

theorem FbInv_init (M : Nat) : FbInv (buddy_init M).MAX_LEVEL (buddy_init M).freeBlocks := by
  have hempty : ∀ (n j : Nat), (List.replicate n ([] : List Nat)).getD j [] = [] := by
    intro n j
    rw [List.getD_eq_getElem?_getD, List.getElem?_replicate]
    split <;> rfl
  have hmem : ∀ (K j x : Nat),
      x ∈ ((List.replicate (K + 1) ([] : List Nat)).set K
        ((List.replicate (K + 1) ([] : List Nat)).getD K [] ++ [0])).getD j [] → j = K ∧ x = 0 := by
    intro K j x hx
    rw [getD_set_lists, hempty, hempty] at hx
    by_cases hc : K = j ∧ K < (List.replicate (K + 1) ([] : List Nat)).length
    · rw [if_pos hc] at hx
      simp only [List.nil_append, List.mem_singleton] at hx
      exact ⟨hc.1.symm, hx⟩
    · rw [if_neg hc] at hx
      cases hx
  refine ⟨?_, ?_, ?_, ?_⟩
  · show (List.set _ _ _).length = _
    rw [List.length_set, List.length_replicate]
    rfl
  · intro j x hx
    obtain ⟨-, rfl⟩ := hmem _ j x hx
    exact dvd_zero _
  · intro j x hx
    obtain ⟨rfl, rfl⟩ := hmem _ j x hx
    rw [Nat.zero_add]
    exact le_refl _
  · intro j x hj hx
    obtain ⟨rfl, -⟩ := hmem _ j x hx
    exact absurd hj (lt_irrefl _)

/-! ## The buddy allocator: the loops of `buddy_malloc` -/

theorem searchLoop_spec (fb : List (List Nat)) (K : Nat) :
    ∀ (fuel level : Nat), level ≤ K + 1 → K + 1 - level < fuel →
      level ≤ searchLoop fb K fuel level ∧ searchLoop fb K fuel level ≤ K + 1 ∧
      (∀ j, level ≤ j → j < searchLoop fb K fuel level → fb.getD j [] = []) ∧
      (searchLoop fb K fuel level ≤ K → fb.getD (searchLoop fb K fuel level) [] ≠ []) := by
  intro fuel
  induction fuel with
  | zero => intro level _ h; omega
  | succ f ih =>
    intro level hl hf
    unfold searchLoop
    by_cases hc : (decide (level ≤ K) && (fb.getD level []).isEmpty) = true
    · rw [if_pos hc]
      rw [Bool.and_eq_true, decide_eq_true_eq, List.isEmpty_iff] at hc
      obtain ⟨i1, i2, i3, i4⟩ := ih (level + 1) (by omega) (by omega)
      refine ⟨by omega, i2, ?_, i4⟩
      intro j hj1 hj2
      by_cases e : j = level
      · rw [e]; exact hc.2
      · exact i3 j (by omega) hj2
    · rw [if_neg hc]
      refine ⟨le_refl _, hl, fun j h1 h2 => by omega, ?_⟩
      intro hk hempty
      apply hc
      rw [Bool.and_eq_true, decide_eq_true_eq, List.isEmpty_iff]
      exact ⟨hk, hempty⟩

theorem splitLoop_spec (a T : Nat) :
    ∀ (level : Nat) (fb : List (List Nat)), level ≤ fb.length →
      (splitLoop a T level fb).length = fb.length ∧
      ∀ j, (splitLoop a T level fb).getD j [] =
        if T ≤ j ∧ j < level then fb.getD j [] ++ [a + (BASE_BLOCK <<< j)] else fb.getD j [] := by
  intro level
  induction level with
  | zero =>
    intro fb _
    refine ⟨rfl, fun j => ?_⟩
    rw [if_neg (by omega)]
    rfl
  | succ n ih =>
    intro fb hlen
    unfold splitLoop
    by_cases hc : n + 1 > T
    · rw [if_pos hc]
      obtain ⟨i1, i2⟩ := ih (fb.set n (fb.getD n [] ++ [a + (BASE_BLOCK <<< n)]))
        (by rw [List.length_set]; omega)
      refine ⟨by rw [i1, List.length_set], fun j => ?_⟩
      rw [i2 j]
      by_cases e : j = n
      · subst e
        rw [if_neg (by omega), if_pos ⟨by omega, by omega⟩, getD_set_self _ _ _ (by omega)]
      · rw [getD_set_other _ _ _ _ (fun h => e h.symm)]
        by_cases hj : T ≤ j ∧ j < n
        · rw [if_pos hj, if_pos ⟨hj.1, by omega⟩]
        · rw [if_neg hj, if_neg (by omega)]
    · rw [if_neg hc]
      refine ⟨rfl, fun j => ?_⟩
      rw [if_neg (by omega)]

/-- Splitting a block of level `level` down to the target level keeps the
invariant when the levels in between hold no free block. -/
theorem splitLoop_inv (K a T : Nat) :
    ∀ (level : Nat) (fb : List (List Nat)), FbInv K fb → level ≤ K →
      (BASE_BLOCK <<< level) ∣ a → a + (BASE_BLOCK <<< level) ≤ BASE_BLOCK <<< K →
      (∀ j, T ≤ j → j < level → fb.getD j [] = []) →
      FbInv K (splitLoop a T level fb) := by
  intro level
  induction level with
  | zero => intro fb h _ _ _ _; exact h
  | succ n ih =>
    intro fb h hK hd hin hempty
    unfold splitLoop
    by_cases hc : n + 1 > T
    · rw [if_pos hc]
      have hd1 : (BASE_BLOCK <<< n) ∣ a := Dvd.dvd.trans (bs_dvd n (n + 1) (by omega)) hd
      have h2 := bs_succ n
      refine ih _ (FbInv_push K fb n _ h ?_ ?_ ?_) (by omega) hd1 (by omega) ?_
      · exact (Nat.dvd_add_right hd1).2 (dvd_refl _)
      · omega
      · intro _
        rw [hempty n (by omega) (by omega)]
        exact List.not_mem_nil _
      · intro j h1 h2
        rw [getD_set_other _ _ _ _ (by omega)]
        exact hempty j h1 (by omega)
    · rw [if_neg hc]
      exact h

/-! ## The buddy allocator: the loop of `buddy_free` -/

/-- The loop of `buddy_free` keeps the invariant, and ends at a level where the
buddy of the merged block is not free, or at the top level. -/
theorem freeLoop_inv (K : Nat) :
    ∀ (fuel : Nat) (fb : List (List Nat)) (addr level : Nat), FbInv K fb → level ≤ K →
      (BASE_BLOCK <<< level) ∣ addr → addr + (BASE_BLOCK <<< level) ≤ BASE_BLOCK <<< K →
      K - level ≤ fuel →
      FbInv K (freeLoop K fuel fb addr level).1 ∧
      (BASE_BLOCK <<< (freeLoop K fuel fb addr level).2.2) ∣ (freeLoop K fuel fb addr level).2.1 ∧
      (freeLoop K fuel fb addr level).2.1 + (BASE_BLOCK <<< (freeLoop K fuel fb addr level).2.2)
        ≤ BASE_BLOCK <<< K ∧
      (freeLoop K fuel fb addr level).2.2 ≤ K ∧
      ((freeLoop K fuel fb addr level).2.2 < K →
        buddy_address (freeLoop K fuel fb addr level).2.1 (freeLoop K fuel fb addr level).2.2 ∉
          (freeLoop K fuel fb addr level).1.getD (freeLoop K fuel fb addr level).2.2 []) := by
  intro fuel
  induction fuel with
  | zero =>
    intro fb addr level h hl hd hin hf
    exact ⟨h, hd, hin, hl, fun hc => absurd (show level < K from hc) (by omega)⟩
  | succ f ih =>
    intro fb addr level h hl hd hin hf
    unfold freeLoop
    by_cases hlt : level < K
    · rw [if_pos hlt]
      by_cases hmem : buddy_address addr level ∈ fb.getD level []
      · rw [if_pos hmem]
        have hbin := h.inside level _ hmem
        have h2 := bs_succ level
        have hmin : (BASE_BLOCK <<< (level + 1)) ∣ min addr (buddy_address addr level) ∧
            min addr (buddy_address addr level) + (BASE_BLOCK <<< (level + 1))
              ≤ BASE_BLOCK <<< K := by
          rcases buddy_cases addr level hd with ⟨c1, c2⟩ | ⟨c1, c2⟩
          · have : min addr (buddy_address addr level) = addr := by
              rw [c2]; exact Nat.min_eq_left (by omega)
            rw [this]
            exact ⟨c1, by omega⟩
          · have : min addr (buddy_address addr level) = buddy_address addr level :=
              Nat.min_eq_right (by omega)
            rw [this]
            exact ⟨c1, by omega⟩
        exact ih _ _ _ (FbInv_set_sub K fb level _ h (fun x hx => List.mem_of_mem_erase hx))
          (by omega) hmin.1 hmin.2 (by omega)
      · rw [if_neg hmem]
        exact ⟨h, hd, hin, hl, fun _ => hmem⟩
    · rw [if_neg hlt]
      exact ⟨h, hd, hin, hl, fun hc => absurd hc hlt⟩

/-- Freeing the block that was just split off merges it again with each of the
halves that the split left behind. -/
theorem freeLoop_unsplit (K a L1 : Nat) (hd : (BASE_BLOCK <<< L1) ∣ a) (hL : L1 ≤ K) :
    ∀ (d l fuel : Nat) (g : List (List Nat)), l + d = L1 → K - l ≤ fuel → L1 < g.length →
      (∀ j, l ≤ j → j < L1 → g.getD j [] = [a + (BASE_BLOCK <<< j)]) →
      (L1 < K → buddy_address a L1 ∉ g.getD L1 []) →
      ∃ g1, freeLoop K fuel g a l = (g1, a, L1) ∧ g1.length = g.length ∧
        ∀ j, g1.getD j [] = if l ≤ j ∧ j < L1 then [] else g.getD j [] := by
  intro d
  induction d with
  | zero =>
    intro l fuel g hl hf hlen hsplit hb
    have e : l = L1 := by omega
    subst e
    refine ⟨g, ?_, rfl, fun j => by rw [if_neg (by omega)]⟩
    cases fuel with
    | zero => rfl
    | succ f =>
      unfold freeLoop
      by_cases hlt : l < K
      · rw [if_pos hlt, if_neg (hb hlt)]
      · rw [if_neg hlt]
  | succ n ih =>
    intro l fuel g hl hf hlen hsplit hb
    have hlK : l < K := by omega
    cases fuel with
    | zero => omega
    | succ f =>
      have hup : buddy_address a l = a + (BASE_BLOCK <<< l) :=
        buddy_up a l (Dvd.dvd.trans (bs_dvd (l + 1) L1 (by omega)) hd)
      have hlist := hsplit l (le_refl l) (by omega)
      unfold freeLoop
      rw [if_pos hlK, hup, hlist, if_pos (List.mem_singleton.2 rfl)]
      have herase : [a + (BASE_BLOCK <<< l)].erase (a + (BASE_BLOCK <<< l)) = [] := by
        rw [List.erase_cons_head]
      have hmin : min a (a + (BASE_BLOCK <<< l)) = a := Nat.min_eq_left (Nat.le_add_right _ _)
      rw [herase, hmin]
      obtain ⟨g1, e1, e2, e3⟩ := ih (l + 1) f (g.set l []) (by omega) (by omega)
        (by rw [List.length_set]; exact hlen)
        (fun j h1 h2 => by rw [getD_set_other _ _ _ _ (by omega)]; exact hsplit j (by omega) h2)
        (fun h => by rw [getD_set_other _ _ _ _ (by omega)]; exact hb h)
      refine ⟨g1, e1, by rw [e2, List.length_set], fun j => ?_⟩
      rw [e3 j]
      by_cases e : j = l
      · subst e
        rw [if_neg (by omega), if_pos ⟨le_refl j, by omega⟩, getD_set_self _ _ _ (by omega)]
      · rw [getD_set_other _ _ _ _ (fun h => e h.symm)]
        by_cases hj : l + 1 ≤ j ∧ j < L1
        · rw [if_pos hj, if_pos ⟨by omega, hj.2⟩]
        · rw [if_neg hj, if_neg (by omega)]

theorem lists_ext (l1 l2 : List (List Nat)) (hlen : l1.length = l2.length)
    (h : ∀ j, l1.getD j [] = l2.getD j []) : l1 = l2 := by
  apply List.ext_getElem?
  intro n
  by_cases hn : n < l1.length
  · have h1 := h n
    rw [List.getD_eq_getElem?_getD, List.getD_eq_getElem?_getD,
      List.getElem?_eq_getElem hn, List.getElem?_eq_getElem (by omega)] at h1
    rw [List.getElem?_eq_getElem hn, List.getElem?_eq_getElem (by omega)]
    exact congrArg some h1
  · rw [List.getElem?_eq_none (by omega), List.getElem?_eq_none (by omega)]

/-! ## The buddy allocator: a call of `buddy_malloc` -/

/-- The ways in which `buddy_malloc` returns. -/
theorem buddy_malloc_some (b b1 : Buddy) (r a : Nat) (h : buddy_malloc b r = some (b1, a)) :
    ∃ s T L1, normalize_size r = some s ∧ size_to_level s = some T ∧
      L1 = searchLoop b.freeBlocks b.MAX_LEVEL (b.MAX_LEVEL + 2) T ∧
      ((b1 = b ∧ a = SIZE_MAX) ∨
       (T ≤ b.MAX_LEVEL ∧ L1 ≤ b.MAX_LEVEL ∧
        a = ((b.freeBlocks.getD L1 []).getLast?).getD 0 ∧
        b1 = { b with freeBlocks :=
          (splitLoop a T L1 (b.freeBlocks.set L1 (b.freeBlocks.getD L1 []).dropLast)) })) := by
  unfold buddy_malloc at h
  cases hn : normalize_size r with
  | none => simp only [hn] at h; cases h
  | some s =>
    cases hl : size_to_level s with
    | none => simp only [hn, hl] at h; cases h
    | some T =>
      simp only [hn, hl] at h
      refine ⟨s, T, _, rfl, hl, rfl, ?_⟩
      split_ifs at h with h1 h2
      · simp only [Option.some.injEq, Prod.mk.injEq] at h
        exact Or.inl ⟨h.1.symm, h.2.symm⟩
      · simp only [Option.some.injEq, Prod.mk.injEq] at h
        exact Or.inl ⟨h.1.symm, h.2.symm⟩
      · simp only [Option.some.injEq, Prod.mk.injEq] at h
        refine Or.inr ⟨by omega, by omega, h.2.symm, ?_⟩
        rw [← h.2]
        exact h.1.symm

/-- The block that `buddy_malloc` takes: the last one of the first level, from
the target level up, that has a free block. -/
theorem malloc_block (K : Nat) (fb : List (List Nat)) (T L1 a : Nat) (hinv : FbInv K fb)
    (hT : T ≤ K) (hL1 : L1 = searchLoop fb K (K + 2) T) (hLK : L1 ≤ K)
    (ha : a = ((fb.getD L1 []).getLast?).getD 0) :
    T ≤ L1 ∧ (∀ j, T ≤ j → j < L1 → fb.getD j [] = []) ∧
    fb.getD L1 [] = (fb.getD L1 []).dropLast ++ [a] ∧
    (BASE_BLOCK <<< L1) ∣ a ∧ a + (BASE_BLOCK <<< L1) ≤ BASE_BLOCK <<< K ∧
    (L1 < K → buddy_address a L1 ∉ (fb.getD L1 []).dropLast) := by
  obtain ⟨i1, -, i3, i4⟩ := searchLoop_spec fb K (K + 2) T (by omega) (by omega)
  rw [← hL1] at i1 i3 i4
  have hne := i4 hLK
  have hlist : fb.getD L1 [] = (fb.getD L1 []).dropLast ++ [a] := by
    cases hlast : (fb.getD L1 []).getLast? with
    | none => exact absurd (List.getLast?_eq_none_iff.1 hlast) hne
    | some x =>
      rw [hlast] at ha
      have : a = x := ha
      rw [this]
      exact (List.dropLast_append_getLast? x hlast).symm
  have hmem : a ∈ fb.getD L1 [] := by
    rw [hlist]
    exact List.mem_append_right _ (List.mem_singleton.2 rfl)
  refine ⟨i1, i3, hlist, hinv.aligned L1 a hmem, hinv.inside L1 a hmem, ?_⟩
  intro hlt hb
  exact hinv.no_buddy L1 a hlt hmem (List.mem_of_mem_dropLast hb)

theorem malloc_inv (K : Nat) (fb : List (List Nat)) (T L1 a : Nat) (hinv : FbInv K fb)
    (hT : T ≤ K) (hL1 : L1 = searchLoop fb K (K + 2) T) (hLK : L1 ≤ K)
    (ha : a = ((fb.getD L1 []).getLast?).getD 0) :
    FbInv K (splitLoop a T L1 (fb.set L1 (fb.getD L1 []).dropLast)) := by
  obtain ⟨-, m2, -, m4, m5, -⟩ := malloc_block K fb T L1 a hinv hT hL1 hLK ha
  refine splitLoop_inv K a T L1 _
    (FbInv_set_sub K fb L1 _ hinv (fun x hx => List.mem_of_mem_dropLast hx)) hLK m4 m5 ?_
  intro j h1 h2
  rw [getD_set_other _ _ _ _ (by omega)]
  exact m2 j h1 h2

/-- On the free lists, `buddy_free` of the block that `buddy_malloc` has just
returned gives back the lists from before. -/
theorem round_trip_lists (K : Nat) (fb : List (List Nat)) (T L1 a : Nat) (hinv : FbInv K fb)
    (hT : T ≤ K) (hL1 : L1 = searchLoop fb K (K + 2) T) (hLK : L1 ≤ K)
    (ha : a = ((fb.getD L1 []).getLast?).getD 0) :
    (freeLoop K K (splitLoop a T L1 (fb.set L1 (fb.getD L1 []).dropLast)) a T).1.set
      (freeLoop K K (splitLoop a T L1 (fb.set L1 (fb.getD L1 []).dropLast)) a T).2.2
      ((freeLoop K K (splitLoop a T L1 (fb.set L1 (fb.getD L1 []).dropLast)) a T).1.getD
        (freeLoop K K (splitLoop a T L1 (fb.set L1 (fb.getD L1 []).dropLast)) a T).2.2 [] ++
        [(freeLoop K K (splitLoop a T L1 (fb.set L1 (fb.getD L1 []).dropLast)) a T).2.1]) = fb := by
  obtain ⟨m1, m2, m3, m4, m5, m6⟩ := malloc_block K fb T L1 a hinv hT hL1 hLK ha
  have hlen := hinv.len
  have hlen1 : (fb.set L1 (fb.getD L1 []).dropLast).length = K + 1 := by
    rw [List.length_set]; exact hlen
  obtain ⟨s1, s2⟩ := splitLoop_spec a T L1 (fb.set L1 (fb.getD L1 []).dropLast) (by omega)
  have hsplit : ∀ j, T ≤ j → j < L1 →
      (splitLoop a T L1 (fb.set L1 (fb.getD L1 []).dropLast)).getD j []
        = [a + (BASE_BLOCK <<< j)] := by
    intro j h1 h2
    rw [s2 j, if_pos ⟨h1, h2⟩, getD_set_other _ _ _ _ (by omega), m2 j h1 h2]
    rfl
  have htop : (splitLoop a T L1 (fb.set L1 (fb.getD L1 []).dropLast)).getD L1 []
      = (fb.getD L1 []).dropLast := by
    rw [s2 L1, if_neg (by omega), getD_set_self _ _ _ (by omega)]
  obtain ⟨g1, e1, e2, e3⟩ := freeLoop_unsplit K a L1 m4 hLK (L1 - T) T K
    (splitLoop a T L1 (fb.set L1 (fb.getD L1 []).dropLast)) (by omega) (by omega) (by omega)
    hsplit (fun h => by rw [htop]; exact m6 h)
  rw [e1]
  show g1.set L1 (g1.getD L1 [] ++ [a]) = fb
  have hg1top : g1.getD L1 [] = (fb.getD L1 []).dropLast := by
    rw [e3 L1, if_neg (by omega), htop]
  apply lists_ext
  · rw [List.length_set, e2, s1, hlen1, hlen]
  · intro j
    by_cases e : j = L1
    · subst e
      rw [getD_set_self _ _ _ (by omega), hg1top]
      exact m3.symm
    · rw [getD_set_other _ _ _ _ (fun h => e h.symm), e3 j]
      by_cases hj : T ≤ j ∧ j < L1
      · rw [if_pos hj, m2 j hj.1 hj.2]
      · rw [if_neg hj, s2 j, if_neg hj, getD_set_other _ _ _ _ (fun h => e h.symm)]

/-! ## The buddy allocator: the reachable states -/

theorem reach_inv (M : Nat) (b : Buddy) (live : List (Nat × Nat)) (h : BReach M b live) :
    b.MAX_LEVEL = (buddy_init M).MAX_LEVEL ∧ FbInv b.MAX_LEVEL b.freeBlocks ∧
      LiveOk b.MAX_LEVEL live := by
  induction h with
  | init => exact ⟨rfl, FbInv_init M, fun a r hmem => by cases hmem⟩
  | malloc b b1 live r a hreach hm ih =>
    obtain ⟨ih1, ih2, ih3⟩ := ih
    obtain ⟨s, T, L1, hn, hl, hL1, hc | ⟨hT, hLK, ha, hb1⟩⟩ := buddy_malloc_some b b1 r a hm
    · rw [hc.1, if_pos hc.2]
      exact ⟨ih1, ih2, ih3⟩
    · have hK : b1.MAX_LEVEL = b.MAX_LEVEL := by rw [hb1]
      rw [hK]
      refine ⟨ih1, ?_, ?_⟩
      · rw [hb1]
        exact malloc_inv b.MAX_LEVEL b.freeBlocks T L1 a ih2 hT hL1 hLK ha
      · obtain ⟨m1, -, -, m4, m5, -⟩ :=
          malloc_block b.MAX_LEVEL b.freeBlocks T L1 a ih2 hT hL1 hLK ha
        split
        · exact ih3
        · intro a2 r2 hmem
          rcases List.mem_cons.1 hmem with e | hmem
          · simp only [Prod.mk.injEq] at e
            rw [e.1, e.2]
            have := bs_le T L1 m1
            exact ⟨s, T, hn, hl, hT, Dvd.dvd.trans (bs_dvd T L1 m1) m4, by omega⟩
          · exact ih3 a2 r2 hmem
  | free b b1 live a r hreach hmem hf ih =>
    obtain ⟨ih1, ih2, ih3⟩ := ih
    obtain ⟨s, l, hn, hl, hlK, hd, hin⟩ := ih3 a r hmem
    unfold buddy_free at hf
    simp only [hn, hl, Option.some.injEq] at hf
    have hK : b1.MAX_LEVEL = b.MAX_LEVEL := by rw [← hf]
    rw [hK]
    refine ⟨ih1, ?_, ?_⟩
    · obtain ⟨f1, f2, f3, f4, f5⟩ :=
        freeLoop_inv b.MAX_LEVEL b.MAX_LEVEL b.freeBlocks a l ih2 hlK hd hin (by omega)
      rw [← hf]
      exact FbInv_push b.MAX_LEVEL _ _ _ f1 f2 f3 f5
    · intro a2 r2 hmem2
      exact ih3 a2 r2 (List.mem_of_mem_erase hmem2)

theorem buddy_init_level (k : Nat) (hk : 32 * 2 ^ k < 2 ^ 64) :
    (buddy_init (32 * 2 ^ k)).MAX_LEVEL = k := by
  have hk64 : k ≤ 64 := by
    by_contra hc
    have : 2 ^ 64 ≤ 2 ^ k := Nat.pow_le_pow_right (by omega) (by omega)
    omega
  show initLoop (32 * 2 ^ k / BASE_BLOCK) 64 0 = k
  rw [show BASE_BLOCK = 32 from rfl, Nat.mul_div_cancel_left _ (by omega)]
  exact initLoop_pow k 64 0 (by omega) (by omega)

/-- For every request up to `2 ^ 63` the call `buddy_malloc` returns. -/
theorem buddy_malloc_returns (b : Buddy) (r : Nat) (hr : r ≤ 2 ^ 63) :
    ∃ p, buddy_malloc b r = some p := by
  obtain ⟨s, hn⟩ := normalize_total r hr
  obtain ⟨j, hj, hs, -, -⟩ := normalize_some r s hn
  have hl : size_to_level s = some j := by rw [hs]; exact size_to_level_bs j hj
  unfold buddy_malloc
  simp only [hn, hl]
  split_ifs
  · exact ⟨_, rfl⟩
  · exact ⟨_, rfl⟩
  · exact ⟨_, rfl⟩

/-- Claim C23: in a state reached from `buddy_init (32 * 2 ^ k)` by calls of
`buddy_malloc` and by calls of `buddy_free` on pairs that were returned and are
not freed yet, when `buddy_malloc r` returns an address `a` other than
`SIZE_MAX`, the normalized size is the smallest `32 * 2 ^ j` that is at least
`r`, `a` is a multiple of it and the block ends inside the memory, and
`buddy_free a r` right after it returns and gives back the state from before
the call, so every free list is as it was. -/
theorem buddy_round_trip (k : Nat) (hk : 32 * 2 ^ k < 2 ^ 64) (b : Buddy)
    (live : List (Nat × Nat)) (hreach : BReach (32 * 2 ^ k) b live) (r a : Nat) (b1 : Buddy)
    (hm : buddy_malloc b r = some (b1, a)) (ha : a ≠ SIZE_MAX) :
    (∃ j, normalize_size r = some (32 * 2 ^ j) ∧ r ≤ 32 * 2 ^ j ∧
      (∀ j2, r ≤ 32 * 2 ^ j2 → j ≤ j2) ∧ (32 * 2 ^ j) ∣ a ∧ a + 32 * 2 ^ j ≤ 32 * 2 ^ k) ∧
    buddy_free b1 a r = some b := by
  obtain ⟨h1, h2, h3⟩ := reach_inv _ b live hreach
  rw [buddy_init_level k hk] at h1
  obtain ⟨s, T, L1, hn, hl, hL1, hc | ⟨hT, hLK, haddr, hb1⟩⟩ := buddy_malloc_some b b1 r a hm
  · exact absurd hc.2 ha
  · obtain ⟨j, hj, hs, hrs, hmin⟩ := normalize_some r s hn
    have hTj : T = j := by
      rw [hs, size_to_level_bs j hj] at hl
      exact (Option.some.inj hl).symm
    subst hTj
    have hbs : ∀ (l : Nat), BASE_BLOCK <<< l = 32 * 2 ^ l := fun l => Nat.shiftLeft_eq _ _
    obtain ⟨m1, -, -, m4, m5, -⟩ :=
      malloc_block b.MAX_LEVEL b.freeBlocks T L1 a h2 hT hL1 hLK haddr
    refine ⟨⟨T, ?_, ?_, ?_, ?_, ?_⟩, ?_⟩
    · rw [hn, hs, hbs]
    · rw [← hbs, ← hs]; exact hrs
    · intro j2 hj2
      by_contra hcon
      have := hmin j2 (by omega)
      rw [hbs] at this
      omega
    · rw [← hbs]
      exact Dvd.dvd.trans (bs_dvd T L1 m1) m4
    · have := bs_le T L1 m1
      rw [h1] at m5
      rw [← hbs, ← hbs]
      omega
    · have hrt := round_trip_lists b.MAX_LEVEL b.freeBlocks T L1 a h2 hT hL1 hLK haddr
      unfold buddy_free
      simp only [hn, hl]
      subst hb1
      cases b with
      | mk ts ml fbs =>
        simp only [Option.some.injEq, Buddy.mk.injEq, true_and]
        exact hrt

/-- Claim C23 on a memory of 1024 units: `buddy_malloc 100` right after
`buddy_init 1024` returns 0 and leaves the halves 128, 256 and 512 free, and
`buddy_free 0 100` leaves block 0 of the top level as the only free block. -/
theorem buddy_round_trip_witness :
    (32 * 2 ^ 5 < 2 ^ 64 ∧
      buddy_malloc (buddy_init 1024) 100
        = some (⟨1024, 5, [[], [], [128], [256], [512], []]⟩, 0) ∧ 0 ≠ SIZE_MAX) ∧
    buddy_free ⟨1024, 5, [[], [], [128], [256], [512], []]⟩ 0 100
      = some ⟨1024, 5, [[], [], [], [], [], [0]]⟩ :=
  ⟨⟨by decide, by decide, by decide⟩,
    (buddy_round_trip 5 (by decide) (buddy_init 1024) [] (BReach.init) 100 0
      ⟨1024, 5, [[], [], [128], [256], [512], []]⟩ (by decide) (by decide)).2⟩

/-! ## The contiguous allocator: overflow of `NEXT_ID` -/

theorem wrap32_idem (x : Int) : wrap32 (wrap32 x) = wrap32 x := by
  unfold wrap32
  omega

theorem wrap32_succ (x : Int) (k : Int) : wrap32 (wrap32 (x + 1) + k) = wrap32 (x + (k + 1)) := by
  unfold wrap32
  omega

theorem runOps_append (l1 l2 : List AllocOp) :
    ∀ (a : Allocator), a.runOps (l1 ++ l2) = (a.runOps l1).runOps l2 := by
  induction l1 with
  | nil => intro a; rfl
  | cons op rest ih =>
    intro a
    show (a.step op).runOps (rest ++ l2) = ((a.step op).runOps rest).runOps l2
    exact ih _

theorem churn_positive (n : Nat) : ∀ (c : Int), ∀ op ∈ churn n c, op.positive := by
  induction n with
  | zero => intro c op h; cases h
  | succ k ih =>
    intro c op h
    rcases List.mem_cons.1 h with rfl | h
    · exact le_refl 1
    · rcases List.mem_cons.1 h with rfl | h
      · trivial
      · exact ih _ op h

/-- One round on a memory that is one free segment: the allocation takes the
id `NEXT_ID`, the release merges the two segments again, and only the counters
have moved. -/
theorem churn_round (n : Nat) (c s f : Int) :
    ({ segments := [{ start := 0, size := n + 1, free := true, id := -1 }], TOTAL_MEMORY := n + 1,
       NEXT_ID := c, success_count := s, failure_count := f } : Allocator).runOps
        [AllocOp.firstFit 1, AllocOp.release c] =
      { segments := [{ start := 0, size := n + 1, free := true, id := -1 }], TOTAL_MEMORY := n + 1,
        NEXT_ID := wrap32 (c + 1), success_count := wrap32 (s + 1), failure_count := f } := by
  cases n with
  | zero =>
    simp [Allocator.runOps, Allocator.step, first_fit_malloc, firstIdx, allocate_using_index,
      free_block, coalesce_free_segments, coalesceFrom]
  | succ m =>
    simp [Allocator.runOps, Allocator.step, first_fit_malloc, firstIdx, allocate_using_index,
      free_block, coalesce_free_segments, coalesceFrom, List.insertIdx]
    omega

/-- After `rounds` rounds the memory is one free segment again and `NEXT_ID`
has been incremented `rounds` times. -/
theorem churn_run (n : Nat) (rounds : Nat) :
    ∀ (c s f : Int), ∃ s1,
      ({ segments := [{ start := 0, size := n + 1, free := true, id := -1 }],
         TOTAL_MEMORY := n + 1, NEXT_ID := wrap32 c, success_count := s,
         failure_count := f } : Allocator).runOps (churn rounds (wrap32 c)) =
        { segments := [{ start := 0, size := n + 1, free := true, id := -1 }],
          TOTAL_MEMORY := n + 1, NEXT_ID := wrap32 (c + rounds), success_count := s1,
          failure_count := f } := by
  induction rounds with
  | zero =>
    intro c s f
    exact ⟨s, by rw [Nat.cast_zero, Int.add_zero]; rfl⟩
  | succ k ih =>
    intro c s f
    obtain ⟨s1, h1⟩ := ih (wrap32 c + 1) (wrap32 (s + 1)) f
    refine ⟨s1, ?_⟩
    have happ : churn (k + 1) (wrap32 c) =
        [AllocOp.firstFit 1, AllocOp.release (wrap32 c)] ++ churn k (wrap32 (wrap32 c + 1)) := rfl
    rw [happ, runOps_append, churn_round, h1]
    have e : wrap32 (wrap32 c + 1 + (k : Int)) = wrap32 (c + ((k + 1 : Nat) : Int)) := by
      push_cast
      unfold wrap32
      omega
    rw [e]

/-- Claim C22, refuted as stated.  On a memory of 100 units, after
`2 ^ 32 - 2` rounds of `first_fit_malloc(1)` and the `free_block` of the id it
returned, `NEXT_ID` has wrapped around to -1, and the next `first_fit_malloc(1)`
hands out the id -1: the first segment is allocated and carries the id of a
free segment. -/
theorem allocator_layout_counterexample :
    (0 < 100 ∧ ∀ op ∈ churn (2 ^ 32 - 2) 1 ++ [AllocOp.firstFit 1], op.positive) ∧
    ((init_memory 100).runOps (churn (2 ^ 32 - 2) 1 ++ [AllocOp.firstFit 1])).segments =
      [{ start := 0, size := 1, free := false, id := -1 },
       { start := 1, size := 99, free := true, id := -1 }] ∧
    ¬ (∀ s ∈ ((init_memory 100).runOps
          (churn (2 ^ 32 - 2) 1 ++ [AllocOp.firstFit 1])).segments,
        (s.free = true ↔ s.id = -1)) := by
  have hw1 : wrap32 1 = 1 := by decide
  have hwN : wrap32 (1 + ((2 ^ 32 - 2 : Nat) : Int)) = -1 := by decide
  obtain ⟨s1, h1⟩ := churn_run 99 (2 ^ 32 - 2) 1 0 0
  rw [hw1, hwN] at h1
  have hinit : init_memory 100 =
      { segments := [{ start := 0, size := 99 + 1, free := true, id := -1 }],
        TOTAL_MEMORY := 99 + 1, NEXT_ID := 1, success_count := 0, failure_count := 0 } := rfl
  have hseg : ((init_memory 100).runOps (churn (2 ^ 32 - 2) 1 ++ [AllocOp.firstFit 1])).segments =
      [{ start := 0, size := 1, free := false, id := -1 },
       { start := 1, size := 99, free := true, id := -1 }] := by
    rw [runOps_append, hinit, h1]
    simp [Allocator.runOps, Allocator.step, first_fit_malloc, firstIdx, allocate_using_index,
      List.insertIdx]
  refine ⟨⟨by decide, ?_⟩, hseg, ?_⟩
  · intro op hop
    rcases List.mem_append.1 hop with h | h
    · exact churn_positive _ _ op h
    · rw [List.mem_singleton] at h
      rw [h]
      exact le_refl 1
  · rw [hseg]
    intro hall
    have := (hall { start := 0, size := 1, free := false, id := -1 } (List.mem_cons_self _ _)).2 rfl
    cases this

/-! ## The contiguous allocator: the number of segments -/

theorem coalesceFrom_length (rest : List Block) :
    ∀ (last : Block), (coalesceFrom last rest).length ≤ rest.length + 1 := by
  induction rest with
  | nil => intro last; exact le_refl _
  | cons s rest ih =>
    intro last
    unfold coalesceFrom
    split
    · have := ih { last with size := last.size + s.size }
      rw [List.length_cons]
      omega
    · have := ih s
      rw [List.length_cons, List.length_cons]
      omega

theorem coalesce_length (l : List Block) : (coalesce_free_segments l).length ≤ l.length := by
  cases l with
  | nil => exact le_refl _
  | cons s rest => exact coalesceFrom_length rest s

theorem allocate_length (a : Allocator) (i req : Nat) :
    (allocate_using_index a i req).1.segments.length ≤ a.segments.length + 1 := by
  unfold allocate_using_index
  simp only
  split
  · refine le_trans (List.length_insertIdx_le_succ _ _ _) ?_
    rw [List.length_set]
  · rw [List.length_set]
    omega

theorem step_length (a : Allocator) (op : AllocOp) :
    (a.step op).segments.length ≤ a.segments.length + (if op.isAlloc = true then 1 else 0) := by
  cases op with
  | firstFit req =>
    show (first_fit_malloc a req).1.segments.length ≤ a.segments.length + 1
    unfold first_fit_malloc
    split
    · exact allocate_length a _ req
    · exact Nat.le_add_right _ _
  | bestFit req =>
    show (best_fit_malloc a req).1.segments.length ≤ a.segments.length + 1
    unfold best_fit_malloc
    split
    · exact Nat.le_add_right _ _
    · exact allocate_length a _ req
  | worstFit req =>
    show (worst_fit_malloc a req).1.segments.length ≤ a.segments.length + 1
    unfold worst_fit_malloc
    split
    · exact Nat.le_add_right _ _
    · exact allocate_length a _ req
  | release id =>
    show (free_block a id).segments.length ≤ a.segments.length + 0
    unfold free_block
    split
    · refine le_trans (coalesce_length _) ?_
      rw [List.length_set]
      exact le_refl _
    · exact le_refl _

/-- The list grows by at most one segment per allocation call, so with fewer
than `2 ^ 31 - 1` allocation calls after `init_memory` every index into it fits
the `int` that the source keeps it in. -/
theorem runOps_length (ops : List AllocOp) :
    ∀ (a : Allocator), (a.runOps ops).segments.length ≤ a.segments.length + allocCalls ops := by
  induction ops with
  | nil => intro a; exact Nat.le_add_right _ _
  | cons op rest ih =>
    intro a
    have h1 := ih (a.step op)
    have h2 := step_length a op
    rw [allocCalls_cons]
    show ((a.step op).runOps rest).segments.length ≤ _
    omega

/-! ## Accesses inside the vectors -/

/-- In a unit with at least one frame every entry of the page table names a
frame that exists. -/
theorem frame_lt_of_reachable (vm : VirtualMemory) (h : Reachable vm) :
    0 < vm.frames → ∀ e ∈ vm.table, e.frame < vm.frames := by
  induction h with
  | init vSize pSize pSizePg =>
    intro hfr e he
    rw [List.eq_of_mem_replicate he]
    exact hfr
  | @step vm va hreach hin ih =>
    intro hfr e he
    have hcfg := vm_access_config vm va
    rw [hcfg.2.2.1] at hfr ⊢
    have ih1 := ih hfr
    have hget : ∀ (i : Nat), (vm.table.getD i default).frame < vm.frames := by
      intro i
      by_cases hi : i < vm.table.length
      · have := getElem?_of_lt vm.table i default hi
        exact ih1 _ (List.mem_iff_getElem?.2 ⟨i, this⟩)
      · rw [List.getD_eq_default _ _ (by omega)]
        exact hfr
    cases hv : (vm.table.getD (va / vm.pageSize) default).valid with
    | true =>
      rw [vm_access_hit vm va hv] at he
      rcases List.mem_or_eq_of_mem_set he with h1 | h1
      · exact ih1 e h1
      · rw [h1]
        exact hget _
    | false =>
      cases hf : firstFree vm.frameMap vm.frames with
      | some f =>
        rw [vm_access_free vm va f hv hf] at he
        rcases List.mem_or_eq_of_mem_set he with h1 | h1
        · exact ih1 e h1
        · rw [h1]
          exact (firstFree_eq_some _ _ _ hf).1
      | none =>
        rw [vm_access_evict vm va hv hf] at he
        rcases List.mem_or_eq_of_mem_set he with h1 | h1
        · rcases List.mem_or_eq_of_mem_set h1 with h2 | h2
          · exact ih1 e h2
          · rw [h2]
            exact hget _
        · rw [h1]
          exact hget _

/-- In a state reached by in-range accesses of a unit with at least one frame,
an in-range access stays inside the vectors. -/
theorem accessDefined_of_reachable (vm : VirtualMemory) (va : Nat) (h : Reachable vm)
    (hfr : 0 < vm.frames) (hin : va / vm.pageSize < vm.pages) : vm.accessDefined va := by
  have hpart := Part_of_reachable vm h
  have hlen := frameMap_len_of_reachable vm h
  have hframe := frame_lt_of_reachable vm h hfr
  have hpages : 0 < vm.pages := Nat.lt_of_le_of_lt (Nat.zero_le _) hin
  have hps := pageSize_pos_of_reachable vm h hpages
  refine ⟨hps, by rw [hpart.table_len]; exact hin, ?_⟩
  intro _ _
  have hv : vm.select_victim < vm.table.length :=
    select_victim_lt vm (by rw [hpart.table_len]; exact hpages)
  refine ⟨by omega, hv, ?_⟩
  rw [hlen]
  exact hframe _ (List.mem_iff_getElem?.2 ⟨_, getElem?_of_lt vm.table _ default hv⟩)

theorem runDefined_of_reachable (tr : List Nat) :
    ∀ (vm : VirtualMemory), Reachable vm → 0 < vm.frames →
      (∀ va ∈ tr, va / vm.pageSize < vm.pages) → vm.runDefined tr := by
  induction tr with
  | nil => intro vm _ _ _; trivial
  | cons va rest ih =>
    intro vm h hfr hin
    have hva := hin va (List.mem_cons_self _ _)
    have hcfg := vm_access_config vm va
    refine ⟨accessDefined_of_reachable vm va h hfr hva, ?_⟩
    refine ih _ (Reachable.step va h hva) (by rw [hcfg.2.2.1]; exact hfr) ?_
    intro v hv
    rw [hcfg.1, hcfg.2.1]
    exact hin v (List.mem_cons_of_mem _ hv)

theorem run_reachableIn (tr : List Nat) :
    ∀ (n : Nat) (vm : VirtualMemory), ReachableIn n vm →
      (∀ va ∈ tr, va / vm.pageSize < vm.pages) → ReachableIn (n + tr.length) (vm.run tr).1 := by
  induction tr with
  | nil => intro n vm h _; exact h
  | cons va rest ih =>
    intro n vm h hin
    have hva := hin va (List.mem_cons_self _ _)
    have hcfg := vm_access_config vm va
    have := ih (n + 1) _ (ReachableIn.step va h hva) (by
      intro v hv
      rw [hcfg.1, hcfg.2.1]
      exact hin v (List.mem_cons_of_mem _ hv))
    rw [run_cons, List.length_cons]
    rw [show n + (rest.length + 1) = n + 1 + rest.length from by omega]
    exact this

theorem cache_accessDefined (c : CacheLevel) (addr : Nat) (h : c.WF) (hb : 0 < c.blockSize) :
    c.accessDefined addr :=
  ⟨hb, h.sets_pos, h.index_in_range addr, h.setAt_ne_nil addr⟩

theorem cache_runDefined (addrs : List Nat) :
    ∀ (c : CacheLevel), c.WF → 0 < c.blockSize → c.runDefined addrs := by
  induction addrs with
  | nil => intro c _ _; trivial
  | cons a rest ih =>
    intro c h hb
    refine ⟨cache_accessDefined c a h hb, ih _ (h.access_wf a) ?_⟩
    rw [(access_geometry c a).1]
    exact hb

/-! ## Construction and out-of-range addresses -/

/-- Claim C18, refuted as stated.  A page size of 48 is not a power of two and
divides neither 2048 nor 512, yet the constructor returns a unit (42 pages, 10
frames) whose accesses are classified as usual; block size 24 and a set count
of 3 are not powers of two, yet the cache levels are constructed and answer
accesses. -/
theorem construction_unchecked_counterexample :
    2 ^ log2 48 ≠ 48 ∧ 2048 % 48 ≠ 0 ∧ 512 % 48 ≠ 0 ∧
      (VirtualMemory.mk0 2048 512 48).pages = 42 ∧
      (VirtualMemory.mk0 2048 512 48).frames = 10 ∧
      ((VirtualMemory.mk0 2048 512 48).run [0, 100, 0]).2.map classify
        = [PageOutcome.FAULT, PageOutcome.FAULT, PageOutcome.HIT] ∧
      2 ^ log2 24 ≠ 24 ∧
      (CacheLevel.mk0 256 24 4 CachePolicy.LRU).setsCount = 2 ∧
      ((CacheLevel.mk0 256 24 4 CachePolicy.LRU).access 64).2 = false ∧
      (((CacheLevel.mk0 256 24 4 CachePolicy.LRU).access 64).1.access 64).2 = true ∧
      (CacheLevel.mk0 384 32 4 CachePolicy.LRU).setsCount = 3 ∧
      2 ^ log2 3 ≠ 3 ∧
      (((CacheLevel.mk0 384 32 4 CachePolicy.LRU).access 64).1.access 64).2 = true := by
  decide

/-- Claim C18, amended.  The constructors validate nothing.  For every virtual
size, every page size of at least 1 and every physical size of at least one
page, whether or not the page size is a power of two or divides the sizes, the
paging unit is built with `pages = vSize / pageSize` and
`frames = pSize / pageSize` (rounded down, at least 1), every page invalid and
on disk, every frame free and the counters at zero, and it is usable: on every
trace of in-range addresses each access stays inside the vectors and is counted
as a hit or as a fault.  For every capacity, block size and number of ways that
give at least one set and one way, whether or not block size and set count are
powers of two, the cache level is built with
`setsCount = (cacheSize / blockSize) / ways` sets of `ways` invalid lines, and
it is usable: on every trace each access stays inside the vectors, and an
address accessed twice in a row hits the second time. -/
theorem construction_unchecked (vSize pSize pSizePg c b w : Nat) (p : CachePolicy)
    (tr addrs : List Nat) (hps : 0 < pSizePg) (hfr : pSizePg ≤ pSize)
    (htr : ∀ va ∈ tr, va / pSizePg < vSize / pSizePg)
    (hs : 0 < (c / b) / w) (hw : 0 < w) :
    ((VirtualMemory.mk0 vSize pSize pSizePg).pageSize = pSizePg ∧
      (VirtualMemory.mk0 vSize pSize pSizePg).pages = vSize / pSizePg ∧
      (VirtualMemory.mk0 vSize pSize pSizePg).frames = pSize / pSizePg ∧
      0 < (VirtualMemory.mk0 vSize pSize pSizePg).frames ∧
      (VirtualMemory.mk0 vSize pSize pSizePg).table
        = List.replicate (vSize / pSizePg) { valid := false, frame := 0, time := 0 } ∧
      (VirtualMemory.mk0 vSize pSize pSizePg).frameMap = List.replicate (pSize / pSizePg) (-1) ∧
      (VirtualMemory.mk0 vSize pSize pSizePg).disk = Finset.range (vSize / pSizePg) ∧
      (VirtualMemory.mk0 vSize pSize pSizePg).clock = 0 ∧
      (VirtualMemory.mk0 vSize pSize pSizePg).hits = 0 ∧
      (VirtualMemory.mk0 vSize pSize pSizePg).faults = 0 ∧
      (VirtualMemory.mk0 vSize pSize pSizePg).runDefined tr ∧
      ((VirtualMemory.mk0 vSize pSize pSizePg).run tr).1.hits
        + ((VirtualMemory.mk0 vSize pSize pSizePg).run tr).1.faults = tr.length) ∧
    ((CacheLevel.mk0 c b w p).setsCount = (c / b) / w ∧
      (CacheLevel.mk0 c b w p).sets
        = List.replicate ((c / b) / w)
            (List.replicate w { valid := false, tag := 0, stamp := 0 }) ∧
      (CacheLevel.mk0 c b w p).hits = 0 ∧ (CacheLevel.mk0 c b w p).misses = 0 ∧
      (CacheLevel.mk0 c b w p).clock = 0 ∧
      (CacheLevel.mk0 c b w p).runDefined addrs ∧
      ∀ addr : Nat,
        ((((CacheLevel.mk0 c b w p).run addrs).access addr).1.access addr).2 = true) := by
  have hframes : 0 < (VirtualMemory.mk0 vSize pSize pSizePg).frames :=
    Nat.div_pos hfr hps
  have hdef := runDefined_of_reachable tr (VirtualMemory.mk0 vSize pSize pSizePg)
    (Reachable.init _ _ _) hframes htr
  have hcount := counters_of_reachableIn _ _
    (run_reachableIn tr 0 (VirtualMemory.mk0 vSize pSize pSizePg) (ReachableIn.init _ _ _) htr)
  have hb : 0 < b := by
    by_contra hc
    have : b = 0 := by omega
    rw [this, Nat.div_zero, Nat.zero_div] at hs
    exact absurd hs (lt_irrefl 0)
  have hwf := WF_mk0 c b w p hs hw
  refine ⟨⟨rfl, rfl, rfl, hframes, rfl, rfl, rfl, rfl, rfl, rfl, hdef, ?_⟩,
    ⟨rfl, rfl, rfl, rfl, rfl, cache_runDefined addrs _ hwf hb, ?_⟩⟩
  · rw [hcount.1, hcount.2.1, Nat.zero_add]
  · intro addr
    exact (run_wf addrs _ hwf).1.access_twice addr

/-- Claim C18 (amended) at page size 48 with the trace 0, 100, 0, and at block
size 24 with the trace 64, 64. -/
theorem construction_unchecked_witness :
    (0 < 48 ∧ 48 ≤ 512 ∧ (∀ va ∈ [0, 100, 0], va / 48 < 2048 / 48) ∧
      0 < (256 / 24) / 4 ∧ 0 < 4) ∧
      (VirtualMemory.mk0 2048 512 48).frames = 512 / 48 ∧
      (VirtualMemory.mk0 2048 512 48).runDefined [0, 100, 0] ∧
      (CacheLevel.mk0 256 24 4 CachePolicy.LRU).runDefined [64, 64] :=
  ⟨⟨by decide, by decide, by decide, by decide, by decide⟩,
    (construction_unchecked 2048 512 48 256 24 4 CachePolicy.LRU [0, 100, 0] [64, 64]
      (by decide) (by decide) (by decide) (by decide) (by decide)).1.2.2.1,
    (construction_unchecked 2048 512 48 256 24 4 CachePolicy.LRU [0, 100, 0] [64, 64]
      (by decide) (by decide) (by decide) (by decide) (by decide)).1.2.2.2.2.2.2.2.2.2.2.1,
    (construction_unchecked 2048 512 48 256 24 4 CachePolicy.LRU [0, 100, 0] [64, 64]
      (by decide) (by decide) (by decide) (by decide) (by decide)).2.2.2.2.2.2.1⟩

/-- Claim C19, refuted as stated.  On `VirtualMemory(2048, 512, 64)` address
2048 lies on page 32, one past the last page, so the access reads `table[32]`
of a vector of 32 entries.  Nothing is raised: the access is classified FAULT,
counts as a fault, advances the clock, pages "page 32" in and writes 32 into
slot 0 of the frame map. -/
theorem out_of_range_access_counterexample :
    ¬ (2048 / (VirtualMemory.mk0 2048 512 64).pageSize < (VirtualMemory.mk0 2048 512 64).pages) ∧
      ¬ (VirtualMemory.mk0 2048 512 64).accessDefined 2048 ∧
      classify ((VirtualMemory.mk0 2048 512 64).access 2048).2 = PageOutcome.FAULT ∧
      ((VirtualMemory.mk0 2048 512 64).access 2048).2
        = [Event.pageFault 2048, Event.pageIn 32, Event.cache CacheOutcome.Miss] ∧
      ((VirtualMemory.mk0 2048 512 64).access 2048).1.faults = 1 ∧
      ((VirtualMemory.mk0 2048 512 64).access 2048).1.clock = 1 ∧
      ((VirtualMemory.mk0 2048 512 64).access 2048).1.frameMap.getD 0 0 = 32 ∧
      ((VirtualMemory.mk0 2048 512 64).access 2048).1.frameMap
        ≠ (VirtualMemory.mk0 2048 512 64).frameMap := by
  decide

/-- Claim C19, amended.  `access` checks no range and has no error outcome: it
uses `va / pageSize` as the index into the page table as it is.  In every state
reached by in-range accesses from a construction with at least one frame, the
access of `va` stays inside the vectors exactly when `va / pageSize < pages`;
for an out-of-range `va` the first read, `table[page]`, is past the end of the
table, and nothing is said about what follows. -/
theorem out_of_range_access (vm : VirtualMemory) (va : Nat) (hr : Reachable vm)
    (hfr : 0 < vm.frames) :
    (vm.accessDefined va ↔ va / vm.pageSize < vm.pages) ∧
      (vm.pages ≤ va / vm.pageSize → vm.table.length ≤ va / vm.pageSize) := by
  have hlen := (Part_of_reachable vm hr).table_len
  refine ⟨⟨fun h => ?_, accessDefined_of_reachable vm va hr hfr⟩, fun h => ?_⟩
  · rw [← hlen]
    exact h.2.1
  · rw [hlen]
    exact h

/-- Claim C19 (amended) at `VirtualMemory(2048, 512, 64)` after the accesses 0
and 64: address 2047 is in range and its access stays inside the vectors,
address 2048 is not and its access does not. -/
theorem out_of_range_access_witness :
    (Reachable ((VirtualMemory.mk0 2048 512 64).run [0, 64]).1 ∧
      0 < ((VirtualMemory.mk0 2048 512 64).run [0, 64]).1.frames) ∧
      ((VirtualMemory.mk0 2048 512 64).run [0, 64]).1.accessDefined 2047 ∧
      ¬ ((VirtualMemory.mk0 2048 512 64).run [0, 64]).1.accessDefined 2048 :=
  ⟨⟨Reachable.step 64 (Reachable.step 0 (Reachable.init 2048 512 64) (by decide)) (by decide),
      by decide⟩,
    (out_of_range_access _ 2047
      (Reachable.step 64 (Reachable.step 0 (Reachable.init 2048 512 64) (by decide)) (by decide))
      (by decide)).1.2 (by decide),
    fun h => absurd ((out_of_range_access _ 2048
      (Reachable.step 64 (Reachable.step 0 (Reachable.init 2048 512 64) (by decide)) (by decide))
      (by decide)).1.1 h) (by decide)⟩

end MemSim
